import Mathlib

/-!
# mini_stl::vector: a verification development

Embedding of `include/vector/mini_vector.h` and `include/vector/mini_iterator.h`.

Modelling decisions, all visible in the definitions below.

* A pointer `T*` is an integer address counted in elements; `nullptr` is `0`.
* A vector owns one block of storage.  The field `store` of the embedded
  `vector` is the content of the block that `data_` points to, one `Slot` per
  element-sized cell.  A slot records the value its cell holds (`none` while
  the cell is indeterminate) and whether an object lifetime is open in it
  (`live`, opened by `std::construct_at`, closed by `std::destroy_at`).
  Values are stored the way a trivially copyable `T` (the `int` of the test
  programs) stores them: an assignment writes the cell whatever `live` says,
  and a move leaves its source as it was.  The event of an assignment records
  whether its target held an object (`Event.assign p live`), so an assignment
  to a cell in which no object was constructed, undefined for an element type
  with a non-trivial assignment operator, shows in the trace (`raw_assigns`).
* A parameter of reference type (`const T &`, `T &&`, `Args &&...`) is a `Ref`:
  either an object of the caller outside the storage of the vector, or the
  object at an address, as an element of the vector itself is.  The function
  reads it where the source does, after the growth and the shift; a reference
  into a block that the growth has released dangles, and reading it is
  undefined behaviour.
* `Machine` is the part of the world the container talks to: the allocator
  (`brk`, bump allocation, never fails, never returns `nullptr`), the element
  type's constructors (`script`: the outcomes of the coming constructor calls,
  `true` meaning that the call throws; past the end of the script every call
  succeeds) and the `trace` of the storage events so far.
* `size_t` is `Nat`.  The source computes `capacity_ * 2` and `++size_` only on
  counts of slots it has allocated, so these are not reduced modulo `2 ^ 64`;
  the two subtractions (`--size_`, `size_ -= ...`) are, see `size_t_sub`.
  `difference_type` is `Int`.
* A member function takes the machine and the object and returns a `Result`:
  the returned value or the exception, and the machine and the object as the
  call leaves them (also when it throws).  Undefined behaviour (an access
  outside the block, a read of an indeterminate cell) is reported as
  `Exn.undefined_behaviour`; `catch (...)` does not catch it.
-/

namespace mini_stl

/-- The ways a call can end other than by returning. -/
inductive Exn where
  | out_of_range
  | element_failure
  | undefined_behaviour
deriving DecidableEq, Repr

deriving instance DecidableEq for Except

/-- One element-sized cell of a storage block. -/
structure Slot (T : Type) where
  value : Option T
  live : Bool
deriving DecidableEq, Repr

/-- Storage events, in the order the program performs them. -/
inductive Event where
  | allocate (p : Int) (n : Nat)
  | deallocate (p : Int) (n : Nat)
  | construct (p : Int)
  | destroy (p : Int)
  | assign (p : Int) (live : Bool)
deriving DecidableEq, Repr

/-- The environment of the container: constructor outcomes, allocator, event trace. -/
structure Machine where
  script : List Bool
  brk : Nat
  trace : List Event
deriving DecidableEq, Repr

/-- State of a storage block after a step on it, with the step's outcome. -/
structure Run (T : Type) where
  ret : Except Exn Unit
  mach : Machine
  slots : List (Slot T)

/-- The class `vector<T, Allocator>`: `data_`, `size_`, `capacity_` and the block `data_` owns.
`alloc_` is the stateless `std::allocator<T>`; its effect is in `Machine`. -/
structure vector (T : Type) where
  data_ : Int
  size_ : Nat
  capacity_ : Nat
  store : List (Slot T)
deriving DecidableEq, Repr

/-- Outcome of a member function: returned value or exception, machine and object afterwards. -/
structure Result (T α : Type) where
  ret : Except Exn α
  mach : Machine
  self : vector T

/-- The class `vector_iterator<T>` (and `vector_const_iterator<T>`): a wrapped position. -/
structure vector_iterator where
  ptr_ : Int
deriving DecidableEq, Repr

/-- Arithmetic of `size_t` where the source subtracts: the result modulo `2 ^ 64`. -/
def size_t_sub (a : Nat) (d : Int) : Nat :=
  (((a : Int) - d) % (2 ^ 64 : Int)).toNat

/-! ## Storage primitives -/

/-- Read of `*p` in the block at `base`. -/
def load {T : Type} (base : Int) (slots : List (Slot T)) (p : Int) : Except Exn T :=
  if p < base then .error .undefined_behaviour
  else
    match slots[(p - base).toNat]? with
    | some ⟨some x, _⟩ => .ok x
    | _ => .error .undefined_behaviour

/-- Assignment `*p = x` in the block at `base`. -/
def assign {T : Type} (m : Machine) (base : Int) (slots : List (Slot T)) (p : Int) (x : T) :
    Run T :=
  if p < base then ⟨.error .undefined_behaviour, m, slots⟩
  else
    match slots[(p - base).toNat]? with
    | none => ⟨.error .undefined_behaviour, m, slots⟩
    | some s =>
      ⟨.ok (), { m with trace := m.trace ++ [Event.assign p s.live] },
        slots.set (p - base).toNat { s with value := some x }⟩

/-- Call of `std::construct_at(p, x)` in the block at `base`; the constructor of `T` throws when
the script says so. -/
def construct_at {T : Type} (m : Machine) (base : Int) (slots : List (Slot T)) (p : Int)
    (x : T) : Run T :=
  if p < base then ⟨.error .undefined_behaviour, m, slots⟩
  else
    match slots[(p - base).toNat]? with
    | none => ⟨.error .undefined_behaviour, m, slots⟩
    | some _ =>
      if m.script.headD false then
        ⟨.error .element_failure, { m with script := m.script.tail }, slots⟩
      else
        ⟨.ok (), { m with script := m.script.tail, trace := m.trace ++ [Event.construct p] },
          slots.set (p - base).toNat ⟨some x, true⟩⟩

/-- Call of `std::destroy_at(p)` in the block at `base`. -/
def destroy_at {T : Type} (m : Machine) (base : Int) (slots : List (Slot T)) (p : Int) :
    Run T :=
  if p < base then ⟨.error .undefined_behaviour, m, slots⟩
  else
    match slots[(p - base).toNat]? with
    | none => ⟨.error .undefined_behaviour, m, slots⟩
    | some _ =>
      ⟨.ok (), { m with trace := m.trace ++ [Event.destroy p] },
        slots.set (p - base).toNat ⟨none, false⟩⟩

/-- Call of `alloc_.allocate(n)`: a fresh block of `n` raw slots at a non-null address. -/
def allocate {T : Type} (m : Machine) (n : Nat) : Machine × Int × List (Slot T) :=
  ({ m with brk := m.brk + 1 + n, trace := m.trace ++ [Event.allocate ((m.brk : Int) + 1) n] },
    (m.brk : Int) + 1, List.replicate n ⟨none, false⟩)

/-- Call of `alloc_.deallocate(p, n)`. -/
def deallocate (m : Machine) (p : Int) (n : Nat) : Machine :=
  { m with trace := m.trace ++ [Event.deallocate p n] }

/-! ## Loops over storage -/

/-- The loop `for (; i < size_; ++i) std::construct_at(new_data + i, std::move_if_noexcept(data_[i]))`
of `reserve` and `shrink_to_fit`, with `todo` iterations left; returns the state and `i` when the
loop ends or throws. -/
def relocate {T : Type} (data_ : Int) (store : List (Slot T)) (new_data : Int) :
    Nat → Nat → Machine → List (Slot T) → Run T × Nat
  | 0, i, m, fresh => (⟨.ok (), m, fresh⟩, i)
  | todo + 1, i, m, fresh =>
    match load data_ store (data_ + (i : Int)) with
    | .error e => (⟨.error e, m, fresh⟩, i)
    | .ok x =>
      let r := construct_at m new_data fresh (new_data + (i : Int)) x
      match r.ret with
      | .error _ => (r, i)
      | .ok _ => relocate data_ store new_data todo (i + 1) r.mach r.slots

/-- The loop `for (size_t j = ...; j < ...; ++j) std::destroy_at(base + j)`, with `todo`
iterations left. -/
def destroy_range {T : Type} (base : Int) : Nat → Nat → Machine → List (Slot T) → Run T
  | 0, _, m, slots => ⟨.ok (), m, slots⟩
  | todo + 1, j, m, slots =>
    let r := destroy_at m base slots (base + (j : Int))
    match r.ret with
    | .error _ => r
    | .ok _ => destroy_range base todo (j + 1) r.mach r.slots

/-- The assignment `*dst = std::move(*src)` between two cells of the block at `base`. -/
def move_assign {T : Type} (m : Machine) (base : Int) (slots : List (Slot T)) (dst src : Int) :
    Run T :=
  match load base slots src with
  | .error e => ⟨.error e, m, slots⟩
  | .ok x => assign m base slots dst x

/-! ## Reference arguments

`push_back`, `emplace_back`, `insert` and `resize(size_t, const T &)` take the new value by
reference and read it when they construct or assign the element, after they have grown the
block or shifted its elements.  What such a read yields depends on what the reference refers
to, so the argument is embedded as a `Ref`, not as the value it held when the call was made. -/

/-- What a reference argument (`const T &`, `T &&`, a forwarded argument) refers to: an object
outside the storage of the vector (a variable or temporary of the caller, an element of another
container), holding `x` throughout the call, or the object at address `p` of the storage of the
vector itself, as `v[k]` is when the call is made. -/
inductive Ref (T : Type) where
  | object (x : T)
  | cell (p : Int)
deriving DecidableEq, Repr

/-- Read through a reference argument while the block of the vector is `slots` at `base`.  A
reference into the storage of the vector that is not to a cell of this block holding a value
dangles: it refers into the block that a reallocation destroyed and released. -/
def Ref.read {T : Type} (base : Int) (slots : List (Slot T)) : Ref T → Except Exn T
  | .object x => .ok x
  | .cell p => load base slots p

/-! ## Iterators -/

/-- The iterator's `operator+(difference_type)`. -/
def vector_iterator.add (it : vector_iterator) (n : Int) : vector_iterator :=
  ⟨it.ptr_ + n⟩

/-- The iterator's `operator-(difference_type)`. -/
def vector_iterator.sub (it : vector_iterator) (n : Int) : vector_iterator :=
  ⟨it.ptr_ - n⟩

/-- The iterator's `operator-(const vector_iterator &)`. -/
def vector_iterator.diff (it rhs : vector_iterator) : Int :=
  it.ptr_ - rhs.ptr_

/-- The iterator's `operator==`. -/
def vector_iterator.eq (it rhs : vector_iterator) : Bool :=
  it.ptr_ == rhs.ptr_

/-- The iterator's `operator!=`. -/
def vector_iterator.ne (it rhs : vector_iterator) : Bool :=
  it.ptr_ != rhs.ptr_

/-- The iterator's pre-increment `operator++()`. -/
def vector_iterator.inc (it : vector_iterator) : vector_iterator :=
  ⟨it.ptr_ + 1⟩

/-- The iterator's pre-decrement `operator--()`. -/
def vector_iterator.dec (it : vector_iterator) : vector_iterator :=
  ⟨it.ptr_ - 1⟩

/-- The iterator's `base()`. -/
def vector_iterator.base (it : vector_iterator) : Int :=
  it.ptr_

/-! ## Loops driven by iterators

Each of these loops runs until its iterator meets a stop position.  An iteration that succeeds
has touched a cell of the block, and the iterator moves one way only, so the loop makes at most
as many successful iterations as the block has cells between the start and its edge; `fuel` is
that bound, and the branch that runs out of it stands for the access outside the block that the
next iteration would make. -/

/-- The loop `for (iterator it = end(); it != pos; --it) *it = std::move(*(it - 1))` of `insert`. -/
def insert_shift {T : Type} (base : Int) (pos : vector_iterator) :
    Nat → vector_iterator → Machine → List (Slot T) → Run T
  | 0, it, m, slots =>
    if it.ne pos then
      let r := move_assign m base slots it.ptr_ (it.sub 1).ptr_
      match r.ret with
      | .error _ => r
      | .ok _ => ⟨.error .undefined_behaviour, r.mach, r.slots⟩
    else ⟨.ok (), m, slots⟩
  | fuel + 1, it, m, slots =>
    if it.ne pos then
      let r := move_assign m base slots it.ptr_ (it.sub 1).ptr_
      match r.ret with
      | .error _ => r
      | .ok _ => insert_shift base pos fuel it.dec r.mach r.slots
    else ⟨.ok (), m, slots⟩

/-- The loop `for (iterator it = pos; it != end() - 1; ++it) *it = std::move(*(it + 1))` of
`erase(pos)`; `stop` is `end() - 1`. -/
def erase_shift {T : Type} (base : Int) (stop : vector_iterator) :
    Nat → vector_iterator → Machine → List (Slot T) → Run T
  | 0, it, m, slots =>
    if it.ne stop then
      let r := move_assign m base slots it.ptr_ (it.add 1).ptr_
      match r.ret with
      | .error _ => r
      | .ok _ => ⟨.error .undefined_behaviour, r.mach, r.slots⟩
    else ⟨.ok (), m, slots⟩
  | fuel + 1, it, m, slots =>
    if it.ne stop then
      let r := move_assign m base slots it.ptr_ (it.add 1).ptr_
      match r.ret with
      | .error _ => r
      | .ok _ => erase_shift base stop fuel it.inc r.mach r.slots
    else ⟨.ok (), m, slots⟩

/-- The algorithm `std::move(first, last, d_first)` of the standard library on iterators into
the block at `base`: for each `n` in `[0, last - first)` it performs
`*(d_first + n) = std::move(*(first + n))`; `count` is the number of elements left to move.
Returns the state and the iterator past the last element written. -/
def std_move {T : Type} (base : Int) :
    Nat → vector_iterator → vector_iterator → Machine → List (Slot T) → Run T × vector_iterator
  | 0, _, d_first, m, slots => (⟨.ok (), m, slots⟩, d_first)
  | count + 1, first, d_first, m, slots =>
    let r := move_assign m base slots d_first.ptr_ first.ptr_
    match r.ret with
    | .error _ => (r, d_first)
    | .ok _ => std_move base count first.inc d_first.inc r.mach r.slots

/-- The loop `for (iterator it = new_end; it != end(); ++it) std::destroy_at(it.base())` of
`erase(first, last)`; `stop` is `end()`. -/
def erase_destroy {T : Type} (base : Int) (stop : vector_iterator) :
    Nat → vector_iterator → Machine → List (Slot T) → Run T
  | 0, it, m, slots =>
    if it.ne stop then
      let r := destroy_at m base slots it.base
      match r.ret with
      | .error _ => r
      | .ok _ => ⟨.error .undefined_behaviour, r.mach, r.slots⟩
    else ⟨.ok (), m, slots⟩
  | fuel + 1, it, m, slots =>
    if it.ne stop then
      let r := destroy_at m base slots it.base
      match r.ret with
      | .error _ => r
      | .ok _ => erase_destroy base stop fuel it.inc r.mach r.slots
    else ⟨.ok (), m, slots⟩

/-! ## The container -/

/-- The default constructor `vector()`. -/
def vector.mk_default (T : Type) : vector T :=
  ⟨0, 0, 0, []⟩

/-- The member `size()`. -/
def vector.size {T : Type} (v : vector T) : Nat :=
  v.size_

/-- The member `capacity()`. -/
def vector.capacity {T : Type} (v : vector T) : Nat :=
  v.capacity_

/-- The member `begin()`. -/
def vector.begin {T : Type} (v : vector T) : vector_iterator :=
  ⟨v.data_⟩

/-- The member `end()`. -/
def vector.end {T : Type} (v : vector T) : vector_iterator :=
  ⟨v.data_ + (v.size_ : Int)⟩

/-- The member `operator[]`: the reference `data_[index]`, as the address it refers to. -/
def vector.subscript {T : Type} (v : vector T) (index : Nat) : Int :=
  v.data_ + (index : Int)

/-- The member `at`: the reference `data_[index]` after the range check. -/
def vector.at {T : Type} (m : Machine) (v : vector T) (index : Nat) : Result T Int :=
  if index ≥ v.size_ then ⟨.error .out_of_range, m, v⟩
  else ⟨.ok (v.data_ + (index : Int)), m, v⟩

/-- Read through a reference into the vector's block. -/
def vector.read {T : Type} (v : vector T) (p : Int) : Except Exn T :=
  load v.data_ v.store p

/-- The member `reserve`. -/
def vector.reserve {T : Type} (m : Machine) (v : vector T) (new_cap : Nat) : Result T Unit :=
  if new_cap ≤ v.capacity_ then ⟨.ok (), m, v⟩
  else
    let a := allocate m new_cap
    let new_data := a.2.1
    let l := relocate v.data_ v.store new_data v.size_ 0 a.1 a.2.2
    match l.1.ret with
    | .error .undefined_behaviour => ⟨.error .undefined_behaviour, l.1.mach, v⟩
    | .error e =>
      let d := destroy_range new_data l.2 0 l.1.mach l.1.slots
      match d.ret with
      | .error e2 => ⟨.error e2, d.mach, v⟩
      | .ok _ => ⟨.error e, deallocate d.mach new_data new_cap, v⟩
    | .ok _ =>
      let d := destroy_range v.data_ v.size_ 0 l.1.mach v.store
      match d.ret with
      | .error e => ⟨.error e, d.mach, { v with store := d.slots }⟩
      | .ok _ =>
        let m1 := if v.data_ ≠ 0 then deallocate d.mach v.data_ v.capacity_ else d.mach
        ⟨.ok (), m1, ⟨new_data, v.size_, new_cap, l.1.slots⟩⟩

/-- The member `__maybe_resize`. -/
def vector.__maybe_resize {T : Type} (m : Machine) (v : vector T) : Result T Unit :=
  vector.reserve m v (if v.capacity_ = 0 then 1 else v.capacity_ * 2)

/-- The member `push_back(const T &)`.  The copy constructor that `std::construct_at` calls
reads `value` after the growth check. -/
def vector.push_back {T : Type} (m : Machine) (v : vector T) (value : Ref T) : Result T Unit :=
  let g : Result T Unit :=
    if v.size_ = v.capacity_ then vector.__maybe_resize m v else ⟨.ok (), m, v⟩
  match g.ret with
  | .error e => ⟨.error e, g.mach, g.self⟩
  | .ok _ =>
    match value.read g.self.data_ g.self.store with
    | .error e => ⟨.error e, g.mach, g.self⟩
    | .ok x =>
      let c := construct_at g.mach g.self.data_ g.self.store
        (g.self.data_ + (g.self.size_ : Int)) x
      match c.ret with
      | .error e => ⟨.error e, c.mach, { g.self with store := c.slots }⟩
      | .ok _ => ⟨.ok (), c.mach, { g.self with store := c.slots, size_ := g.self.size_ + 1 }⟩

/-- The member `shrink_to_fit`. -/
def vector.shrink_to_fit {T : Type} (m : Machine) (v : vector T) : Result T Unit :=
  if v.size_ = v.capacity_ then ⟨.ok (), m, v⟩
  else
    let a := allocate m v.size_
    let new_data := a.2.1
    let l := relocate v.data_ v.store new_data v.size_ 0 a.1 a.2.2
    match l.1.ret with
    | .error .undefined_behaviour => ⟨.error .undefined_behaviour, l.1.mach, v⟩
    | .error e =>
      let d := destroy_range new_data l.2 0 l.1.mach l.1.slots
      match d.ret with
      | .error e2 => ⟨.error e2, d.mach, v⟩
      | .ok _ => ⟨.error e, deallocate d.mach new_data v.size_, v⟩
    | .ok _ =>
      let d := destroy_range v.data_ v.size_ 0 l.1.mach v.store
      match d.ret with
      | .error e => ⟨.error e, d.mach, { v with store := d.slots }⟩
      | .ok _ =>
        ⟨.ok (), deallocate d.mach v.data_ v.capacity_, ⟨new_data, v.size_, v.size_, l.1.slots⟩⟩

/-- The member `insert(iterator pos, const T &value)`.  `idx` is kept as the `difference_type`
it is computed in: `begin() + idx` converts the `size_t` back.  `*pos = value` reads `value`
after the growth check and the shift. -/
def vector.insert {T : Type} (m : Machine) (v : vector T) (pos : vector_iterator)
    (value : Ref T) : Result T vector_iterator :=
  let idx : Int := pos.diff v.begin
  let g : Result T Unit :=
    if v.size_ = v.capacity_ then vector.__maybe_resize m v else ⟨.ok (), m, v⟩
  match g.ret with
  | .error e => ⟨.error e, g.mach, g.self⟩
  | .ok _ =>
    let pos := g.self.begin.add idx
    let l := insert_shift g.self.data_ pos g.self.size_ g.self.end g.mach g.self.store
    match l.ret with
    | .error e => ⟨.error e, l.mach, { g.self with store := l.slots }⟩
    | .ok _ =>
      match value.read g.self.data_ l.slots with
      | .error e => ⟨.error e, l.mach, { g.self with store := l.slots }⟩
      | .ok x =>
        let w := assign l.mach g.self.data_ l.slots pos.ptr_ x
        match w.ret with
        | .error e => ⟨.error e, w.mach, { g.self with store := w.slots }⟩
        | .ok _ => ⟨.ok pos, w.mach, { g.self with store := w.slots, size_ := g.self.size_ + 1 }⟩

/-- The member `erase(iterator pos)`. -/
def vector.erase {T : Type} (m : Machine) (v : vector T) (pos : vector_iterator) :
    Result T vector_iterator :=
  let l := erase_shift v.data_ (v.end.sub 1) v.store.length pos m v.store
  match l.ret with
  | .error e => ⟨.error e, l.mach, { v with store := l.slots }⟩
  | .ok _ =>
    let v1 : vector T := { v with store := l.slots, size_ := size_t_sub v.size_ 1 }
    let d := destroy_at l.mach v1.data_ v1.store v1.end.base
    match d.ret with
    | .error e => ⟨.error e, d.mach, { v1 with store := d.slots }⟩
    | .ok _ => ⟨.ok pos, d.mach, { v1 with store := d.slots }⟩

/-- The member `erase(iterator first, iterator last)`.  A `last` before `first`, or an `end()`
before `last`, is not a range, which `std::move` requires. -/
def vector.erase_range {T : Type} (m : Machine) (v : vector T) (first last : vector_iterator) :
    Result T vector_iterator :=
  if first.eq last then ⟨.ok first, m, v⟩
  else if v.end.diff last < 0 then ⟨.error .undefined_behaviour, m, v⟩
  else
    let l := std_move v.data_ (v.end.diff last).toNat last first m v.store
    let new_end := l.2
    match l.1.ret with
    | .error e => ⟨.error e, l.1.mach, { v with store := l.1.slots }⟩
    | .ok _ =>
      let d := erase_destroy v.data_ v.end v.store.length new_end l.1.mach l.1.slots
      match d.ret with
      | .error e => ⟨.error e, d.mach, { v with store := d.slots }⟩
      | .ok _ =>
        ⟨.ok first, d.mach, { v with store := d.slots, size_ := size_t_sub v.size_ (last.diff first) }⟩

/-- The values the vector holds at indices `0 .. size_ - 1`, `none` for an indeterminate cell. -/
def vector.contents {T : Type} (v : vector T) : List (Option T) :=
  (v.store.take v.size_).map Slot.value

/-- The value in cell `j` of a block, `none` when the cell is indeterminate or outside it. -/
def cell {T : Type} (slots : List (Slot T)) (j : Nat) : Option T :=
  (slots[j]?).bind Slot.value

/-- A block of `cap` cells after the first `j` values of `vals` were constructed into it. -/
def filled {T : Type} (vals : List T) (cap j : Nat) : List (Slot T) :=
  (vals.take j).map (fun x => (⟨some x, true⟩ : Slot T)) ++ List.replicate (cap - j) ⟨none, false⟩

/-- The machine after `k` constructor calls that succeeded, into the cells `i .. i + k - 1` of
the block at `p`. -/
def constructed (m : Machine) (p : Int) (i k : Nat) : Machine :=
  { m with script := m.script.drop k,
           trace := m.trace ++ (List.range' i k).map (fun j => Event.construct (p + (j : Int))) }

/-- The machine after the cells `j .. j + k - 1` of the block at `p` were destroyed in that
order. -/
def destroyed (m : Machine) (p : Int) (j k : Nat) : Machine :=
  { m with trace := m.trace ++ (List.range' j k).map (fun i => Event.destroy (p + (i : Int))) }

/-- The representation invariant: `size_` within `capacity_`, and the owned block has exactly
`capacity_` cells. -/
def vector.wf {T : Type} (v : vector T) : Prop :=
  v.size_ ≤ v.capacity_ ∧ v.store.length = v.capacity_

instance {T : Type} (v : vector T) : Decidable v.wf := by
  unfold vector.wf
  infer_instance

/-- The machine after `allocate` handed out a block of `n` cells. -/
def allocated (m : Machine) (n : Nat) : Machine :=
  ⟨m.script, m.brk + 1 + n, m.trace ++ [Event.allocate ((m.brk : Int) + 1) n]⟩

/-- The machine after a reallocation of the block of `v` to `n` cells that succeeded: allocation,
`size_` constructions, `size_` destructions in the old block, release of the old block. -/
def reallocated {T : Type} (m : Machine) (v : vector T) (n : Nat) (guarded : Bool) : Machine :=
  let m2 := destroyed (constructed (allocated m n) ((m.brk : Int) + 1) 0 v.size_) v.data_ 0 v.size_
  if guarded ∧ v.data_ = 0 then m2 else deallocate m2 v.data_ v.capacity_

/-- A client that calls `push_back` once for each element of `xs`, in order, with arguments of
its own (literals, loop variables) as the test programs do; a call that throws ends the
sequence. -/
def push_all {T : Type} (m : Machine) (v : vector T) : List T → Result T Unit
  | [] => ⟨.ok (), m, v⟩
  | x :: xs =>
    let r := v.push_back m (.object x)
    match r.ret with
    | .error e => ⟨.error e, r.mach, r.self⟩
    | .ok _ => push_all r.mach r.self xs

/-- The relation between length and capacity that appending to an empty vector maintains:
both zero, or the capacity is a power of two with `size ≤ cap < 2 * size`. -/
def doubling (size cap : Nat) : Prop :=
  (size = 0 ∧ cap = 0) ∨ ∃ k, cap = 2 ^ k ∧ size ≤ cap ∧ cap < 2 * size

/-- The part of `insert` that follows the growth check, on the object `w` the check leaves. -/
def insert_rest {T : Type} (m : Machine) (w : vector T) (idx : Int) (value : Ref T) :
    Result T vector_iterator :=
  let pos := w.begin.add idx
  let l := insert_shift w.data_ pos w.size_ w.end m w.store
  match l.ret with
  | .error e => ⟨.error e, l.mach, { w with store := l.slots }⟩
  | .ok _ =>
    match value.read w.data_ l.slots with
    | .error e => ⟨.error e, l.mach, { w with store := l.slots }⟩
    | .ok x =>
      let a := assign l.mach w.data_ l.slots pos.ptr_ x
      match a.ret with
      | .error e => ⟨.error e, a.mach, { w with store := a.slots }⟩
      | .ok _ => ⟨.ok pos, a.mach, { w with store := a.slots, size_ := w.size_ + 1 }⟩

/-! ## The remaining iterator operations and the read-only iterator -/

/-- The iterator's `operator*`: the reference `*ptr_`, as the address it refers to. -/
def vector_iterator.deref (it : vector_iterator) : Int :=
  it.ptr_

/-- The iterator's `operator->`. -/
def vector_iterator.arrow (it : vector_iterator) : Int :=
  it.ptr_

/-- The iterator's post-increment `operator++(int)`: the returned copy, then the iterator
after the call. -/
def vector_iterator.post_inc (it : vector_iterator) : vector_iterator × vector_iterator :=
  let tmp := it
  (tmp, it.inc)

/-- The iterator's post-decrement `operator--(int)`: the returned copy, then the iterator
after the call. -/
def vector_iterator.post_dec (it : vector_iterator) : vector_iterator × vector_iterator :=
  let tmp := it
  (tmp, it.dec)

/-- The iterator's `operator+=`. -/
def vector_iterator.add_assign (it : vector_iterator) (n : Int) : vector_iterator :=
  ⟨it.ptr_ + n⟩

/-- The iterator's `operator-=`. -/
def vector_iterator.sub_assign (it : vector_iterator) (n : Int) : vector_iterator :=
  ⟨it.ptr_ - n⟩

/-- The iterator's `operator[]`: the reference `*(ptr_ + n)`, as the address it refers to. -/
def vector_iterator.index (it : vector_iterator) (n : Int) : Int :=
  it.ptr_ + n

/-- The iterator's `operator<`. -/
def vector_iterator.lt (it rhs : vector_iterator) : Bool :=
  decide (it.ptr_ < rhs.ptr_)

/-- The iterator's `operator>`. -/
def vector_iterator.gt (it rhs : vector_iterator) : Bool :=
  decide (it.ptr_ > rhs.ptr_)

/-- The iterator's `operator<=`. -/
def vector_iterator.le (it rhs : vector_iterator) : Bool :=
  decide (it.ptr_ ≤ rhs.ptr_)

/-- The iterator's `operator>=`. -/
def vector_iterator.ge (it rhs : vector_iterator) : Bool :=
  decide (it.ptr_ ≥ rhs.ptr_)

/-- The class `vector_const_iterator<T>`: a wrapped position, read-only. -/
structure vector_const_iterator where
  ptr_ : Int
deriving DecidableEq, Repr

/-- The converting constructor `vector_const_iterator(const vector_iterator<T> &)`. -/
def vector_const_iterator.of_iterator (it : vector_iterator) : vector_const_iterator :=
  ⟨it.base⟩

/-- The read-only iterator's `operator*`. -/
def vector_const_iterator.deref (it : vector_const_iterator) : Int :=
  it.ptr_

/-- The read-only iterator's `operator->`. -/
def vector_const_iterator.arrow (it : vector_const_iterator) : Int :=
  it.ptr_

/-- The read-only iterator's pre-increment. -/
def vector_const_iterator.inc (it : vector_const_iterator) : vector_const_iterator :=
  ⟨it.ptr_ + 1⟩

/-- The read-only iterator's post-increment: the returned copy, then the iterator after the
call. -/
def vector_const_iterator.post_inc (it : vector_const_iterator) :
    vector_const_iterator × vector_const_iterator :=
  let tmp := it
  (tmp, it.inc)

/-- The read-only iterator's pre-decrement. -/
def vector_const_iterator.dec (it : vector_const_iterator) : vector_const_iterator :=
  ⟨it.ptr_ - 1⟩

/-- The read-only iterator's post-decrement: the returned copy, then the iterator after the
call. -/
def vector_const_iterator.post_dec (it : vector_const_iterator) :
    vector_const_iterator × vector_const_iterator :=
  let tmp := it
  (tmp, it.dec)

/-- The read-only iterator's `operator+=`. -/
def vector_const_iterator.add_assign (it : vector_const_iterator) (n : Int) :
    vector_const_iterator :=
  ⟨it.ptr_ + n⟩

/-- The read-only iterator's `operator-=`. -/
def vector_const_iterator.sub_assign (it : vector_const_iterator) (n : Int) :
    vector_const_iterator :=
  ⟨it.ptr_ - n⟩

/-- The read-only iterator's `operator+(difference_type)`. -/
def vector_const_iterator.add (it : vector_const_iterator) (n : Int) : vector_const_iterator :=
  ⟨it.ptr_ + n⟩

/-- The read-only iterator's `operator-(difference_type)`. -/
def vector_const_iterator.sub (it : vector_const_iterator) (n : Int) : vector_const_iterator :=
  ⟨it.ptr_ - n⟩

/-- The read-only iterator's `operator-(const vector_const_iterator &)`. -/
def vector_const_iterator.diff (it rhs : vector_const_iterator) : Int :=
  it.ptr_ - rhs.ptr_

/-- The read-only iterator's `operator[]`. -/
def vector_const_iterator.index (it : vector_const_iterator) (n : Int) : Int :=
  it.ptr_ + n

/-- The read-only iterator's `operator==`. -/
def vector_const_iterator.eq (it rhs : vector_const_iterator) : Bool :=
  it.ptr_ == rhs.ptr_

/-- The read-only iterator's `operator!=`. -/
def vector_const_iterator.ne (it rhs : vector_const_iterator) : Bool :=
  it.ptr_ != rhs.ptr_

/-- The read-only iterator's `operator<`. -/
def vector_const_iterator.lt (it rhs : vector_const_iterator) : Bool :=
  decide (it.ptr_ < rhs.ptr_)

/-- The read-only iterator's `operator>`. -/
def vector_const_iterator.gt (it rhs : vector_const_iterator) : Bool :=
  decide (it.ptr_ > rhs.ptr_)

/-- The read-only iterator's `operator<=`. -/
def vector_const_iterator.le (it rhs : vector_const_iterator) : Bool :=
  decide (it.ptr_ ≤ rhs.ptr_)

/-- The read-only iterator's `operator>=`. -/
def vector_const_iterator.ge (it rhs : vector_const_iterator) : Bool :=
  decide (it.ptr_ ≥ rhs.ptr_)

/-- The read-only iterator's `base()`. -/
def vector_const_iterator.base (it : vector_const_iterator) : Int :=
  it.ptr_

/-- The member `begin() const`. -/
def vector.cbegin {T : Type} (v : vector T) : vector_const_iterator :=
  ⟨v.data_⟩

/-- The member `end() const`. -/
def vector.cend {T : Type} (v : vector T) : vector_const_iterator :=
  ⟨v.data_ + (v.size_ : Int)⟩

/-! ## Appending in place, resizing, clearing

Value-initialisation `T()` is `default`.  The arguments of `emplace_back` are represented by
the object they construct. -/

/-- The member `push_back(T &&)`.  The move constructor reads `value` after the growth
check. -/
def vector.push_back_move {T : Type} (m : Machine) (v : vector T) (value : Ref T) :
    Result T Unit :=
  let g : Result T Unit :=
    if v.size_ = v.capacity_ then vector.__maybe_resize m v else ⟨.ok (), m, v⟩
  match g.ret with
  | .error e => ⟨.error e, g.mach, g.self⟩
  | .ok _ =>
    match value.read g.self.data_ g.self.store with
    | .error e => ⟨.error e, g.mach, g.self⟩
    | .ok x =>
      let c := construct_at g.mach g.self.data_ g.self.store
        (g.self.data_ + (g.self.size_ : Int)) x
      match c.ret with
      | .error e => ⟨.error e, c.mach, { g.self with store := c.slots }⟩
      | .ok _ => ⟨.ok (), c.mach, { g.self with store := c.slots, size_ := g.self.size_ + 1 }⟩

/-- The member `emplace_back(Args &&...)`.  The forwarded arguments are represented by a
reference to the object the constructor builds the element from; the constructor reads it
after the growth check. -/
def vector.emplace_back {T : Type} (m : Machine) (v : vector T) (value : Ref T) :
    Result T Unit :=
  let g : Result T Unit :=
    if v.size_ = v.capacity_ then vector.__maybe_resize m v else ⟨.ok (), m, v⟩
  match g.ret with
  | .error e => ⟨.error e, g.mach, g.self⟩
  | .ok _ =>
    match value.read g.self.data_ g.self.store with
    | .error e => ⟨.error e, g.mach, g.self⟩
    | .ok x =>
      let c := construct_at g.mach g.self.data_ g.self.store
        (g.self.data_ + (g.self.size_ : Int)) x
      match c.ret with
      | .error e => ⟨.error e, c.mach, { g.self with store := c.slots }⟩
      | .ok _ => ⟨.ok (), c.mach, { g.self with store := c.slots, size_ := g.self.size_ + 1 }⟩

/-- The loop `for (size_t i = ...; i < ...; ++i) std::construct_at(base + i, value)`, with
`todo` iterations left; returns the state and `i` when the loop ends or throws. -/
def construct_fill {T : Type} (base : Int) (value : T) :
    Nat → Nat → Machine → List (Slot T) → Run T × Nat
  | 0, i, m, slots => (⟨.ok (), m, slots⟩, i)
  | todo + 1, i, m, slots =>
    let r := construct_at m base slots (base + (i : Int)) value
    match r.ret with
    | .error _ => (r, i)
    | .ok _ => construct_fill base value todo (i + 1) r.mach r.slots

/-- The loop that constructs the elements of a sequence into the cells `base + i`,
`base + i + 1`, ..: `for (it = first; it != last; ++it, ++i) std::construct_at(data_ + i, *it)`
of the range constructor and `for (const auto &item : ilist) { std::construct_at(data_ + i,
item); ++i; }` of the list assignment.  Returns the state and `i` when the loop ends or
throws. -/
def construct_list {T : Type} (base : Int) :
    List T → Nat → Machine → List (Slot T) → Run T × Nat
  | [], i, m, slots => (⟨.ok (), m, slots⟩, i)
  | x :: xs, i, m, slots =>
    let r := construct_at m base slots (base + (i : Int)) x
    match r.ret with
    | .error _ => (r, i)
    | .ok _ => construct_list base xs (i + 1) r.mach r.slots

/-- The member `resize(size_t new_size)`. -/
def vector.resize {T : Type} [Inhabited T] (m : Machine) (v : vector T) (new_size : Nat) :
    Result T Unit :=
  if new_size < v.size_ then
    let d := destroy_range v.data_ (v.size_ - new_size) new_size m v.store
    match d.ret with
    | .error e => ⟨.error e, d.mach, { v with store := d.slots }⟩
    | .ok _ => ⟨.ok (), d.mach, { v with store := d.slots, size_ := new_size }⟩
  else if new_size > v.size_ then
    let g := vector.reserve m v new_size
    match g.ret with
    | .error e => ⟨.error e, g.mach, g.self⟩
    | .ok _ =>
      let c := construct_fill g.self.data_ (default : T) (new_size - g.self.size_) g.self.size_
        g.mach g.self.store
      match c.1.ret with
      | .error e => ⟨.error e, c.1.mach, { g.self with store := c.1.slots }⟩
      | .ok _ => ⟨.ok (), c.1.mach, { g.self with store := c.1.slots, size_ := new_size }⟩
  else ⟨.ok (), m, { v with size_ := new_size }⟩

/-- The loop `for (size_t i = size_; i < new_size; ++i) std::construct_at(data_ + i, value)`
of `resize(size_t, const T &)`, with `todo` iterations left: each iteration reads the
reference `value`.  Returns the state and `i` when the loop ends or throws. -/
def construct_from {T : Type} (base : Int) (value : Ref T) :
    Nat → Nat → Machine → List (Slot T) → Run T × Nat
  | 0, i, m, slots => (⟨.ok (), m, slots⟩, i)
  | todo + 1, i, m, slots =>
    match value.read base slots with
    | .error e => (⟨.error e, m, slots⟩, i)
    | .ok x =>
      let r := construct_at m base slots (base + (i : Int)) x
      match r.ret with
      | .error _ => (r, i)
      | .ok _ => construct_from base value todo (i + 1) r.mach r.slots

/-- The member `resize(size_t new_size, const T &value)`.  The loop reads `value` after
`reserve(new_size)`. -/
def vector.resize_fill {T : Type} (m : Machine) (v : vector T) (new_size : Nat)
    (value : Ref T) : Result T Unit :=
  if new_size < v.size_ then
    let d := destroy_range v.data_ (v.size_ - new_size) new_size m v.store
    match d.ret with
    | .error e => ⟨.error e, d.mach, { v with store := d.slots }⟩
    | .ok _ => ⟨.ok (), d.mach, { v with store := d.slots, size_ := new_size }⟩
  else if new_size > v.size_ then
    let g := vector.reserve m v new_size
    match g.ret with
    | .error e => ⟨.error e, g.mach, g.self⟩
    | .ok _ =>
      let c := construct_from g.self.data_ value (new_size - g.self.size_) g.self.size_
        g.mach g.self.store
      match c.1.ret with
      | .error e => ⟨.error e, c.1.mach, { g.self with store := c.1.slots }⟩
      | .ok _ => ⟨.ok (), c.1.mach, { g.self with store := c.1.slots, size_ := new_size }⟩
  else ⟨.ok (), m, { v with size_ := new_size }⟩

/-- The member `clear`. -/
def vector.clear {T : Type} (m : Machine) (v : vector T) : Result T Unit :=
  let d := destroy_range v.data_ v.size_ 0 m v.store
  match d.ret with
  | .error e => ⟨.error e, d.mach, { v with store := d.slots }⟩
  | .ok _ => ⟨.ok (), d.mach, { v with store := d.slots, size_ := 0 }⟩

/-- The block `slots` after the values `xs` were constructed into its cells `i`, `i + 1`, .. -/
def lay {T : Type} : List (Slot T) → Nat → List T → List (Slot T)
  | slots, _, [] => slots
  | slots, i, x :: xs => lay (slots.set i ⟨some x, true⟩) (i + 1) xs

/-- The number of constructor calls a `resize` to `n` makes on a vector of the given size and
capacity: those of the relocation when `reserve` has to grow, then one for each newly exposed
cell; none when it does not grow the length. -/
def resize_calls (size cap n : Nat) : Nat :=
  if size < n then (if cap < n then size else 0) + (n - size) else 0

/-! ## Constructors, destructor and assignment operators

A constructor that throws leaves no object: `Built` holds the object only when the
constructor returns.  Objects are values here, so whether `this` and `&other` are the same
object is an argument of the two assignment operators that test it (`same`); when it is true,
`self` and `other` stand for one object. -/

/-- Outcome of a constructor: the new object or the exception, and the machine afterwards. -/
structure Built (T : Type) where
  ret : Except Exn (vector T)
  mach : Machine

/-- Outcome of the destructor. -/
structure Ended where
  ret : Except Exn Unit
  mach : Machine

/-- Outcome of a member function that also changes its argument `other`. -/
structure Result2 (T : Type) where
  ret : Except Exn Unit
  mach : Machine
  self : vector T
  other : vector T

/-- The constructor `vector(size_t count, const T &value, const Allocator &alloc)`. -/
def vector.ctor_fill {T : Type} (m : Machine) (count : Nat) (value : T) : Built T :=
  let a := allocate m count
  let data_ := a.2.1
  let l := construct_fill data_ value count 0 a.1 a.2.2
  match l.1.ret with
  | .error .undefined_behaviour => ⟨.error .undefined_behaviour, l.1.mach⟩
  | .error e =>
    let d := destroy_range data_ l.2 0 l.1.mach l.1.slots
    match d.ret with
    | .error e2 => ⟨.error e2, d.mach⟩
    | .ok _ => ⟨.error e, deallocate d.mach data_ count⟩
  | .ok _ => ⟨.ok ⟨data_, count, count, l.1.slots⟩, l.1.mach⟩

/-- The constructor `vector(size_t count, const Allocator &alloc)`. -/
def vector.ctor_sized {T : Type} [Inhabited T] (m : Machine) (count : Nat) : Built T :=
  let a := allocate m count
  let data_ := a.2.1
  let l := construct_fill data_ (default : T) count 0 a.1 a.2.2
  match l.1.ret with
  | .error .undefined_behaviour => ⟨.error .undefined_behaviour, l.1.mach⟩
  | .error e =>
    let d := destroy_range data_ l.2 0 l.1.mach l.1.slots
    match d.ret with
    | .error e2 => ⟨.error e2, d.mach⟩
    | .ok _ => ⟨.error e, deallocate d.mach data_ count⟩
  | .ok _ => ⟨.ok ⟨data_, count, count, l.1.slots⟩, l.1.mach⟩

/-- The constructor `vector(InputIt first, InputIt last, const Allocator &alloc)`; `xs` is the
sequence the range `[first, last)` denotes, `std::distance(first, last)` its length. -/
def vector.ctor_range {T : Type} (m : Machine) (xs : List T) : Built T :=
  let a := allocate m xs.length
  let data_ := a.2.1
  let l := construct_list data_ xs 0 a.1 a.2.2
  match l.1.ret with
  | .error .undefined_behaviour => ⟨.error .undefined_behaviour, l.1.mach⟩
  | .error e =>
    let d := destroy_range data_ l.2 0 l.1.mach l.1.slots
    match d.ret with
    | .error e2 => ⟨.error e2, d.mach⟩
    | .ok _ => ⟨.error e, deallocate d.mach data_ xs.length⟩
  | .ok _ => ⟨.ok ⟨data_, xs.length, xs.length, l.1.slots⟩, l.1.mach⟩

/-- The copy constructor `vector(const vector &other)`; its loop
`for (; i < size_; ++i) std::construct_at(data_ + i, other.data_[i])` reads a cell of the block
of `other` and constructs into the new block, as `relocate` does. -/
def vector.ctor_copy {T : Type} (m : Machine) (other : vector T) : Built T :=
  let a := allocate m other.capacity_
  let data_ := a.2.1
  let l := relocate other.data_ other.store data_ other.size_ 0 a.1 a.2.2
  match l.1.ret with
  | .error .undefined_behaviour => ⟨.error .undefined_behaviour, l.1.mach⟩
  | .error e =>
    let d := destroy_range data_ l.2 0 l.1.mach l.1.slots
    match d.ret with
    | .error e2 => ⟨.error e2, d.mach⟩
    | .ok _ => ⟨.error e, deallocate d.mach data_ other.capacity_⟩
  | .ok _ => ⟨.ok ⟨data_, other.size_, other.capacity_, l.1.slots⟩, l.1.mach⟩

/-- The move constructor `vector(vector &&other)`: the new object, then `other` afterwards.
The block goes with the pointer to it. -/
def vector.ctor_move {T : Type} (other : vector T) : vector T × vector T :=
  (⟨other.data_, other.size_, other.capacity_, other.store⟩, ⟨0, 0, 0, []⟩)

/-- The destructor `~vector()`. -/
def vector.dtor {T : Type} (m : Machine) (v : vector T) : Ended :=
  let c := vector.clear m v
  match c.ret with
  | .error e => ⟨.error e, c.mach⟩
  | .ok _ =>
    ⟨.ok (), if c.self.data_ ≠ 0 then deallocate c.mach c.self.data_ c.self.capacity_ else c.mach⟩

/-- The move assignment `operator=(vector &&other)`. -/
def vector.assign_move {T : Type} (m : Machine) (self other : vector T) (same : Bool) :
    Result2 T :=
  if same then ⟨.ok (), m, self, other⟩
  else
    let c := vector.clear m self
    match c.ret with
    | .error e => ⟨.error e, c.mach, c.self, other⟩
    | .ok _ =>
      let m1 :=
        if c.self.data_ ≠ 0 then deallocate c.mach c.self.data_ c.self.capacity_ else c.mach
      ⟨.ok (), m1, ⟨other.data_, other.size_, other.capacity_, other.store⟩, ⟨0, 0, 0, []⟩⟩

/-- The copy assignment `operator=(const vector &other)`: `vector tmp(other)`,
`*this = std::move(tmp)`, then the destructor of `tmp`. -/
def vector.assign_copy {T : Type} (m : Machine) (self other : vector T) (same : Bool) :
    Result T Unit :=
  if same then ⟨.ok (), m, self⟩
  else
    let t := vector.ctor_copy m other
    match t.ret with
    | .error e => ⟨.error e, t.mach, self⟩
    | .ok tmp =>
      let r := vector.assign_move t.mach self tmp false
      match r.ret with
      | .error e => ⟨.error e, r.mach, r.self⟩
      | .ok _ =>
        let z := vector.dtor r.mach r.other
        match z.ret with
        | .error e => ⟨.error e, z.mach, r.self⟩
        | .ok _ => ⟨.ok (), z.mach, r.self⟩

/-- The list assignment `operator=(std::initializer_list<T> ilist)`. -/
def vector.assign_list {T : Type} (m : Machine) (v : vector T) (ilist : List T) :
    Result T Unit :=
  let c := vector.clear m v
  match c.ret with
  | .error e => ⟨.error e, c.mach, c.self⟩
  | .ok _ =>
    let g : Machine × vector T :=
      if ilist.length > c.self.capacity_ then
        let m1 :=
          if c.self.data_ ≠ 0 then deallocate c.mach c.self.data_ c.self.capacity_ else c.mach
        let a := allocate m1 ilist.length
        (a.1, ⟨a.2.1, c.self.size_, ilist.length, a.2.2⟩)
      else (c.mach, c.self)
    let l := construct_list g.2.data_ ilist 0 g.1 g.2.store
    match l.1.ret with
    | .error e => ⟨.error e, l.1.mach, { g.2 with store := l.1.slots }⟩
    | .ok _ => ⟨.ok (), l.1.mach, { g.2 with store := l.1.slots, size_ := ilist.length }⟩

/-- A write `v[index] = value` through the reference `operator[]` returns. -/
def vector.write {T : Type} (m : Machine) (v : vector T) (index : Nat) (value : T) :
    Result T Unit :=
  let w := assign m v.data_ v.store (v.subscript index) value
  ⟨w.ret, w.mach, { v with store := w.slots }⟩

/-- The addresses of the cells a trace destroys, in the order it destroys them. -/
def destroy_order (trace : List Event) : List Int :=
  trace.filterMap (fun e => match e with
    | Event.destroy p => some p
    | _ => none)

/-! ## Footprints and sequences of calls -/

/-- The address a storage event concerns: the cell it constructs, destroys or assigns, the
start of the block it allocates or releases. -/
def Event.addr : Event → Int
  | .allocate p _ => p
  | .deallocate p _ => p
  | .construct p => p
  | .destroy p => p
  | .assign p _ => p

/-- From machine `m` to machine `m1` the allocator did not step back, the trace was only
extended, and every event added to it concerns an address at or above `lo`. -/
def above (lo : Int) (m m1 : Machine) : Prop :=
  m.brk ≤ m1.brk ∧ m1.trace.take m.trace.length = m.trace ∧
    ∀ e ∈ m1.trace.drop m.trace.length, lo ≤ e.addr

instance (lo : Int) (m m1 : Machine) : Decidable (above lo m m1) := by
  unfold above
  infer_instance

/-- The mutating calls of the public interface, with their arguments. -/
inductive Mutation (T : Type) where
  | write (index : Nat) (value : T)
  | push_back (value : Ref T)
  | insert (pos : vector_iterator) (value : Ref T)
  | erase (pos : vector_iterator)
  | erase_range (first last : vector_iterator)
  | resize (new_size : Nat)
  | resize_fill (new_size : Nat) (value : Ref T)
  | clear

/-- One mutating call on the object `c`. -/
def Mutation.apply {T : Type} [Inhabited T] (m : Machine) (c : vector T) :
    Mutation T → Result T Unit
  | .write index value => c.write m index value
  | .push_back value => c.push_back m value
  | .insert pos value =>
    let r := c.insert m pos value
    ⟨r.ret.map (fun _ => ()), r.mach, r.self⟩
  | .erase pos =>
    let r := c.erase m pos
    ⟨r.ret.map (fun _ => ()), r.mach, r.self⟩
  | .erase_range first last =>
    let r := c.erase_range m first last
    ⟨r.ret.map (fun _ => ()), r.mach, r.self⟩
  | .resize new_size => c.resize m new_size
  | .resize_fill new_size value => c.resize_fill m new_size value
  | .clear => c.clear m

/-- A program that makes the calls `ops` on the object `c`, one after the other; a thrown
exception is caught and the program goes on, undefined behaviour ends it. -/
def mutate {T : Type} [Inhabited T] (m : Machine) (c : vector T) :
    List (Mutation T) → Machine × vector T
  | [] => (m, c)
  | op :: ops =>
    let r := op.apply m c
    match r.ret with
    | .error .undefined_behaviour => (r.mach, r.self)
    | _ => mutate r.mach r.self ops

/-- The member `insert(iterator pos, T &&value)`.  `*pos = std::move(value)` reads `value`
after the growth check and the shift. -/
def vector.insert_move {T : Type} (m : Machine) (v : vector T) (pos : vector_iterator)
    (value : Ref T) : Result T vector_iterator :=
  let idx : Int := pos.diff v.begin
  let g : Result T Unit :=
    if v.size_ = v.capacity_ then vector.__maybe_resize m v else ⟨.ok (), m, v⟩
  match g.ret with
  | .error e => ⟨.error e, g.mach, g.self⟩
  | .ok _ =>
    let pos := g.self.begin.add idx
    let l := insert_shift g.self.data_ pos g.self.size_ g.self.end g.mach g.self.store
    match l.ret with
    | .error e => ⟨.error e, l.mach, { g.self with store := l.slots }⟩
    | .ok _ =>
      match value.read g.self.data_ l.slots with
      | .error e => ⟨.error e, l.mach, { g.self with store := l.slots }⟩
      | .ok x =>
        let w := assign l.mach g.self.data_ l.slots pos.ptr_ x
        match w.ret with
        | .error e => ⟨.error e, w.mach, { g.self with store := w.slots }⟩
        | .ok _ => ⟨.ok pos, w.mach, { g.self with store := w.slots, size_ := g.self.size_ + 1 }⟩

/-! ## Slot states -/

/-- Whether an object lifetime is open in cell `j` of a block; false outside the block. -/
def alive {T : Type} (slots : List (Slot T)) (j : Nat) : Bool :=
  match slots[j]? with
  | some s => s.live
  | none => false

/-- The slot-state invariant: of the cells of the block, those at `[0, size_)` are live and
those at `[size_, capacity_)` are not. -/
def vector.slots_ok {T : Type} (v : vector T) : Prop :=
  ∀ j, j < v.capacity_ → (alive v.store j = true ↔ j < v.size_)

instance {T : Type} (v : vector T) : Decidable v.slots_ok := by
  unfold vector.slots_ok
  infer_instance

/-- The addresses of the cells a trace assigns to while no object lifetime is open in them, in
the order it does. -/
def raw_assigns (trace : List Event) : List Int :=
  trace.filterMap (fun e => match e with
    | Event.assign p false => some p
    | _ => none)

/-! ## Storage primitives at a cell of the block -/

theorem addr_not_lt (base : Int) (i : Nat) : ¬ (base + (i : Int) < base) := by omega

theorem addr_index (base : Int) (i : Nat) : (base + (i : Int) - base).toNat = i := by simp

theorem cell_eq_some {T : Type} {slots : List (Slot T)} {j : Nat} {x : T}
    (h : cell slots j = some x) : ∃ l, slots[j]? = some ⟨some x, l⟩ := by
  unfold cell at h
  cases hj : slots[j]? with
  | none => simp [hj] at h
  | some s =>
    obtain ⟨val, l⟩ := s
    simp [hj] at h
    exact ⟨l, by simp [h]⟩

theorem cell_lt_length {T : Type} {slots : List (Slot T)} {j : Nat} {x : T}
    (h : cell slots j = some x) : j < slots.length := by
  obtain ⟨l, hl⟩ := cell_eq_some h
  exact (List.getElem?_eq_some.mp hl).1

theorem load_cell {T : Type} (base : Int) (slots : List (Slot T)) (i : Nat) (x : T)
    (h : cell slots i = some x) : load base slots (base + (i : Int)) = .ok x := by
  obtain ⟨l, hl⟩ := cell_eq_some h
  simp [load, addr_not_lt, hl]

theorem cell_set {T : Type} (slots : List (Slot T)) (i j : Nat) (s : Slot T)
    (h : i < slots.length) :
    cell (slots.set i s) j = if j = i then s.value else cell slots j := by
  unfold cell
  by_cases hji : j = i
  · subst hji
    simp [h]
  · have : i ≠ j := fun e => hji e.symm
    simp [hji, List.getElem?_set_ne this]

theorem assign_at {T : Type} (m : Machine) (base : Int) (slots : List (Slot T)) (i : Nat)
    (x : T) (h : i < slots.length) :
    assign m base slots (base + (i : Int)) x =
      ⟨.ok (), { m with trace := m.trace ++ [Event.assign (base + (i : Int)) slots[i].live] },
        slots.set i { slots[i] with value := some x }⟩ := by
  simp [assign, addr_not_lt, List.getElem?_eq_getElem h]

theorem construct_at_at {T : Type} (m : Machine) (base : Int) (slots : List (Slot T)) (i : Nat)
    (x : T) (h : i < slots.length) :
    construct_at m base slots (base + (i : Int)) x =
      if m.script.headD false then
        ⟨.error .element_failure, { m with script := m.script.tail }, slots⟩
      else
        ⟨.ok (), { m with script := m.script.tail,
                          trace := m.trace ++ [Event.construct (base + (i : Int))] },
          slots.set i ⟨some x, true⟩⟩ := by
  simp [construct_at, addr_not_lt, List.getElem?_eq_getElem h]

theorem destroy_at_at {T : Type} (m : Machine) (base : Int) (slots : List (Slot T)) (i : Nat)
    (h : i < slots.length) :
    destroy_at m base slots (base + (i : Int)) =
      ⟨.ok (), { m with trace := m.trace ++ [Event.destroy (base + (i : Int))] },
        slots.set i ⟨none, false⟩⟩ := by
  simp [destroy_at, addr_not_lt, List.getElem?_eq_getElem h]

/-! ## The relocation and destruction loops -/

theorem filled_length {T : Type} (vals : List T) (cap j : Nat) (hj : j ≤ vals.length)
    (hc : j ≤ cap) : (filled vals cap j).length = cap := by
  simp [filled, List.length_take, Nat.min_eq_left hj]
  omega

theorem filled_getElem? {T : Type} (vals : List T) (cap j i : Nat) (hj : j ≤ vals.length) :
    (filled vals cap j)[i]? =
      if i < j then (vals[i]?).map (fun x => (⟨some x, true⟩ : Slot T))
      else if i < cap then some ⟨none, false⟩ else none := by
  unfold filled
  by_cases hij : i < j
  · rw [List.getElem?_append_left (by simp [List.length_take]; omega)]
    simp [hij, List.getElem?_take]
  · rw [List.getElem?_append_right (by simp [List.length_take]; omega)]
    simp only [List.length_map, List.length_take, Nat.min_eq_left hj, hij, if_false]
    by_cases hic : i < cap
    · rw [List.getElem?_replicate]
      simp [hic]
      omega
    · rw [List.getElem?_replicate]
      simp [hic]
      omega

theorem filled_set {T : Type} (vals : List T) (cap j : Nat) (hj : j < vals.length)
    (hc : j < cap) :
    (filled vals cap j).set j ⟨some vals[j], true⟩ = filled vals cap (j + 1) := by
  apply List.ext_getElem?
  intro i
  rw [List.getElem?_set, filled_getElem? vals cap j i (by omega),
    filled_getElem? vals cap (j + 1) i (by omega), filled_length vals cap j (by omega) (by omega)]
  by_cases hij : j = i
  · subst hij
    simp [hc, List.getElem?_eq_getElem hj]
  · by_cases h1 : i < j
    · have : i < j + 1 := by omega
      simp [hij, h1, this]
    · have : ¬ i < j + 1 := by omega
      simp [hij, h1, this]

theorem constructed_zero (m : Machine) (p : Int) (i : Nat) : constructed m p i 0 = m := by
  cases m
  simp [constructed]

theorem constructed_succ (m : Machine) (p : Int) (i k : Nat) :
    constructed { m with script := m.script.tail,
                         trace := m.trace ++ [Event.construct (p + (i : Int))] } p (i + 1) k
      = constructed m p i (k + 1) := by
  simp [constructed, List.range'_succ]

theorem relocate_steps {T : Type} (data_ : Int) (store : List (Slot T)) (new_data : Int)
    (vals : List T) (cap : Nat)
    (hsrc : ∀ j (h : j < vals.length), cell store j = some vals[j]) (hcap : vals.length ≤ cap)
    (k rest : Nat) : ∀ (i : Nat) (m : Machine), i + k ≤ vals.length →
      (∀ b ∈ m.script.take k, b = false) →
      relocate data_ store new_data (k + rest) i m (filled vals cap i) =
        relocate data_ store new_data rest (i + k) (constructed m new_data i k)
          (filled vals cap (i + k)) := by
  induction k with
  | zero =>
    intro i m _ _
    simp [constructed_zero]
  | succ k ih =>
    intro i m hik hs
    have hi : i < vals.length := by omega
    have hlen : i < (filled vals cap i).length := by
      rw [filled_length vals cap i (by omega) (by omega)]; omega
    have hhead : m.script.headD false = false := by
      cases hsc : m.script with
      | nil => rfl
      | cons b t =>
        have := hs b (by simp [hsc])
        simp [this]
    have htail : ∀ b ∈ m.script.tail.take k, b = false := by
      intro b hb
      apply hs b
      cases hsc : m.script with
      | nil => simp [hsc] at hb
      | cons c t =>
        simp [hsc] at hb
        simp [List.take_succ_cons, hb]
    have e : k + 1 + rest = (k + rest) + 1 := by omega
    rw [e, relocate, load_cell data_ store i vals[i] (hsrc i hi)]
    simp only [construct_at_at _ _ _ _ _ hlen, hhead, Bool.false_eq_true, if_false]
    rw [filled_set vals cap i hi (by omega)]
    have := ih (i + 1)
      (Machine.mk m.script.tail m.brk (m.trace ++ [Event.construct (new_data + (i : Int))]))
      (by omega) htail
    rw [this, constructed_succ]
    have e2 : i + 1 + k = i + (k + 1) := by omega
    rw [e2]

theorem destroyed_zero (m : Machine) (p : Int) (j : Nat) : destroyed m p j 0 = m := by
  cases m
  simp [destroyed]

theorem destroyed_succ (m : Machine) (p : Int) (j k : Nat) :
    destroyed { m with trace := m.trace ++ [Event.destroy (p + (j : Int))] } p (j + 1) k
      = destroyed m p j (k + 1) := by
  simp [destroyed, List.range'_succ]

theorem destroy_range_spec {T : Type} (base : Int) (todo : Nat) :
    ∀ (j : Nat) (m : Machine) (slots : List (Slot T)), j + todo ≤ slots.length →
      (destroy_range base todo j m slots).ret = .ok () ∧
      (destroy_range base todo j m slots).mach = destroyed m base j todo ∧
      (destroy_range base todo j m slots).slots.length = slots.length ∧
      ∀ i, (destroy_range base todo j m slots).slots[i]? =
        if j ≤ i ∧ i < j + todo then some ⟨none, false⟩ else slots[i]? := by
  induction todo with
  | zero =>
    intro j m slots _
    refine ⟨by simp [destroy_range], by simp [destroy_range, destroyed_zero],
      by simp [destroy_range], ?_⟩
    intro i
    have : ¬ (j ≤ i ∧ i < j) := by omega
    simp [destroy_range, this]
  | succ todo ih =>
    intro j m slots h
    have hj : j < slots.length := by omega
    rw [destroy_range, destroy_at_at m base slots j hj]
    simp only
    obtain ⟨h1, h2, h3, h4⟩ := ih (j + 1)
      (Machine.mk m.script m.brk (m.trace ++ [Event.destroy (base + (j : Int))]))
      (slots.set j ⟨none, false⟩) (by simp; omega)
    refine ⟨h1, ?_, ?_, ?_⟩
    · rw [h2, destroyed_succ]
    · rw [h3]; simp
    · intro i
      rw [h4 i, List.getElem?_set]
      by_cases hij : j = i
      · subst hij
        simp [hj]
      · by_cases hlo : j + 1 ≤ i ∧ i < j + 1 + todo
        · have : j ≤ i ∧ i < j + (todo + 1) := by omega
          simp [hlo, this]
        · have : ¬ (j ≤ i ∧ i < j + (todo + 1)) := by omega
          simp [hlo, this, hij]

/-! ## Contents -/

theorem map_value_getElem? {T : Type} (slots : List (Slot T)) (j : Nat) (h : j < slots.length) :
    (slots[j]?).map Slot.value = some (cell slots j) := by
  simp [cell, List.getElem?_eq_getElem h]

theorem contents_getElem? {T : Type} (v : vector T) (h : v.size_ ≤ v.store.length) (j : Nat) :
    v.contents[j]? = if j < v.size_ then some (cell v.store j) else none := by
  unfold vector.contents
  rw [List.getElem?_map, List.getElem?_take]
  by_cases hj : j < v.size_
  · simp only [hj, if_true]
    exact map_value_getElem? v.store j (by omega)
  · simp [hj]

theorem contents_length {T : Type} (v : vector T) (h : v.size_ ≤ v.store.length) :
    v.contents.length = v.size_ := by
  simp [vector.contents, List.length_take, Nat.min_eq_left h]

theorem contents_iff {T : Type} (v : vector T) (vals : List T) (h : v.size_ ≤ v.store.length) :
    v.contents = vals.map some ↔
      vals.length = v.size_ ∧ ∀ j (hj : j < vals.length), cell v.store j = some vals[j] := by
  constructor
  · intro hc
    have hl : vals.length = v.size_ := by
      have := congrArg List.length hc
      rw [contents_length v h, List.length_map] at this
      exact this.symm
    refine ⟨hl, ?_⟩
    intro j hj
    have := congrArg (fun l => l[j]?) hc
    simp only [contents_getElem? v h j, List.getElem?_map, List.getElem?_eq_getElem hj] at this
    rw [if_pos (by omega)] at this
    simpa using this
  · rintro ⟨hl, hcell⟩
    apply List.ext_getElem?
    intro j
    rw [contents_getElem? v h j, List.getElem?_map]
    by_cases hj : j < v.size_
    · have hj2 : j < vals.length := by omega
      simp [hj, hcell j hj2, List.getElem?_eq_getElem hj2]
    · have : vals.length ≤ j := by omega
      simp [hj, List.getElem?_eq_none this]

theorem filled_zero {T : Type} (vals : List T) (cap : Nat) :
    filled vals cap 0 = List.replicate cap (⟨none, false⟩ : Slot T) := by
  simp [filled]

theorem cell_filled {T : Type} (vals : List T) (cap j : Nat) (hj : j < vals.length) :
    cell (filled vals cap vals.length) j = some vals[j] := by
  unfold cell
  rw [filled_getElem? vals cap vals.length j (le_refl _)]
  simp [hj, List.getElem?_eq_getElem hj]

/-- The block `filled vals cap vals.length` holds `vals` as its first `vals.length` values. -/
theorem contents_filled {T : Type} (vals : List T) (p : Int) (cap : Nat)
    (h : vals.length ≤ cap) :
    (vector.mk p vals.length cap (filled vals cap vals.length)).contents = vals.map some := by
  rw [contents_iff]
  · exact ⟨rfl, fun j hj => cell_filled vals cap j hj⟩
  · simp [filled_length vals cap vals.length (le_refl _) h, h]

/-! ## reserve -/

theorem reserve_noop {T : Type} (m : Machine) (v : vector T) (n : Nat) (h : n ≤ v.capacity_) :
    v.reserve m n = ⟨.ok (), m, v⟩ := by
  simp [vector.reserve, h]

theorem relocate_all {T : Type} (m : Machine) (v : vector T) (vals : List T) (n : Nat) (p : Int)
    (hwf : v.wf) (hc : v.contents = vals.map some) (hn : v.size_ ≤ n)
    (hs : ∀ b ∈ m.script.take v.size_, b = false) :
    relocate v.data_ v.store p v.size_ 0 m (List.replicate n ⟨none, false⟩) =
      (⟨.ok (), constructed m p 0 v.size_, filled vals n v.size_⟩, v.size_) := by
  obtain ⟨hsz, hlen⟩ := hwf
  obtain ⟨hl, hcell⟩ := (contents_iff v vals (by omega)).mp hc
  have := relocate_steps v.data_ v.store p vals n hcell (by omega) v.size_ 0 0 m (by omega) hs
  rw [filled_zero] at this
  simp only [Nat.add_zero, Nat.zero_add] at this
  rw [this, relocate]

theorem reserve_grow {T : Type} (m : Machine) (v : vector T) (vals : List T) (n : Nat)
    (hwf : v.wf) (hc : v.contents = vals.map some) (hn : v.capacity_ < n)
    (hs : ∀ b ∈ m.script.take v.size_, b = false) :
    v.reserve m n =
      ⟨.ok (), reallocated m v n true, ⟨(m.brk : Int) + 1, v.size_, n, filled vals n v.size_⟩⟩ := by
  have hrel := relocate_all (allocated m n) v vals n ((m.brk : Int) + 1) hwf hc
    (by have := hwf.1; omega) hs
  obtain ⟨h1, h2, -, -⟩ := destroy_range_spec v.data_ v.size_ 0
    (constructed (allocated m n) ((m.brk : Int) + 1) 0 v.size_) v.store
    (by have := hwf.1; have := hwf.2; omega)
  simp only [vector.reserve, not_le.mpr hn, if_false, allocate]
  have e : (Machine.mk m.script (m.brk + 1 + n)
      (m.trace ++ [Event.allocate ((m.brk : Int) + 1) n])) = allocated m n := rfl
  simp only [e, hrel, h1, h2]
  by_cases hd : v.data_ = 0
  · simp [reallocated, hd]
  · simp [reallocated, hd]

theorem script_prefix_ok (script : List Bool) (k : Nat)
    (hs : script.take (k + 1) = List.replicate k false ++ [true]) :
    ∀ b ∈ script.take k, b = false := by
  have : script.take k = List.replicate k false := by
    have h := congrArg (List.take k) hs
    rw [List.take_take, Nat.min_eq_left (Nat.le_succ k)] at h
    rw [h, List.take_append_of_le_length (by simp)]
    simp
  intro b hb
  rw [this] at hb
  exact (List.mem_replicate.mp hb).2

theorem script_throws (script : List Bool) (k : Nat)
    (hs : script.take (k + 1) = List.replicate k false ++ [true]) :
    (script.drop k).headD false = true := by
  have h := congrArg (fun l => l[k]?) hs
  simp only [List.getElem?_take, Nat.lt_succ_self, if_true] at h
  rw [List.getElem?_append_right (by simp)] at h
  simp at h
  rw [List.headD_eq_head?_getD, List.head?_drop, h]
  rfl

theorem relocate_throw {T : Type} (m : Machine) (v : vector T) (vals : List T) (n k : Nat)
    (p : Int) (hwf : v.wf) (hc : v.contents = vals.map some) (hn : v.size_ ≤ n)
    (hk : k < v.size_) (hs : m.script.take (k + 1) = List.replicate k false ++ [true]) :
    relocate v.data_ v.store p v.size_ 0 m (List.replicate n ⟨none, false⟩) =
      (⟨.error .element_failure,
        ⟨m.script.drop (k + 1), m.brk, (constructed m p 0 k).trace⟩, filled vals n k⟩, k) := by
  obtain ⟨hsz, hlen⟩ := hwf
  obtain ⟨hl, hcell⟩ := (contents_iff v vals (by omega)).mp hc
  have hsteps := relocate_steps v.data_ v.store p vals n hcell (by omega) k (v.size_ - k) 0 m
    (by omega) (script_prefix_ok m.script k hs)
  rw [filled_zero] at hsteps
  have e : k + (v.size_ - k) = v.size_ := by omega
  obtain ⟨rest, hrest⟩ : ∃ rest, v.size_ - k = rest + 1 := ⟨v.size_ - k - 1, by omega⟩
  rw [e, hrest] at hsteps
  simp only [Nat.zero_add] at hsteps
  have hflen : k < (filled vals n k).length := by
    rw [filled_length vals n k (by omega) (by omega)]; omega
  rw [hsteps, relocate, load_cell v.data_ v.store k vals[k] (hcell k (by omega))]
  have hthrow : (constructed m p 0 k).script.headD false = true := script_throws m.script k hs
  simp only [construct_at_at _ _ _ _ _ hflen, hthrow, if_true]
  simp [constructed]

/-- A constructor that throws during the relocation of `reserve`: the exception leaves the
function, the object is untouched, and what was built in the new block is torn down. -/
theorem reserve_throw {T : Type} (m : Machine) (v : vector T) (vals : List T) (n k : Nat)
    (hwf : v.wf) (hc : v.contents = vals.map some) (hn : v.capacity_ < n)
    (hk : k < v.size_) (hs : m.script.take (k + 1) = List.replicate k false ++ [true]) :
    v.reserve m n =
      ⟨.error .element_failure,
        deallocate (destroyed
          ⟨m.script.drop (k + 1), m.brk + 1 + n,
            (constructed (allocated m n) ((m.brk : Int) + 1) 0 k).trace⟩
          ((m.brk : Int) + 1) 0 k) ((m.brk : Int) + 1) n, v⟩ := by
  have hrel := relocate_throw (allocated m n) v vals n k ((m.brk : Int) + 1) hwf hc
    (by have := hwf.1; omega) hk hs
  obtain ⟨h1, h2, -, -⟩ := destroy_range_spec ((m.brk : Int) + 1) k 0
    (⟨m.script.drop (k + 1), m.brk + 1 + n,
      (constructed (allocated m n) ((m.brk : Int) + 1) 0 k).trace⟩ : Machine)
    (filled vals n k)
    (by
      have hl := ((contents_iff v vals (by have := hwf.1; have := hwf.2; omega)).mp hc).1
      rw [filled_length vals n k (by omega) (by have := hwf.1; omega)]
      have := hwf.1
      omega)
  simp only [vector.reserve, not_le.mpr hn, if_false, allocate]
  have e : (Machine.mk m.script (m.brk + 1 + n)
      (m.trace ++ [Event.allocate ((m.brk : Int) + 1) n])) = allocated m n := rfl
  simp only [e, hrel]
  have e2 : (allocated m n).script = m.script := rfl
  have e3 : (allocated m n).brk = m.brk + 1 + n := rfl
  simp only [e2, e3, h1, h2]

/-! ## shrink_to_fit -/

theorem shrink_to_fit_noop {T : Type} (m : Machine) (v : vector T) (h : v.size_ = v.capacity_) :
    v.shrink_to_fit m = ⟨.ok (), m, v⟩ := by
  simp [vector.shrink_to_fit, h]

theorem shrink_to_fit_ok {T : Type} (m : Machine) (v : vector T) (vals : List T)
    (hwf : v.wf) (hc : v.contents = vals.map some) (hn : v.size_ ≠ v.capacity_)
    (hs : ∀ b ∈ m.script.take v.size_, b = false) :
    v.shrink_to_fit m =
      ⟨.ok (), reallocated m v v.size_ false,
        ⟨(m.brk : Int) + 1, v.size_, v.size_, filled vals v.size_ v.size_⟩⟩ := by
  have hrel := relocate_all (allocated m v.size_) v vals v.size_ ((m.brk : Int) + 1) hwf hc
    (le_refl _) hs
  obtain ⟨h1, h2, -, -⟩ := destroy_range_spec v.data_ v.size_ 0
    (constructed (allocated m v.size_) ((m.brk : Int) + 1) 0 v.size_) v.store
    (by have := hwf.1; have := hwf.2; omega)
  simp only [vector.shrink_to_fit, hn, if_false, allocate]
  have e : (Machine.mk m.script (m.brk + 1 + v.size_)
      (m.trace ++ [Event.allocate ((m.brk : Int) + 1) v.size_])) = allocated m v.size_ := rfl
  simp only [e, hrel, h1, h2]
  simp [reallocated]

theorem shrink_to_fit_throw {T : Type} (m : Machine) (v : vector T) (vals : List T) (k : Nat)
    (hwf : v.wf) (hc : v.contents = vals.map some) (hn : v.size_ ≠ v.capacity_)
    (hk : k < v.size_) (hs : m.script.take (k + 1) = List.replicate k false ++ [true]) :
    v.shrink_to_fit m =
      ⟨.error .element_failure,
        deallocate (destroyed
          ⟨m.script.drop (k + 1), m.brk + 1 + v.size_,
            (constructed (allocated m v.size_) ((m.brk : Int) + 1) 0 k).trace⟩
          ((m.brk : Int) + 1) 0 k) ((m.brk : Int) + 1) v.size_, v⟩ := by
  have hrel := relocate_throw (allocated m v.size_) v vals v.size_ k ((m.brk : Int) + 1) hwf hc
    (le_refl _) hk hs
  obtain ⟨h1, h2, -, -⟩ := destroy_range_spec ((m.brk : Int) + 1) k 0
    (⟨m.script.drop (k + 1), m.brk + 1 + v.size_,
      (constructed (allocated m v.size_) ((m.brk : Int) + 1) 0 k).trace⟩ : Machine)
    (filled vals v.size_ k)
    (by
      have hl := ((contents_iff v vals (by have := hwf.1; have := hwf.2; omega)).mp hc).1
      rw [filled_length vals v.size_ k (by omega) (by omega)]
      omega)
  simp only [vector.shrink_to_fit, hn, if_false, allocate]
  have e : (Machine.mk m.script (m.brk + 1 + v.size_)
      (m.trace ++ [Event.allocate ((m.brk : Int) + 1) v.size_])) = allocated m v.size_ := rfl
  simp only [e, hrel]
  have e2 : (allocated m v.size_).script = m.script := rfl
  have e3 : (allocated m v.size_).brk = m.brk + 1 + v.size_ := rfl
  simp only [e2, e3, h1, h2]

/-- Either the first `n` constructor calls all succeed, or there is a first one that throws. -/
theorem script_dichotomy (script : List Bool) :
    ∀ (n : Nat), (∀ b ∈ script.take n, b = false) ∨
      ∃ k, k < n ∧ script.take (k + 1) = List.replicate k false ++ [true] := by
  induction script with
  | nil =>
    intro n
    left
    simp
  | cons b t ih =>
    intro n
    cases n with
    | zero =>
      left
      simp
    | succ n =>
      cases b with
      | true =>
        right
        exact ⟨0, by omega, by simp⟩
      | false =>
        rcases ih n with h | ⟨k, hk, hk2⟩
        · left
          intro b hb
          simp only [List.take_succ_cons, List.mem_cons] at hb
          rcases hb with rfl | hb
          · rfl
          · exact h b hb
        · right
          refine ⟨k + 1, by omega, ?_⟩
          rw [List.take_succ_cons, hk2, List.replicate_succ]
          rfl

theorem reserve_ok_iff {T : Type} (m : Machine) (v : vector T) (vals : List T) (n : Nat)
    (hwf : v.wf) (hc : v.contents = vals.map some) (hn : v.capacity_ < n) :
    (v.reserve m n).ret = .ok () ↔ ∀ b ∈ m.script.take v.size_, b = false := by
  constructor
  · intro hret
    rcases script_dichotomy m.script v.size_ with h | ⟨k, hk, hk2⟩
    · exact h
    · rw [reserve_throw m v vals n k hwf hc hn hk hk2] at hret
      cases hret
  · intro hs
    rw [reserve_grow m v vals n hwf hc hn hs]

theorem shrink_to_fit_ok_iff {T : Type} (m : Machine) (v : vector T) (vals : List T)
    (hwf : v.wf) (hc : v.contents = vals.map some) (hn : v.size_ ≠ v.capacity_) :
    (v.shrink_to_fit m).ret = .ok () ↔ ∀ b ∈ m.script.take v.size_, b = false := by
  constructor
  · intro hret
    rcases script_dichotomy m.script v.size_ with h | ⟨k, hk, hk2⟩
    · exact h
    · rw [shrink_to_fit_throw m v vals k hwf hc hn hk hk2] at hret
      cases hret
  · intro hs
    rw [shrink_to_fit_ok m v vals hwf hc hn hs]

/-! ## push_back -/

theorem contents_iff_getElem? {T : Type} (v : vector T) (vals : List T)
    (h : v.size_ ≤ v.store.length) :
    v.contents = vals.map some ↔
      vals.length = v.size_ ∧ ∀ j, j < v.size_ → cell v.store j = vals[j]? := by
  rw [contents_iff v vals h]
  constructor
  · rintro ⟨hl, hcell⟩
    refine ⟨hl, fun j hj => ?_⟩
    have hj2 : j < vals.length := by omega
    rw [hcell j hj2, List.getElem?_eq_getElem hj2]
  · rintro ⟨hl, hcell⟩
    refine ⟨hl, fun j hj => ?_⟩
    rw [hcell j (by omega), List.getElem?_eq_getElem hj]

theorem reallocated_script {T : Type} (m : Machine) (v : vector T) (n : Nat) (g : Bool) :
    (reallocated m v n g).script = m.script.drop v.size_ := by
  unfold reallocated
  simp only
  split <;> rfl

theorem headD_false_of_take (script : List Bool) (k : Nat)
    (hs : ∀ b ∈ script.take (k + 1), b = false) : (script.drop k).headD false = false := by
  rw [List.headD_eq_head?_getD, List.head?_drop]
  cases h : script[k]? with
  | none => rfl
  | some b =>
    have hk := (List.getElem?_eq_some.mp h)
    have : b ∈ script.take (k + 1) := by
      rw [List.mem_iff_getElem?]
      exact ⟨k, by simp [List.getElem?_take, h]⟩
    simp [hs b this]

theorem take_prefix_ok (script : List Bool) (k n : Nat) (hkn : k ≤ n)
    (hs : ∀ b ∈ script.take n, b = false) : ∀ b ∈ script.take k, b = false := by
  intro b hb
  apply hs b
  have : script.take k = (script.take n).take k := by
    rw [List.take_take, Nat.min_eq_left hkn]
  rw [this] at hb
  exact List.mem_of_mem_take hb

theorem push_back_grow_eq {T : Type} (m : Machine) (v : vector T) (vals : List T) (x : T)
    (hwf : v.wf) (hc : v.contents = vals.map some) (hfull : v.size_ = v.capacity_)
    (hs : ∀ b ∈ m.script.take (v.size_ + 1), b = false) :
    v.push_back m (.object x) =
      ⟨.ok (),
        ⟨(m.script.drop v.size_).tail,
          (reallocated m v (if v.capacity_ = 0 then 1 else v.capacity_ * 2) true).brk,
          (reallocated m v (if v.capacity_ = 0 then 1 else v.capacity_ * 2) true).trace ++
            [Event.construct ((m.brk : Int) + 1 + (v.size_ : Int))]⟩,
        ⟨(m.brk : Int) + 1, v.size_ + 1, (if v.capacity_ = 0 then 1 else v.capacity_ * 2),
          (filled vals (if v.capacity_ = 0 then 1 else v.capacity_ * 2) v.size_).set v.size_
            ⟨some x, true⟩⟩⟩ := by
  obtain ⟨hl, -⟩ := (contents_iff_getElem? v vals (by have := hwf.1; have := hwf.2; omega)).mp hc
  have hgrow : v.capacity_ < (if v.capacity_ = 0 then 1 else v.capacity_ * 2) := by
    split <;> omega
  have hres := reserve_grow m v vals _ hwf hc hgrow
    (take_prefix_ok m.script _ _ (Nat.le_succ _) hs)
  have hhead : (reallocated m v (if v.capacity_ = 0 then 1 else v.capacity_ * 2) true).script.headD
      false = false := by
    rw [reallocated_script]
    exact headD_false_of_take m.script v.size_ hs
  have hscript := reallocated_script m v (if v.capacity_ = 0 then 1 else v.capacity_ * 2) true
  unfold vector.push_back vector.__maybe_resize
  rw [if_pos hfull]
  generalize (if v.capacity_ = 0 then 1 else v.capacity_ * 2) = nc at *
  have hflen : (filled vals nc v.size_).length = nc := filled_length _ _ _ (by omega) (by omega)
  simp only [hres, Ref.read]
  rw [construct_at_at _ _ _ _ _ (by rw [hflen]; omega)]
  simp only [hhead, Bool.false_eq_true, if_false]
  simp only [hscript]

theorem push_back_room_eq {T : Type} (m : Machine) (v : vector T) (x : T)
    (hlt : v.size_ < v.store.length) (hfull : v.size_ ≠ v.capacity_)
    (hs : ∀ b ∈ m.script.take 1, b = false) :
    v.push_back m (.object x) =
      ⟨.ok (), ⟨m.script.tail, m.brk, m.trace ++ [Event.construct (v.data_ + (v.size_ : Int))]⟩,
        ⟨v.data_, v.size_ + 1, v.capacity_, v.store.set v.size_ ⟨some x, true⟩⟩⟩ := by
  have hhead : m.script.headD false = false := by
    have := headD_false_of_take m.script 0 hs
    simpa using this
  simp only [vector.push_back, hfull, if_false, Ref.read]
  rw [construct_at_at _ _ _ _ _ hlt]
  simp only [hhead, Bool.false_eq_true, if_false]

theorem contents_snoc {T : Type} (v : vector T) (vals : List T) (x : T) (slots : List (Slot T))
    (p : Int) (cap : Nat) (hl : vals.length = v.size_) (hlt : v.size_ < slots.length)
    (hcell : ∀ j, j < v.size_ → cell slots j = vals[j]?) :
    (vector.mk p (v.size_ + 1) cap (slots.set v.size_ ⟨some x, true⟩)).contents
      = (vals ++ [x]).map some := by
  rw [contents_iff_getElem?]
  · refine ⟨by simp; omega, ?_⟩
    intro j hj
    simp only at hj ⊢
    rw [cell_set _ _ _ _ hlt]
    by_cases hjs : j = v.size_
    · simp [hjs, ← hl]
    · have hj2 : j < vals.length := by omega
      rw [if_neg hjs, List.getElem?_append_left hj2]
      exact hcell j (by omega)
  · simp only [List.length_set]
    omega

theorem push_back_ok {T : Type} (m : Machine) (v : vector T) (vals : List T) (x : T)
    (hwf : v.wf) (hc : v.contents = vals.map some)
    (hs : ∀ b ∈ m.script.take (if v.size_ = v.capacity_ then v.size_ + 1 else 1), b = false) :
    (v.push_back m (.object x)).ret = .ok () ∧ (v.push_back m (.object x)).self.wf ∧
    (v.push_back m (.object x)).self.contents = (vals ++ [x]).map some ∧
    (v.push_back m (.object x)).self.size_ = v.size_ + 1 ∧
    (v.push_back m (.object x)).self.capacity_ =
      (if v.size_ = v.capacity_ then (if v.capacity_ = 0 then 1 else v.capacity_ * 2)
       else v.capacity_) ∧
    (v.push_back m (.object x)).mach.script =
      m.script.drop (if v.size_ = v.capacity_ then v.size_ + 1 else 1) := by
  obtain ⟨hsz, hlen⟩ := hwf
  obtain ⟨hl, hcell⟩ := (contents_iff_getElem? v vals (by omega)).mp hc
  by_cases hfull : v.size_ = v.capacity_
  · rw [if_pos hfull] at hs
    rw [push_back_grow_eq m v vals x ⟨hsz, hlen⟩ hc hfull hs]
    have hgrow : v.capacity_ < (if v.capacity_ = 0 then 1 else v.capacity_ * 2) := by
      split <;> omega
    rw [if_pos hfull, if_pos hfull]
    generalize (if v.capacity_ = 0 then 1 else v.capacity_ * 2) = nc at *
    have hflen : (filled vals nc v.size_).length = nc := filled_length _ _ _ (by omega) (by omega)
    refine ⟨rfl, ?_, ?_, rfl, rfl, ?_⟩
    · simp only [vector.wf, List.length_set, hflen]
      exact ⟨by omega, trivial⟩
    · apply contents_snoc v vals x _ _ _ hl (by rw [hflen]; omega)
      intro j hj
      have hj2 : j < vals.length := by omega
      have := cell_filled vals nc j hj2
      rw [hl] at this
      rw [this, List.getElem?_eq_getElem hj2]
    · simp only [List.tail_drop]
  · rw [if_neg hfull] at hs
    have hlt : v.size_ < v.store.length := by omega
    rw [push_back_room_eq m v x hlt hfull hs, if_neg hfull, if_neg hfull]
    refine ⟨rfl, ?_, ?_, rfl, rfl, ?_⟩
    · simp only [vector.wf, List.length_set]
      exact ⟨by omega, hlen⟩
    · exact contents_snoc v vals x _ _ _ hl hlt hcell
    · simp

/-- A `push_back` during which a constructor call throws: the exception leaves the function
and `size_` and the elements are as before (the capacity may have grown). -/
theorem push_back_throw {T : Type} (m : Machine) (v : vector T) (vals : List T) (x : T) (k : Nat)
    (hwf : v.wf) (hc : v.contents = vals.map some)
    (hk : k < (if v.size_ = v.capacity_ then v.size_ + 1 else 1))
    (hs : m.script.take (k + 1) = List.replicate k false ++ [true]) :
    (v.push_back m (.object x)).ret = .error .element_failure ∧ (v.push_back m (.object x)).self.wf ∧
    (v.push_back m (.object x)).self.size_ = v.size_ ∧
    (v.push_back m (.object x)).self.contents = v.contents := by
  obtain ⟨hl, -⟩ := (contents_iff_getElem? v vals (by have := hwf.1; have := hwf.2; omega)).mp hc
  by_cases hfull : v.size_ = v.capacity_
  · rw [if_pos hfull] at hk
    have hgrow : v.capacity_ < (if v.capacity_ = 0 then 1 else v.capacity_ * 2) := by
      split <;> omega
    by_cases hks : k < v.size_
    · have hres := reserve_throw m v vals _ k hwf hc hgrow hks hs
      unfold vector.push_back vector.__maybe_resize
      rw [if_pos hfull]
      simp only [hres]
      exact ⟨trivial, hwf, trivial, trivial⟩
    · have hke : k = v.size_ := by omega
      subst hke
      have hres := reserve_grow m v vals _ hwf hc hgrow (script_prefix_ok m.script _ hs)
      have hhead : (reallocated m v (if v.capacity_ = 0 then 1 else v.capacity_ * 2)
          true).script.headD false = true := by
        rw [reallocated_script]
        exact script_throws m.script v.size_ hs
      unfold vector.push_back vector.__maybe_resize
      rw [if_pos hfull]
      generalize (if v.capacity_ = 0 then 1 else v.capacity_ * 2) = nc at *
      have hflen : (filled vals nc v.size_).length = nc :=
        filled_length _ _ _ (by omega) (by omega)
      simp only [hres, Ref.read]
      rw [construct_at_at _ _ _ _ _ (by rw [hflen]; omega)]
      simp only [hhead, if_true]
      refine ⟨trivial, ⟨by simp only; omega, hflen⟩, trivial, ?_⟩
      rw [hc]
      have := contents_filled vals ((m.brk : Int) + 1) nc (by omega)
      rw [hl] at this
      exact this
  · rw [if_neg hfull] at hk
    have hk0 : k = 0 := by omega
    subst hk0
    have hlt : v.size_ < v.store.length := by have := hwf.1; have := hwf.2; omega
    have hhead : m.script.headD false = true := by
      have := script_throws m.script 0 hs
      simpa using this
    unfold vector.push_back
    rw [if_neg hfull]
    simp only [Ref.read]
    rw [construct_at_at _ _ _ _ _ hlt]
    simp only [hhead, if_true]
    exact ⟨trivial, hwf, trivial, trivial⟩

theorem push_back_capacity_room {T : Type} (m : Machine) (v : vector T) (value : Ref T)
    (h : v.size_ ≠ v.capacity_) : (v.push_back m value).self.capacity_ = v.capacity_ := by
  simp only [vector.push_back, h, if_false]
  split
  · rfl
  · split <;> rfl

theorem doubling_step (size cap : Nat) (h : doubling size cap) :
    doubling (size + 1)
      (if size = cap then (if cap = 0 then 1 else cap * 2) else cap) := by
  rcases h with ⟨h0, h1⟩ | ⟨k, hk, hle, hlt⟩
  · subst h0 h1
    exact Or.inr ⟨0, by simp⟩
  · have hpos : 0 < cap := by rw [hk]; exact Nat.pos_pow_of_pos k (by decide)
    by_cases hf : size = cap
    · rw [if_pos hf, if_neg (by omega)]
      exact Or.inr ⟨k + 1, by rw [hk, pow_succ], by omega, by omega⟩
    · rw [if_neg hf]
      exact Or.inr ⟨k, hk, by omega, by omega⟩

theorem doubling_least (size cap : Nat) (h : doubling size cap) (hs : 1 ≤ size) :
    ∃ k, cap = 2 ^ k ∧ size ≤ 2 ^ k ∧ ∀ j, size ≤ 2 ^ j → 2 ^ k ≤ 2 ^ j := by
  rcases h with ⟨h0, -⟩ | ⟨k, hk, hle, hlt⟩
  · omega
  · refine ⟨k, hk, by omega, ?_⟩
    intro j hj
    by_contra hcon
    have hjk : j < k := by
      by_contra hnot
      exact hcon (Nat.pow_le_pow_right (by decide) (by omega))
    have : 2 ^ (j + 1) ≤ 2 ^ k := Nat.pow_le_pow_right (by decide) hjk
    rw [pow_succ] at this
    omega

theorem push_all_ok {T : Type} (xs : List T) :
    ∀ (m : Machine) (v : vector T) (vals : List T), v.wf → v.contents = vals.map some →
      (∀ b ∈ m.script, b = false) → doubling v.size_ v.capacity_ →
      (push_all m v xs).ret = .ok () ∧ (push_all m v xs).self.wf ∧
      (push_all m v xs).self.contents = (vals ++ xs).map some ∧
      (push_all m v xs).self.size_ = v.size_ + xs.length ∧
      doubling (push_all m v xs).self.size_ (push_all m v xs).self.capacity_ := by
  induction xs with
  | nil =>
    intro m v vals hwf hc _ hd
    simp [push_all, hwf, hc, hd]
  | cons x xs ih =>
    intro m v vals hwf hc hs hd
    obtain ⟨h1, h2, h3, h4, h5, h6⟩ := push_back_ok m v vals x hwf hc
      (fun b hb => hs b (List.mem_of_mem_take hb))
    have hs2 : ∀ b ∈ (v.push_back m (.object x)).mach.script, b = false := by
      intro b hb
      rw [h6] at hb
      exact hs b (List.mem_of_mem_drop hb)
    have hd2 : doubling (v.push_back m (.object x)).self.size_ (v.push_back m (.object x)).self.capacity_ := by
      rw [h4, h5]
      exact doubling_step _ _ hd
    obtain ⟨g1, g2, g3, g4, g5⟩ := ih (v.push_back m (.object x)).mach (v.push_back m (.object x)).self
      (vals ++ [x]) h2 h3 hs2 hd2
    have e : push_all m v (x :: xs)
        = push_all (v.push_back m (.object x)).mach (v.push_back m (.object x)).self xs := by
      simp only [push_all, h1]
    rw [e]
    refine ⟨g1, g2, ?_, ?_, g5⟩
    · rw [g3]; simp
    · rw [g4, h4]; simp; omega

/-! ## The shifting loops of insert and erase -/

theorem move_assign_at {T : Type} (m : Machine) (base : Int) (slots : List (Slot T))
    (dst src : Nat) (x : T) (hsrc : cell slots src = some x) (hdst : dst < slots.length) :
    move_assign m base slots (base + (dst : Int)) (base + (src : Int)) =
      ⟨.ok (),
        ⟨m.script, m.brk, m.trace ++ [Event.assign (base + (dst : Int)) slots[dst].live]⟩,
        slots.set dst ⟨some x, slots[dst].live⟩⟩ := by
  rw [move_assign, load_cell base slots src x hsrc]
  simp only [assign_at m base slots dst x hdst]

theorem insert_shift_spec {T : Type} (base : Int) (idx : Nat) (d : Nat) :
    ∀ (m : Machine) (slots : List (Slot T)) (fuel : Nat), idx + d < slots.length → d ≤ fuel →
      (∀ j, idx ≤ j → j < idx + d → ∃ x, cell slots j = some x) →
      (insert_shift base ⟨base + (idx : Int)⟩ fuel ⟨base + ((idx + d : Nat) : Int)⟩ m slots).ret
        = .ok () ∧
      (insert_shift base ⟨base + (idx : Int)⟩ fuel ⟨base + ((idx + d : Nat) : Int)⟩ m
        slots).slots.length = slots.length ∧
      (insert_shift base ⟨base + (idx : Int)⟩ fuel ⟨base + ((idx + d : Nat) : Int)⟩ m
        slots).mach.script = m.script ∧
      ∀ j, cell (insert_shift base ⟨base + (idx : Int)⟩ fuel ⟨base + ((idx + d : Nat) : Int)⟩ m
        slots).slots j = if idx < j ∧ j ≤ idx + d then cell slots (j - 1) else cell slots j := by
  induction d with
  | zero =>
    intro m slots fuel _ _ _
    simp only [Nat.add_zero]
    have hne : (vector_iterator.mk (base + (idx : Int))).ne ⟨base + (idx : Int)⟩ = false := by
      simp [vector_iterator.ne]
    have hr : insert_shift base ⟨base + (idx : Int)⟩ fuel ⟨base + (idx : Int)⟩ m slots
        = ⟨.ok (), m, slots⟩ := by
      cases fuel <;> simp [insert_shift, hne]
    rw [hr]
    refine ⟨rfl, rfl, rfl, ?_⟩
    intro j
    have : ¬ (idx < j ∧ j ≤ idx) := by omega
    simp [this]
  | succ d ih =>
    intro m slots fuel hlen hfuel hcells
    obtain ⟨fuel, rfl⟩ : ∃ f, fuel = f + 1 := ⟨fuel - 1, by omega⟩
    obtain ⟨x, hx⟩ := hcells (idx + d) (by omega) (by omega)
    have hne : (vector_iterator.mk (base + ((idx + (d + 1) : Nat) : Int))).ne
        ⟨base + (idx : Int)⟩ = true := by
      simp [vector_iterator.ne]
      omega
    have hsub : ((vector_iterator.mk (base + ((idx + (d + 1) : Nat) : Int))).sub 1).ptr_
        = base + ((idx + d : Nat) : Int) := by
      simp [vector_iterator.sub]
      omega
    have hdec : (vector_iterator.mk (base + ((idx + (d + 1) : Nat) : Int))).dec
        = ⟨base + ((idx + d : Nat) : Int)⟩ := by
      simp [vector_iterator.dec]
      omega
    have hstep := move_assign_at m base slots (idx + (d + 1)) (idx + d) x hx hlen
    have hr : insert_shift base ⟨base + (idx : Int)⟩ (fuel + 1)
        ⟨base + ((idx + (d + 1) : Nat) : Int)⟩ m slots
        = insert_shift base ⟨base + (idx : Int)⟩ fuel ⟨base + ((idx + d : Nat) : Int)⟩
            ⟨m.script, m.brk, m.trace ++
              [Event.assign (base + ((idx + (d + 1) : Nat) : Int)) slots[idx + (d + 1)].live]⟩
            (slots.set (idx + (d + 1)) ⟨some x, slots[idx + (d + 1)].live⟩) := by
      rw [insert_shift]
      simp only [hne, if_true, hsub, hstep, hdec]
    rw [hr]
    have hcell2 : ∀ j, cell (slots.set (idx + (d + 1)) ⟨some x, slots[idx + (d + 1)].live⟩) j
        = if j = idx + (d + 1) then some x else cell slots j := by
      intro j
      rw [cell_set _ _ _ _ hlen]
    obtain ⟨h1, h2, h3, h4⟩ := ih
      ⟨m.script, m.brk, m.trace ++
        [Event.assign (base + ((idx + (d + 1) : Nat) : Int)) slots[idx + (d + 1)].live]⟩
      (slots.set (idx + (d + 1)) ⟨some x, slots[idx + (d + 1)].live⟩) fuel
      (by simp; omega) (by omega)
      (by
        intro j hj1 hj2
        rw [hcell2 j, if_neg (by omega)]
        exact hcells j hj1 (by omega))
    refine ⟨h1, by rw [h2]; simp, h3, ?_⟩
    intro j
    rw [h4 j, hcell2, hcell2]
    by_cases hj : idx < j ∧ j ≤ idx + d
    · have h5 : idx < j ∧ j ≤ idx + (d + 1) := by omega
      rw [if_pos hj, if_pos h5, if_neg (by omega)]
    · rw [if_neg hj]
      by_cases hj2 : j = idx + (d + 1)
      · have h5 : idx < j ∧ j ≤ idx + (d + 1) := by omega
        rw [if_pos hj2, if_pos h5]
        subst hj2
        simp [hx]
      · have h5 : ¬ (idx < j ∧ j ≤ idx + (d + 1)) := by omega
        rw [if_neg hj2, if_neg h5]

theorem erase_shift_spec {T : Type} (base : Int) (e : Nat) (d : Nat) :
    ∀ (i : Nat) (m : Machine) (slots : List (Slot T)) (fuel : Nat), i + d = e →
      e < slots.length → d ≤ fuel →
      (∀ j, i < j → j ≤ e → ∃ x, cell slots j = some x) →
      (erase_shift base ⟨base + (e : Int)⟩ fuel ⟨base + (i : Int)⟩ m slots).ret = .ok () ∧
      (erase_shift base ⟨base + (e : Int)⟩ fuel ⟨base + (i : Int)⟩ m slots).slots.length
        = slots.length ∧
      (erase_shift base ⟨base + (e : Int)⟩ fuel ⟨base + (i : Int)⟩ m slots).mach.script
        = m.script ∧
      ∀ j, cell (erase_shift base ⟨base + (e : Int)⟩ fuel ⟨base + (i : Int)⟩ m slots).slots j
        = if i ≤ j ∧ j < e then cell slots (j + 1) else cell slots j := by
  induction d with
  | zero =>
    intro i m slots fuel hie _ _ _
    have hi : i = e := by omega
    subst hi
    have hne : (vector_iterator.mk (base + (i : Int))).ne ⟨base + (i : Int)⟩ = false := by
      simp [vector_iterator.ne]
    have hr : erase_shift base ⟨base + (i : Int)⟩ fuel ⟨base + (i : Int)⟩ m slots
        = ⟨.ok (), m, slots⟩ := by
      cases fuel <;> simp [erase_shift, hne]
    rw [hr]
    refine ⟨rfl, rfl, rfl, ?_⟩
    intro j
    have : ¬ (i ≤ j ∧ j < i) := by omega
    simp [this]
  | succ d ih =>
    intro i m slots fuel hie hlen hfuel hcells
    obtain ⟨fuel, rfl⟩ : ∃ f, fuel = f + 1 := ⟨fuel - 1, by omega⟩
    obtain ⟨x, hx⟩ := hcells (i + 1) (by omega) (by omega)
    have hi : i < slots.length := by omega
    have hne : (vector_iterator.mk (base + (i : Int))).ne ⟨base + (e : Int)⟩ = true := by
      simp [vector_iterator.ne]
      omega
    have hadd : ((vector_iterator.mk (base + (i : Int))).add 1).ptr_
        = base + ((i + 1 : Nat) : Int) := by
      simp [vector_iterator.add]
      omega
    have hinc : (vector_iterator.mk (base + (i : Int))).inc = ⟨base + ((i + 1 : Nat) : Int)⟩ := by
      simp [vector_iterator.inc]
      omega
    have hstep := move_assign_at m base slots i (i + 1) x hx hi
    have hr : erase_shift base ⟨base + (e : Int)⟩ (fuel + 1) ⟨base + (i : Int)⟩ m slots
        = erase_shift base ⟨base + (e : Int)⟩ fuel ⟨base + ((i + 1 : Nat) : Int)⟩
            ⟨m.script, m.brk, m.trace ++ [Event.assign (base + (i : Int)) slots[i].live]⟩
            (slots.set i ⟨some x, slots[i].live⟩) := by
      rw [erase_shift]
      simp only [hne, if_true, hadd, hstep, hinc]
    rw [hr]
    have hcell2 : ∀ j, cell (slots.set i ⟨some x, slots[i].live⟩) j
        = if j = i then some x else cell slots j := by
      intro j
      rw [cell_set _ _ _ _ hi]
    obtain ⟨h1, h2, h3, h4⟩ := ih (i + 1)
      ⟨m.script, m.brk, m.trace ++ [Event.assign (base + (i : Int)) slots[i].live]⟩
      (slots.set i ⟨some x, slots[i].live⟩) fuel (by omega) (by simp; omega) (by omega)
      (by
        intro j hj1 hj2
        rw [hcell2 j, if_neg (by omega)]
        exact hcells j (by omega) hj2)
    refine ⟨h1, by rw [h2]; simp, h3, ?_⟩
    intro j
    rw [h4 j, hcell2, hcell2]
    by_cases hj : i + 1 ≤ j ∧ j < e
    · have h5 : i ≤ j ∧ j < e := by omega
      rw [if_pos hj, if_pos h5, if_neg (by omega)]
    · rw [if_neg hj]
      by_cases hj2 : j = i
      · have h5 : i ≤ j ∧ j < e := by omega
        rw [if_pos hj2, if_pos h5]
        subst hj2
        simp [hx]
      · have h5 : ¬ (i ≤ j ∧ j < e) := by omega
        rw [if_neg hj2, if_neg h5]

theorem std_move_spec {T : Type} (base : Int) (count : Nat) :
    ∀ (l f : Nat) (m : Machine) (slots : List (Slot T)), f ≤ l → l + count ≤ slots.length →
      (∀ j, l ≤ j → j < l + count → ∃ x, cell slots j = some x) →
      (std_move base count ⟨base + (l : Int)⟩ ⟨base + (f : Int)⟩ m slots).1.ret = .ok () ∧
      (std_move base count ⟨base + (l : Int)⟩ ⟨base + (f : Int)⟩ m slots).2
        = ⟨base + ((f + count : Nat) : Int)⟩ ∧
      (std_move base count ⟨base + (l : Int)⟩ ⟨base + (f : Int)⟩ m slots).1.slots.length
        = slots.length ∧
      (std_move base count ⟨base + (l : Int)⟩ ⟨base + (f : Int)⟩ m slots).1.mach.script
        = m.script ∧
      ∀ j, cell (std_move base count ⟨base + (l : Int)⟩ ⟨base + (f : Int)⟩ m slots).1.slots j
        = if f ≤ j ∧ j < f + count then cell slots (j + (l - f)) else cell slots j := by
  induction count with
  | zero =>
    intro l f m slots _ _ _
    refine ⟨rfl, by simp [std_move], rfl, rfl, ?_⟩
    intro j
    have : ¬ (f ≤ j ∧ j < f) := by omega
    simp [std_move, this]
  | succ count ih =>
    intro l f m slots hfl hlen hcells
    obtain ⟨x, hx⟩ := hcells l (by omega) (by omega)
    have hf : f < slots.length := by omega
    have hinc1 : (vector_iterator.mk (base + (l : Int))).inc = ⟨base + ((l + 1 : Nat) : Int)⟩ := by
      simp [vector_iterator.inc]
      omega
    have hinc2 : (vector_iterator.mk (base + (f : Int))).inc = ⟨base + ((f + 1 : Nat) : Int)⟩ := by
      simp [vector_iterator.inc]
      omega
    have hstep := move_assign_at m base slots f l x hx hf
    have hr : std_move base (count + 1) ⟨base + (l : Int)⟩ ⟨base + (f : Int)⟩ m slots
        = std_move base count ⟨base + ((l + 1 : Nat) : Int)⟩ ⟨base + ((f + 1 : Nat) : Int)⟩
            ⟨m.script, m.brk, m.trace ++ [Event.assign (base + (f : Int)) slots[f].live]⟩
            (slots.set f ⟨some x, slots[f].live⟩) := by
      rw [std_move]
      simp only [hstep, hinc1, hinc2]
    rw [hr]
    have hcell2 : ∀ j, cell (slots.set f ⟨some x, slots[f].live⟩) j
        = if j = f then some x else cell slots j := by
      intro j
      rw [cell_set _ _ _ _ hf]
    obtain ⟨h1, h2, h3, h4, h5⟩ := ih (l + 1) (f + 1)
      ⟨m.script, m.brk, m.trace ++ [Event.assign (base + (f : Int)) slots[f].live]⟩
      (slots.set f ⟨some x, slots[f].live⟩) (by omega) (by simp; omega)
      (by
        intro j hj1 hj2
        rw [hcell2 j, if_neg (by omega)]
        exact hcells j (by omega) (by omega))
    refine ⟨h1, ?_, by rw [h3]; simp, h4, ?_⟩
    · rw [h2]
      congr 2
      omega
    · intro j
      rw [h5 j, hcell2, hcell2]
      have e1 : l + 1 - (f + 1) = l - f := by omega
      rw [e1]
      by_cases hj : f + 1 ≤ j ∧ j < f + 1 + count
      · have h6 : f ≤ j ∧ j < f + (count + 1) := by omega
        rw [if_pos hj, if_pos h6, if_neg (by omega)]
      · rw [if_neg hj]
        by_cases hj2 : j = f
        · have h6 : f ≤ j ∧ j < f + (count + 1) := by omega
          rw [if_pos hj2, if_pos h6]
          subst hj2
          have e2 : j + (l - j) = l := by omega
          rw [e2, hx]
        · have h6 : ¬ (f ≤ j ∧ j < f + (count + 1)) := by omega
          rw [if_neg hj2, if_neg h6]

theorem erase_destroy_spec {T : Type} (base : Int) (b : Nat) (d : Nat) :
    ∀ (a : Nat) (m : Machine) (slots : List (Slot T)) (fuel : Nat), a + d = b →
      b ≤ slots.length → d ≤ fuel →
      (erase_destroy base ⟨base + (b : Int)⟩ fuel ⟨base + (a : Int)⟩ m slots).ret = .ok () ∧
      (erase_destroy base ⟨base + (b : Int)⟩ fuel ⟨base + (a : Int)⟩ m slots).slots.length
        = slots.length ∧
      (erase_destroy base ⟨base + (b : Int)⟩ fuel ⟨base + (a : Int)⟩ m slots).mach.script
        = m.script ∧
      ∀ j, (erase_destroy base ⟨base + (b : Int)⟩ fuel ⟨base + (a : Int)⟩ m slots).slots[j]?
        = if a ≤ j ∧ j < b then some ⟨none, false⟩ else slots[j]? := by
  induction d with
  | zero =>
    intro a m slots fuel hab _ _
    have hi : a = b := by omega
    subst hi
    have hne : (vector_iterator.mk (base + (a : Int))).ne ⟨base + (a : Int)⟩ = false := by
      simp [vector_iterator.ne]
    have hr : erase_destroy base ⟨base + (a : Int)⟩ fuel ⟨base + (a : Int)⟩ m slots
        = ⟨.ok (), m, slots⟩ := by
      cases fuel <;> simp [erase_destroy, hne]
    rw [hr]
    refine ⟨rfl, rfl, rfl, ?_⟩
    intro j
    have : ¬ (a ≤ j ∧ j < a) := by omega
    simp [this]
  | succ d ih =>
    intro a m slots fuel hab hlen hfuel
    obtain ⟨fuel, rfl⟩ : ∃ f, fuel = f + 1 := ⟨fuel - 1, by omega⟩
    have ha : a < slots.length := by omega
    have hne : (vector_iterator.mk (base + (a : Int))).ne ⟨base + (b : Int)⟩ = true := by
      simp [vector_iterator.ne]
      omega
    have hinc : (vector_iterator.mk (base + (a : Int))).inc = ⟨base + ((a + 1 : Nat) : Int)⟩ := by
      simp [vector_iterator.inc]
      omega
    have hbase : (vector_iterator.mk (base + (a : Int))).base = base + (a : Int) := rfl
    have hr : erase_destroy base ⟨base + (b : Int)⟩ (fuel + 1) ⟨base + (a : Int)⟩ m slots
        = erase_destroy base ⟨base + (b : Int)⟩ fuel ⟨base + ((a + 1 : Nat) : Int)⟩
            ⟨m.script, m.brk, m.trace ++ [Event.destroy (base + (a : Int))]⟩
            (slots.set a ⟨none, false⟩) := by
      rw [erase_destroy]
      simp only [hne, if_true, hbase, destroy_at_at m base slots a ha, hinc]
    rw [hr]
    obtain ⟨h1, h2, h3, h4⟩ := ih (a + 1)
      ⟨m.script, m.brk, m.trace ++ [Event.destroy (base + (a : Int))]⟩
      (slots.set a ⟨none, false⟩) fuel (by omega) (by simp; omega) (by omega)
    refine ⟨h1, by rw [h2]; simp, h3, ?_⟩
    intro j
    rw [h4 j, List.getElem?_set]
    by_cases hj : a + 1 ≤ j ∧ j < b
    · have h5 : a ≤ j ∧ j < b := by omega
      rw [if_pos hj, if_pos h5]
    · rw [if_neg hj]
      by_cases hj2 : a = j
      · have h5 : a ≤ j ∧ j < b := by omega
        rw [if_pos hj2, if_pos h5]
        simp [ha]
      · have h5 : ¬ (a ≤ j ∧ j < b) := by omega
        rw [if_neg hj2, if_neg h5]

/-! ## The iterator loops never run out of fuel

An iteration that succeeds has read and written inside the block, so the iterator is within
it; with the fuel each caller passes, the branch that stands for running out is never taken:
more fuel gives the same result. -/

theorem load_ok_bounds {T : Type} (base : Int) (slots : List (Slot T)) (p : Int) (x : T)
    (h : load base slots p = .ok x) : base ≤ p ∧ (p - base).toNat < slots.length := by
  unfold load at h
  by_cases hp : p < base
  · simp [hp] at h
  · simp only [hp, if_false] at h
    refine ⟨by omega, ?_⟩
    cases hg : slots[(p - base).toNat]? with
    | none => simp [hg] at h
    | some s => exact (List.getElem?_eq_some.mp hg).1

theorem assign_ok_bounds {T : Type} (m : Machine) (base : Int) (slots : List (Slot T)) (p : Int)
    (x : T) (h : (assign m base slots p x).ret = .ok ()) :
    base ≤ p ∧ (p - base).toNat < slots.length ∧
      (assign m base slots p x).slots.length = slots.length := by
  unfold assign at h ⊢
  by_cases hp : p < base
  · simp [hp] at h
  · simp only [hp, if_false] at h ⊢
    cases hg : slots[(p - base).toNat]? with
    | none => simp [hg] at h
    | some s =>
      simp only [List.length_set]
      exact ⟨by omega, (List.getElem?_eq_some.mp hg).1, trivial⟩

theorem move_assign_ok_bounds {T : Type} (m : Machine) (base : Int) (slots : List (Slot T))
    (dst src : Int) (h : (move_assign m base slots dst src).ret = .ok ()) :
    base ≤ dst ∧ (dst - base).toNat < slots.length ∧ base ≤ src ∧
      (src - base).toNat < slots.length ∧
      (move_assign m base slots dst src).slots.length = slots.length := by
  unfold move_assign at h ⊢
  cases hl : load base slots src with
  | error e => simp [hl] at h
  | ok x =>
    simp only [hl] at h ⊢
    obtain ⟨h1, h2⟩ := load_ok_bounds base slots src x hl
    obtain ⟨h3, h4, h5⟩ := assign_ok_bounds m base slots dst x h
    exact ⟨h3, h4, h1, h2, h5⟩

theorem destroy_at_ok_bounds {T : Type} (m : Machine) (base : Int) (slots : List (Slot T))
    (p : Int) (h : (destroy_at m base slots p).ret = .ok ()) :
    base ≤ p ∧ (p - base).toNat < slots.length ∧
      (destroy_at m base slots p).slots.length = slots.length := by
  unfold destroy_at at h ⊢
  by_cases hp : p < base
  · simp [hp] at h
  · simp only [hp, if_false] at h ⊢
    cases hg : slots[(p - base).toNat]? with
    | none => simp [hg] at h
    | some s =>
      simp only [List.length_set]
      exact ⟨by omega, (List.getElem?_eq_some.mp hg).1, trivial⟩

theorem insert_shift_fuel {T : Type} (base : Int) (pos : vector_iterator) (fuel : Nat) :
    ∀ (it : vector_iterator) (m : Machine) (slots : List (Slot T)) (more : Nat),
      it.ptr_ - base ≤ (fuel : Int) → fuel ≤ more →
      insert_shift base pos more it m slots = insert_shift base pos fuel it m slots := by
  induction fuel with
  | zero =>
    intro it m slots more hfuel _
    cases more with
    | zero => rfl
    | succ more =>
      rw [insert_shift, insert_shift]
      by_cases hne : it.ne pos = true
      · simp only [hne, if_true]
        cases hr : (move_assign m base slots it.ptr_ (it.sub 1).ptr_).ret with
        | error e => simp [hr]
        | ok u =>
          obtain ⟨-, -, h3, -, -⟩ := move_assign_ok_bounds m base slots _ _ hr
          simp only [vector_iterator.sub] at h3
          omega
      · simp [hne]
  | succ fuel ih =>
    intro it m slots more hfuel hmore
    obtain ⟨more, rfl⟩ : ∃ k, more = k + 1 := ⟨more - 1, by omega⟩
    rw [insert_shift, insert_shift]
    by_cases hne : it.ne pos = true
    · simp only [hne, if_true]
      cases hr : (move_assign m base slots it.ptr_ (it.sub 1).ptr_).ret with
      | error e => simp
      | ok u =>
        simp only
        apply ih
        · simp only [vector_iterator.dec]
          omega
        · omega
    · simp [hne]

theorem erase_shift_fuel {T : Type} (base : Int) (stop : vector_iterator) (fuel : Nat) :
    ∀ (it : vector_iterator) (m : Machine) (slots : List (Slot T)) (more : Nat),
      (base ≤ it.ptr_ → (slots.length : Int) - (it.ptr_ - base) ≤ (fuel : Int)) → fuel ≤ more →
      erase_shift base stop more it m slots = erase_shift base stop fuel it m slots := by
  induction fuel with
  | zero =>
    intro it m slots more hfuel _
    cases more with
    | zero => rfl
    | succ more =>
      rw [erase_shift, erase_shift]
      by_cases hne : it.ne stop = true
      · simp only [hne, if_true]
        cases hr : (move_assign m base slots it.ptr_ (it.add 1).ptr_).ret with
        | error e => simp [hr]
        | ok u =>
          obtain ⟨h1, h2, -, -, -⟩ := move_assign_ok_bounds m base slots _ _ hr
          have := hfuel h1
          omega
      · simp [hne]
  | succ fuel ih =>
    intro it m slots more hfuel hmore
    obtain ⟨more, rfl⟩ : ∃ k, more = k + 1 := ⟨more - 1, by omega⟩
    rw [erase_shift, erase_shift]
    by_cases hne : it.ne stop = true
    · simp only [hne, if_true]
      cases hr : (move_assign m base slots it.ptr_ (it.add 1).ptr_).ret with
      | error e => simp
      | ok u =>
        simp only
        obtain ⟨h1, -, -, -, h5⟩ := move_assign_ok_bounds m base slots _ _ hr
        apply ih
        · intro _
          have := hfuel h1
          rw [h5]
          simp only [vector_iterator.inc]
          omega
        · omega
    · simp [hne]

theorem erase_destroy_fuel {T : Type} (base : Int) (stop : vector_iterator) (fuel : Nat) :
    ∀ (it : vector_iterator) (m : Machine) (slots : List (Slot T)) (more : Nat),
      (base ≤ it.ptr_ → (slots.length : Int) - (it.ptr_ - base) ≤ (fuel : Int)) → fuel ≤ more →
      erase_destroy base stop more it m slots = erase_destroy base stop fuel it m slots := by
  induction fuel with
  | zero =>
    intro it m slots more hfuel _
    cases more with
    | zero => rfl
    | succ more =>
      rw [erase_destroy, erase_destroy]
      by_cases hne : it.ne stop = true
      · simp only [hne, if_true]
        cases hr : (destroy_at m base slots it.base).ret with
        | error e => simp [hr]
        | ok u =>
          obtain ⟨h1, h2, -⟩ := destroy_at_ok_bounds m base slots _ hr
          have := hfuel h1
          simp only [vector_iterator.base] at h2
          omega
      · simp [hne]
  | succ fuel ih =>
    intro it m slots more hfuel hmore
    obtain ⟨more, rfl⟩ : ∃ k, more = k + 1 := ⟨more - 1, by omega⟩
    rw [erase_destroy, erase_destroy]
    by_cases hne : it.ne stop = true
    · simp only [hne, if_true]
      cases hr : (destroy_at m base slots it.base).ret with
      | error e => simp
      | ok u =>
        simp only
        obtain ⟨h1, -, h5⟩ := destroy_at_ok_bounds m base slots _ hr
        apply ih
        · intro _
          have := hfuel h1
          rw [h5]
          simp only [vector_iterator.inc]
          omega
        · omega
    · simp [hne]

/-! ## insert -/

theorem insert_list_getElem? {T : Type} (vals : List T) (i : Nat) (x : T) (j : Nat)
    (hi : i ≤ vals.length) :
    (vals.take i ++ [x] ++ vals.drop i)[j]? =
      if j = i then some x else if i < j then vals[j - 1]? else vals[j]? := by
  have hlt : (vals.take i).length = i := by simp [List.length_take, hi]
  by_cases h1 : j < i
  · rw [List.getElem?_append_left (by simp [hlt]; omega),
      List.getElem?_append_left (by rw [hlt]; exact h1), List.getElem?_take]
    simp [h1, show j ≠ i by omega, show ¬ i < j by omega]
  · by_cases h2 : j = i
    · subst h2
      rw [List.getElem?_append_left (by simp [hlt]),
        List.getElem?_append_right (by rw [hlt])]
      simp [hlt]
    · rw [List.getElem?_append_right (by simp [hlt]; omega)]
      simp only [List.length_append, hlt, List.length_singleton, List.getElem?_drop]
      have : i + (j - (i + 1)) = j - 1 := by omega
      rw [this]
      simp [h2, show i < j by omega]

theorem insert_of_room {T : Type} (m : Machine) (v : vector T) (pos : vector_iterator)
    (value : Ref T) (h : v.size_ ≠ v.capacity_) :
    v.insert m pos value = insert_rest m v (pos.diff v.begin) value := by
  unfold vector.insert insert_rest
  simp only [h, if_false]

theorem insert_of_grow {T : Type} (m : Machine) (v : vector T) (pos : vector_iterator)
    (value : Ref T) (m1 : Machine) (w : vector T) (h : v.size_ = v.capacity_)
    (hres : vector.__maybe_resize m v = ⟨.ok (), m1, w⟩) :
    v.insert m pos value = insert_rest m1 w (pos.diff v.begin) value := by
  unfold vector.insert insert_rest
  simp only [h, if_true, hres]

theorem insert_rest_ok {T : Type} (m : Machine) (w : vector T) (vals : List T) (i : Nat) (x : T)
    (hlt : w.size_ < w.store.length) (hc : w.contents = vals.map some) (hi : i ≤ vals.length) :
    (insert_rest m w (i : Int) (.object x)).ret = .ok (w.begin.add (i : Int)) ∧
    (insert_rest m w (i : Int) (.object x)).self.data_ = w.data_ ∧
    (insert_rest m w (i : Int) (.object x)).self.size_ = w.size_ + 1 ∧
    (insert_rest m w (i : Int) (.object x)).self.capacity_ = w.capacity_ ∧
    (insert_rest m w (i : Int) (.object x)).self.store.length = w.store.length ∧
    (insert_rest m w (i : Int) (.object x)).mach.script = m.script ∧
    (insert_rest m w (i : Int) (.object x)).self.contents = (vals.take i ++ [x] ++ vals.drop i).map some := by
  obtain ⟨hl, hcell⟩ := (contents_iff_getElem? w vals (by omega)).mp hc
  have hd : i + (w.size_ - i) = w.size_ := by omega
  obtain ⟨h1, h2, h3, h4⟩ := insert_shift_spec w.data_ i (w.size_ - i) m w.store w.size_
    (by omega) (by omega)
    (by
      intro j hj1 hj2
      have hj : j < vals.length := by omega
      exact ⟨vals[j], by rw [hcell j (by omega), List.getElem?_eq_getElem hj]⟩)
  rw [hd] at h1 h2 h3 h4
  have hpos : (w.begin.add (i : Int)) = ⟨w.data_ + (i : Int)⟩ := rfl
  have hend : w.end = ⟨w.data_ + (w.size_ : Int)⟩ := rfl
  have hil : i < (insert_shift w.data_ ⟨w.data_ + (i : Int)⟩ w.size_
      ⟨w.data_ + (w.size_ : Int)⟩ m w.store).slots.length := by
    rw [h2]; omega
  unfold insert_rest
  simp only [hpos, hend, h1, Ref.read, assign_at _ _ _ _ _ hil]
  refine ⟨trivial, trivial, trivial, trivial, ?_, h3, ?_⟩
  · simp [h2]
  · rw [contents_iff_getElem?]
    · refine ⟨by simp [List.length_take]; omega, ?_⟩
      intro j hj
      simp only at hj ⊢
      rw [cell_set _ _ _ _ hil, h4 j, insert_list_getElem? vals i x j hi]
      by_cases hji : j = i
      · simp [hji]
      · rw [if_neg hji, if_neg hji]
        by_cases hij : i < j
        · rw [if_pos hij, if_pos ⟨hij, by omega⟩]
          exact hcell (j - 1) (by omega)
        · rw [if_neg hij, if_neg (fun h => hij h.1)]
          exact hcell j (by omega)
    · simp only [List.length_set, h2]
      omega

theorem begin_add_diff {T : Type} (v : vector T) (n : Int) :
    (v.begin.add n).diff v.begin = n := by
  simp [vector.begin, vector_iterator.add, vector_iterator.diff]

theorem insert_ok {T : Type} (m : Machine) (v : vector T) (vals : List T) (i : Nat) (x : T)
    (hwf : v.wf) (hc : v.contents = vals.map some) (hi : i ≤ vals.length)
    (hs : v.size_ = v.capacity_ → ∀ b ∈ m.script.take v.size_, b = false) :
    (v.insert m (v.begin.add (i : Int)) (.object x)).ret
      = .ok ((v.insert m (v.begin.add (i : Int)) (.object x)).self.begin.add (i : Int)) ∧
    (v.insert m (v.begin.add (i : Int)) (.object x)).self.wf ∧
    (v.insert m (v.begin.add (i : Int)) (.object x)).self.contents
      = (vals.take i ++ [x] ++ vals.drop i).map some ∧
    (v.insert m (v.begin.add (i : Int)) (.object x)).self.size_ = v.size_ + 1 ∧
    (v.insert m (v.begin.add (i : Int)) (.object x)).self.capacity_ =
      (if v.size_ = v.capacity_ then (if v.capacity_ = 0 then 1 else v.capacity_ * 2)
       else v.capacity_) := by
  obtain ⟨hl, -⟩ := (contents_iff_getElem? v vals (by have := hwf.1; have := hwf.2; omega)).mp hc
  by_cases hfull : v.size_ = v.capacity_
  · have hgrow : v.capacity_ < (if v.capacity_ = 0 then 1 else v.capacity_ * 2) := by
      split <;> omega
    have hres := reserve_grow m v vals _ hwf hc hgrow (hs hfull)
    rw [insert_of_grow m v _ (.object x) _ _ hfull hres, begin_add_diff, if_pos hfull]
    generalize (if v.capacity_ = 0 then 1 else v.capacity_ * 2) = nc at *
    have hflen : (filled vals nc v.size_).length = nc :=
      filled_length _ _ _ (by omega) (by have := hwf.1; omega)
    have hcw : (vector.mk ((m.brk : Int) + 1) v.size_ nc (filled vals nc v.size_)).contents
        = vals.map some := by
      have := contents_filled vals ((m.brk : Int) + 1) nc (by have := hwf.1; omega)
      rw [hl] at this
      exact this
    obtain ⟨h1, h2, h3, h4, h5, -, h7⟩ := insert_rest_ok (reallocated m v nc true)
      (vector.mk ((m.brk : Int) + 1) v.size_ nc (filled vals nc v.size_)) vals i x
      (by simp only [hflen]; have := hwf.1; omega) hcw hi
    refine ⟨?_, ⟨?_, ?_⟩, h7, h3, h4⟩
    · rw [h1]
      simp only [vector.begin, h2]
    · rw [h3, h4]
      have := hwf.1
      simp only
      omega
    · rw [h5, h4]
      exact hflen
  · have hlt : v.size_ < v.store.length := by have := hwf.1; have := hwf.2; omega
    rw [insert_of_room m v _ (.object x) hfull, begin_add_diff, if_neg hfull]
    obtain ⟨h1, h2, h3, h4, h5, -, h7⟩ := insert_rest_ok m v vals i x hlt hc hi
    refine ⟨?_, ⟨?_, ?_⟩, h7, h3, h4⟩
    · rw [h1]
      simp only [vector.begin, h2]
    · rw [h3, h4]
      have := hwf.2
      omega
    · rw [h5, h4]
      exact hwf.2

/-! ## erase -/

theorem size_t_sub_small (a : Nat) (d : Nat) (hd : d ≤ a) (ha : a < 2 ^ 64) :
    size_t_sub a (d : Int) = a - d := by
  unfold size_t_sub
  have h1 : ((a : Int) - (d : Int)) = ((a - d : Nat) : Int) := by omega
  rw [h1]
  have h2 : ((a - d : Nat) : Int) % (2 ^ 64 : Int) = ((a - d : Nat) : Int) := by
    apply Int.emod_eq_of_lt
    · omega
    · have : a - d < 2 ^ 64 := by omega
      exact_mod_cast this
  rw [h2]
  simp

theorem cell_of_getElem? {T : Type} (slots slots2 : List (Slot T)) (j : Nat)
    (h : slots[j]? = slots2[j]?) : cell slots j = cell slots2 j := by
  unfold cell
  rw [h]

theorem erase_ok {T : Type} (m : Machine) (v : vector T) (vals : List T) (i : Nat)
    (hwf : v.wf) (hc : v.contents = vals.map some) (hi : i < vals.length)
    (hsz : v.size_ < 2 ^ 64) :
    (v.erase m (v.begin.add (i : Int))).ret = .ok (v.begin.add (i : Int)) ∧
    (v.erase m (v.begin.add (i : Int))).self.wf ∧
    (v.erase m (v.begin.add (i : Int))).self.contents = (vals.eraseIdx i).map some ∧
    (v.erase m (v.begin.add (i : Int))).self.size_ = v.size_ - 1 ∧
    (v.erase m (v.begin.add (i : Int))).self.capacity_ = v.capacity_ ∧
    (v.erase m (v.begin.add (i : Int))).self.data_ = v.data_ ∧
    (v.erase m (v.begin.add (i : Int))).mach.script = m.script := by
  obtain ⟨hsize, hlen⟩ := hwf
  obtain ⟨hl, hcell⟩ := (contents_iff_getElem? v vals (by omega)).mp hc
  have hstop : v.end.sub 1 = ⟨v.data_ + ((v.size_ - 1 : Nat) : Int)⟩ := by
    simp [vector.end, vector_iterator.sub]
    omega
  have hpos : v.begin.add (i : Int) = ⟨v.data_ + (i : Int)⟩ := rfl
  obtain ⟨h1, h2, h3, h4⟩ := erase_shift_spec v.data_ (v.size_ - 1) (v.size_ - 1 - i) i m v.store
    v.store.length (by omega) (by omega) (by omega)
    (by
      intro j hj1 hj2
      have hj : j < vals.length := by omega
      exact ⟨vals[j], by rw [hcell j (by omega), List.getElem?_eq_getElem hj]⟩)
  have hdec : size_t_sub v.size_ 1 = v.size_ - 1 := by
    have := size_t_sub_small v.size_ 1 (by omega) hsz
    simpa using this
  have hlast : v.size_ - 1 < (erase_shift v.data_ ⟨v.data_ + ((v.size_ - 1 : Nat) : Int)⟩
      v.store.length ⟨v.data_ + (i : Int)⟩ m v.store).slots.length := by
    rw [h2]; omega
  unfold vector.erase
  rw [hstop, hpos]
  simp only [h1, hdec, vector.end, vector_iterator.base, destroy_at_at _ _ _ _ hlast]
  refine ⟨trivial, ⟨?_, ?_⟩, ?_, trivial, trivial, trivial, h3⟩
  · simp only
    omega
  · simp only [List.length_set, h2]
    exact hlen
  · rw [contents_iff_getElem?]
    · refine ⟨by simp only [List.length_eraseIdx, hi, if_true]; omega, ?_⟩
      intro j hj
      simp only at hj ⊢
      rw [cell_set _ _ _ _ hlast, if_neg (by omega), h4 j, List.getElem?_eraseIdx]
      by_cases hji : j < i
      · rw [if_pos hji, if_neg (by omega)]
        exact hcell j (by omega)
      · rw [if_neg hji, if_pos ⟨by omega, hj⟩]
        exact hcell (j + 1) (by omega)
    · simp only [List.length_set, h2]
      omega

theorem erase_range_noop {T : Type} (m : Machine) (v : vector T) (first : vector_iterator) :
    v.erase_range m first first = ⟨.ok first, m, v⟩ := by
  simp [vector.erase_range, vector_iterator.eq]

theorem range_list_getElem? {T : Type} (vals : List T) (f l j : Nat) (hfl : f ≤ l)
    (hl : l ≤ vals.length) :
    (vals.take f ++ vals.drop l)[j]? = if j < f then vals[j]? else vals[j + (l - f)]? := by
  have hlt : (vals.take f).length = f := by simp [List.length_take]; omega
  by_cases h1 : j < f
  · rw [List.getElem?_append_left (by rw [hlt]; exact h1), List.getElem?_take]
    simp [h1]
  · rw [List.getElem?_append_right (by rw [hlt]; omega), hlt, List.getElem?_drop, if_neg h1]
    congr 1
    omega

theorem erase_range_ok {T : Type} (m : Machine) (v : vector T) (vals : List T) (f l : Nat)
    (hwf : v.wf) (hc : v.contents = vals.map some) (hfl : f < l) (hl : l ≤ vals.length)
    (hsz : v.size_ < 2 ^ 64) :
    (v.erase_range m (v.begin.add (f : Int)) (v.begin.add (l : Int))).ret
      = .ok (v.begin.add (f : Int)) ∧
    (v.erase_range m (v.begin.add (f : Int)) (v.begin.add (l : Int))).self.wf ∧
    (v.erase_range m (v.begin.add (f : Int)) (v.begin.add (l : Int))).self.contents
      = (vals.take f ++ vals.drop l).map some ∧
    (v.erase_range m (v.begin.add (f : Int)) (v.begin.add (l : Int))).self.size_
      = v.size_ - (l - f) ∧
    (v.erase_range m (v.begin.add (f : Int)) (v.begin.add (l : Int))).self.capacity_
      = v.capacity_ ∧
    (v.erase_range m (v.begin.add (f : Int)) (v.begin.add (l : Int))).self.data_ = v.data_ := by
  obtain ⟨hsize, hlen⟩ := hwf
  obtain ⟨hvl, hcell⟩ := (contents_iff_getElem? v vals (by omega)).mp hc
  have hfirst : v.begin.add (f : Int) = ⟨v.data_ + (f : Int)⟩ := rfl
  have hlast : v.begin.add (l : Int) = ⟨v.data_ + (l : Int)⟩ := rfl
  have hne : (vector_iterator.mk (v.data_ + (f : Int))).eq ⟨v.data_ + (l : Int)⟩ = false := by
    simp [vector_iterator.eq]
    omega
  have hdiff : v.end.diff ⟨v.data_ + (l : Int)⟩ = ((v.size_ - l : Nat) : Int) := by
    simp [vector.end, vector_iterator.diff]
    omega
  have hnneg : ¬ (((v.size_ - l : Nat) : Int) < 0) := by omega
  have hdiff2 : (vector_iterator.mk (v.data_ + (l : Int))).diff ⟨v.data_ + (f : Int)⟩
      = ((l - f : Nat) : Int) := by
    simp [vector_iterator.diff]
    omega
  obtain ⟨h1, h2, h3, -, h5⟩ := std_move_spec v.data_ (v.size_ - l) l f m v.store (by omega)
    (by omega)
    (by
      intro j hj1 hj2
      have hj : j < vals.length := by omega
      exact ⟨vals[j], by rw [hcell j (by omega), List.getElem?_eq_getElem hj]⟩)
  have hend : v.end = ⟨v.data_ + (v.size_ : Int)⟩ := rfl
  obtain ⟨g1, g2, -, g4⟩ := erase_destroy_spec v.data_ v.size_ (l - f) (f + (v.size_ - l))
    (std_move v.data_ (v.size_ - l) ⟨v.data_ + (l : Int)⟩ ⟨v.data_ + (f : Int)⟩ m v.store).1.mach
    (std_move v.data_ (v.size_ - l) ⟨v.data_ + (l : Int)⟩ ⟨v.data_ + (f : Int)⟩ m v.store).1.slots
    v.store.length (by omega) (by rw [h3]; omega) (by omega)
  have hsub : size_t_sub v.size_ ((l - f : Nat) : Int) = v.size_ - (l - f) :=
    size_t_sub_small v.size_ (l - f) (by omega) hsz
  unfold vector.erase_range
  rw [hfirst, hlast]
  simp only [hne, hdiff, hnneg, if_false, Int.toNat_ofNat, h1, h2, hdiff2, hsub,
    Bool.false_eq_true]
  rw [← hend] at g1 g2 g4
  simp only [g1]
  refine ⟨trivial, ⟨?_, ?_⟩, ?_, trivial, trivial, trivial⟩
  · simp only
    omega
  · simp only [g2, h3]
    exact hlen
  · rw [contents_iff_getElem?]
    · refine ⟨by simp [List.length_take]; omega, ?_⟩
      intro j hj
      simp only at hj ⊢
      have hj2 : ¬ (f + (v.size_ - l) ≤ j ∧ j < v.size_) := by omega
      have hc1 := cell_of_getElem? _ _ j ((g4 j).trans (if_neg hj2))
      rw [hc1, h5 j, range_list_getElem? vals f l j (by omega) hl]
      by_cases hjf : j < f
      · rw [if_pos hjf, if_neg (by omega)]
        exact hcell j (by omega)
      · rw [if_neg hjf, if_pos ⟨by omega, by omega⟩]
        exact hcell _ (by omega)
    · simp only [g2, h3]
      omega

theorem insert_capacity_room {T : Type} (m : Machine) (v : vector T) (pos : vector_iterator)
    (value : Ref T) (h : v.size_ ≠ v.capacity_) :
    (v.insert m pos value).self.capacity_ = v.capacity_ := by
  rw [insert_of_room m v pos value h]
  unfold insert_rest
  simp only
  split
  · rfl
  · split
    · rfl
    · split <;> rfl

theorem eraseIdx_insert {T : Type} (s : List T) (i : Nat) (x : T) (hi : i ≤ s.length) :
    (s.take i ++ [x] ++ s.drop i).eraseIdx i = s := by
  apply List.ext_getElem?
  intro j
  rw [List.getElem?_eraseIdx]
  by_cases hj : j < i
  · rw [if_pos hj, insert_list_getElem? s i x j hi, if_neg (by omega), if_neg (by omega)]
  · rw [if_neg hj, insert_list_getElem? s i x (j + 1) hi, if_neg (by omega), if_pos (by omega)]
    simp

theorem insert_length {T : Type} (s : List T) (i : Nat) (x : T) (hi : i ≤ s.length) :
    (s.take i ++ [x] ++ s.drop i).length = s.length + 1 := by
  simp [List.length_take]
  omega

theorem mk_default_wf (T : Type) : (vector.mk_default T).wf := ⟨le_refl _, rfl⟩

/-! ## The claims -/

/-- C2: after `N ≥ 1` calls of `push_back` on a default-constructed vector `capacity()` is the
least power of two that is at least `N`; `push_back` and `insert` leave the capacity alone
unless `size_ == capacity_`, and the growth they then perform (`__maybe_resize`) sets the
capacity to `1` when it was `0` and to twice its value otherwise. -/
theorem C2_capacity_doubles (T : Type) :
    (∀ (m : Machine) (xs : List T), 1 ≤ xs.length → (∀ b ∈ m.script, b = false) →
      ∃ k, (push_all m (vector.mk_default T) xs).self.capacity = 2 ^ k ∧
        xs.length ≤ 2 ^ k ∧ ∀ j, xs.length ≤ 2 ^ j → 2 ^ k ≤ 2 ^ j) ∧
    (∀ (m : Machine) (v : vector T) (value : Ref T), v.size_ ≠ v.capacity_ →
      (v.push_back m value).self.capacity = v.capacity) ∧
    (∀ (m : Machine) (v : vector T) (pos : vector_iterator) (value : Ref T),
      v.size_ ≠ v.capacity_ → (v.insert m pos value).self.capacity = v.capacity) ∧
    (∀ (m : Machine) (v : vector T) (s : List T), v.wf → v.contents = s.map some →
      (∀ b ∈ m.script.take v.size_, b = false) →
      (vector.__maybe_resize m v).ret = .ok () ∧
      (vector.__maybe_resize m v).self.capacity = (if v.capacity = 0 then 1 else 2 * v.capacity)) ∧
    (∀ (m : Machine) (v : vector T) (s : List T) (x : T), v.wf → v.contents = s.map some →
      v.size_ = v.capacity_ → (∀ b ∈ m.script.take (v.size_ + 1), b = false) →
      (v.push_back m (.object x)).ret = .ok () ∧
      (v.push_back m (.object x)).self.capacity = (if v.capacity = 0 then 1 else 2 * v.capacity)) ∧
    (∀ (m : Machine) (v : vector T) (s : List T) (idx : Nat) (x : T), v.wf →
      v.contents = s.map some → idx ≤ s.length → v.size_ = v.capacity_ →
      (∀ b ∈ m.script.take v.size_, b = false) →
      (v.insert m (v.begin.add (idx : Int)) (.object x)).self.capacity
        = (if v.capacity = 0 then 1 else 2 * v.capacity)) := by
  refine ⟨?_, ?_, ?_, ?_, ?_, ?_⟩
  · intro m xs hN hs
    obtain ⟨-, -, -, h4, h5⟩ := push_all_ok xs m (vector.mk_default T) [] (mk_default_wf T) rfl hs
      (Or.inl ⟨rfl, rfl⟩)
    have h4b : (push_all m (vector.mk_default T) xs).self.size_ = xs.length := by
      rw [h4]; simp [vector.mk_default]
    rw [h4b] at h5
    exact doubling_least _ _ h5 hN
  · intro m v x h
    exact push_back_capacity_room m v x h
  · intro m v pos x h
    exact insert_capacity_room m v pos x h
  · intro m v s hwf hc hs
    have hgrow : v.capacity_ < (if v.capacity_ = 0 then 1 else v.capacity_ * 2) := by
      split <;> omega
    have hres := reserve_grow m v s _ hwf hc hgrow hs
    unfold vector.__maybe_resize
    rw [hres]
    refine ⟨rfl, ?_⟩
    simp only [vector.capacity, Nat.mul_comm]
  · intro m v s x hwf hc hfull hs
    have hs2 : ∀ b ∈ m.script.take (if v.size_ = v.capacity_ then v.size_ + 1 else 1),
        b = false := by
      rw [if_pos hfull]; exact hs
    obtain ⟨h1, -, -, -, h5, -⟩ := push_back_ok m v s x hwf hc hs2
    refine ⟨h1, ?_⟩
    rw [vector.capacity, h5, if_pos hfull]
    simp only [vector.capacity, Nat.mul_comm]
  · intro m v s idx x hwf hc hidx hfull hs
    obtain ⟨-, -, -, -, h5⟩ := insert_ok m v s idx x hwf hc hidx (fun _ => hs)
    rw [vector.capacity, h5, if_pos hfull]
    simp only [vector.capacity, Nat.mul_comm]

theorem C2_capacity_doubles_witness :
    (∃ k, (push_all ⟨[], 0, []⟩ (vector.mk_default Nat) [0, 10, 20, 30, 40]).self.capacity = 2 ^ k ∧
      [0, 10, 20, 30, 40].length ≤ 2 ^ k ∧ ∀ j, [0, 10, 20, 30, 40].length ≤ 2 ^ j → 2 ^ k ≤ 2 ^ j) ∧
    ((vector.mk 7 2 2 [⟨some 10, true⟩, ⟨some 30, true⟩] : vector Nat).push_back
        ⟨[], 9, []⟩ (.object 20)).self.capacity = 4 :=
  ⟨(C2_capacity_doubles Nat).1 ⟨[], 0, []⟩ [0, 10, 20, 30, 40] (by decide) (by decide),
   ((C2_capacity_doubles Nat).2.2.2.2.1 ⟨[], 9, []⟩ ⟨7, 2, 2, [⟨some 10, true⟩, ⟨some 30, true⟩]⟩
      [10, 30] 20 (by decide) (by decide) (by decide) (by decide)).2⟩

/-- C3: `at(i)` throws `out_of_range` exactly when `i >= size()`; when `i < size()` it returns
the reference `operator[](i)` returns, which reads as the element at index `i`; in both cases
the object and the machine are as before the call. -/
theorem C3_at_checks_range (T : Type) (m : Machine) (v : vector T) (i : Nat) :
    ((vector.at m v i).ret = .error .out_of_range ↔ v.size ≤ i) ∧
    (i < v.size → (vector.at m v i).ret = .ok (v.subscript i)) ∧
    (vector.at m v i).self = v ∧ (vector.at m v i).mach = m ∧
    (∀ (s : List T), v.size_ ≤ v.store.length → v.contents = s.map some →
      ∀ (h : i < s.length), v.read (v.subscript i) = .ok s[i]) := by
  refine ⟨?_, ?_, ?_, ?_, ?_⟩
  · unfold vector.at vector.size
    by_cases h : i ≥ v.size_
    · simp [h]
    · simp only [h, if_false]
      constructor
      · intro hc; cases hc
      · intro hc; cases hc
  · intro h
    have : ¬ i ≥ v.size_ := by unfold vector.size at h; omega
    simp [vector.at, this, vector.subscript]
  · unfold vector.at
    split <;> rfl
  · unfold vector.at
    split <;> rfl
  · intro s hlen hc h
    obtain ⟨-, hcell⟩ := (contents_iff v s hlen).mp hc
    exact load_cell v.data_ v.store i s[i] (hcell i h)

theorem C3_at_checks_range_witness :
    vector.read (vector.mk 7 2 4 [⟨some 10, true⟩, ⟨some 30, true⟩, ⟨none, false⟩,
      ⟨none, false⟩] : vector Nat) (vector.subscript (vector.mk 7 2 4 [⟨some 10, true⟩,
      ⟨some 30, true⟩, ⟨none, false⟩, ⟨none, false⟩] : vector Nat) 1) = .ok 30 :=
  (C3_at_checks_range Nat ⟨[], 9, []⟩
    ⟨7, 2, 4, [⟨some 10, true⟩, ⟨some 30, true⟩, ⟨none, false⟩, ⟨none, false⟩]⟩ 1).2.2.2.2
    [10, 30] (by decide) (by decide) (by decide)

/-- C5: on a vector that holds `s`, `erase(begin() + idx)` with `idx < |s|` returns normally and
leaves the contents `s` without the element at `idx`, the others in their order, `size()` equal
to `|s| - 1` and the capacity as it was; it returns `pos`, which now reads as the element that
followed the erased one, or is `end()` when the erased element was the last. -/
theorem C5_erase_removes_element (T : Type) (m : Machine) (v : vector T) (s : List T)
    (idx : Nat) (hwf : v.wf) (hc : v.contents = s.map some) (hidx : idx < s.length)
    (hsz : v.size_ < 2 ^ 64) :
    (v.erase m (v.begin.add (idx : Int))).ret = .ok (v.begin.add (idx : Int)) ∧
    (v.erase m (v.begin.add (idx : Int))).self.contents
      = (s.take idx ++ s.drop (idx + 1)).map some ∧
    (v.erase m (v.begin.add (idx : Int))).self.size = s.length - 1 ∧
    (v.erase m (v.begin.add (idx : Int))).self.capacity = v.capacity ∧
    (∀ (h : idx + 1 < s.length),
      (v.erase m (v.begin.add (idx : Int))).self.read (v.begin.add (idx : Int)).ptr_
        = .ok s[idx + 1]) ∧
    (idx + 1 = s.length →
      v.begin.add (idx : Int) = (v.erase m (v.begin.add (idx : Int))).self.end) := by
  obtain ⟨h1, h2, h3, h4, h5, h6, -⟩ := erase_ok m v s idx hwf hc hidx hsz
  have hl := ((contents_iff v s (by have := hwf.1; have := hwf.2; omega)).mp hc).1
  rw [List.eraseIdx_eq_take_drop_succ] at h3
  refine ⟨h1, h3, by rw [vector.size, h4, hl], h5, ?_, ?_⟩
  · intro h
    obtain ⟨-, hcell⟩ := (contents_iff_getElem? _ _ (by have := h2.1; have := h2.2; omega)).mp h3
    have hx := hcell idx (by rw [h4]; omega)
    rw [← List.eraseIdx_eq_take_drop_succ, List.getElem?_eraseIdx, if_neg (by omega),
      List.getElem?_eq_getElem h] at hx
    have := load_cell v.data_ _ idx s[idx + 1] hx
    unfold vector.read
    rw [h6]
    exact this
  · intro h
    unfold vector.end
    rw [h6, h4]
    simp only [vector.begin, vector_iterator.add]
    congr 2
    omega

theorem C5_erase_removes_element_witness :
    ((vector.mk 7 3 4 [⟨some 10, true⟩, ⟨some 30, true⟩, ⟨some 20, true⟩, ⟨none, false⟩] :
        vector Nat).erase ⟨[], 9, []⟩ ((vector.mk 7 3 4 [⟨some 10, true⟩, ⟨some 30, true⟩,
        ⟨some 20, true⟩, ⟨none, false⟩] : vector Nat).begin.add (1 : Nat))).self.contents
      = ([10, 30, 20].take 1 ++ [10, 30, 20].drop (1 + 1)).map some :=
  (C5_erase_removes_element Nat ⟨[], 9, []⟩
    ⟨7, 3, 4, [⟨some 10, true⟩, ⟨some 30, true⟩, ⟨some 20, true⟩, ⟨none, false⟩]⟩ [10, 30, 20] 1
    (by decide) (by decide) (by decide) (by decide)).2.1

/-- C6: on a vector that holds `s`, `erase(begin() + f, begin() + l)` with `f ≤ l ≤ |s|` returns
`first` and leaves the contents `s[0 .. f) ++ s[l ..)`, `size()` smaller by exactly `l - f` and
the capacity as it was; when `f = l` neither the object nor the machine changes. -/
theorem C6_erase_range_removes_range (T : Type) (m : Machine) (v : vector T) (s : List T)
    (f l : Nat) (hwf : v.wf) (hc : v.contents = s.map some) (hfl : f ≤ l) (hl : l ≤ s.length)
    (hsz : v.size_ < 2 ^ 64) :
    (v.erase_range m (v.begin.add (f : Int)) (v.begin.add (l : Int))).ret
      = .ok (v.begin.add (f : Int)) ∧
    (v.erase_range m (v.begin.add (f : Int)) (v.begin.add (l : Int))).self.contents
      = (s.take f ++ s.drop l).map some ∧
    (v.erase_range m (v.begin.add (f : Int)) (v.begin.add (l : Int))).self.size
      = s.length - (l - f) ∧
    (v.erase_range m (v.begin.add (f : Int)) (v.begin.add (l : Int))).self.capacity
      = v.capacity ∧
    (f = l →
      (v.erase_range m (v.begin.add (f : Int)) (v.begin.add (l : Int))).self = v ∧
      (v.erase_range m (v.begin.add (f : Int)) (v.begin.add (l : Int))).mach = m) := by
  have hlen := ((contents_iff v s (by have := hwf.1; have := hwf.2; omega)).mp hc).1
  by_cases heq : f = l
  · subst heq
    rw [erase_range_noop]
    refine ⟨rfl, ?_, ?_, rfl, fun _ => ⟨rfl, rfl⟩⟩
    · rw [List.take_append_drop]; exact hc
    · simp only [vector.size]; omega
  · obtain ⟨h1, -, h3, h4, h5, -⟩ := erase_range_ok m v s f l hwf hc (by omega) hl hsz
    exact ⟨h1, h3, by rw [vector.size, h4, hlen], h5, fun h => absurd h heq⟩

theorem C6_erase_range_removes_range_witness :
    ((vector.mk 7 4 4 [⟨some 0, true⟩, ⟨some 10, true⟩, ⟨some 99, true⟩, ⟨some 30, true⟩] :
        vector Nat).erase_range ⟨[], 9, []⟩
        ((vector.mk 7 4 4 [⟨some 0, true⟩, ⟨some 10, true⟩, ⟨some 99, true⟩, ⟨some 30, true⟩] :
          vector Nat).begin.add (1 : Nat))
        ((vector.mk 7 4 4 [⟨some 0, true⟩, ⟨some 10, true⟩, ⟨some 99, true⟩, ⟨some 30, true⟩] :
          vector Nat).begin.add (3 : Nat))).self.contents
      = ([0, 10, 99, 30].take 1 ++ [0, 10, 99, 30].drop 3).map some :=
  (C6_erase_range_removes_range Nat ⟨[], 9, []⟩
    ⟨7, 4, 4, [⟨some 0, true⟩, ⟨some 10, true⟩, ⟨some 99, true⟩, ⟨some 30, true⟩]⟩
    [0, 10, 99, 30] 1 3 (by decide) (by decide) (by decide) (by decide) (by decide)).2.1

/-- C8: `reserve(n)` with `n <= capacity()` changes neither the object nor the machine; with
`n > capacity()` it succeeds exactly when none of the `size()` relocating constructor calls
throws, and when it succeeds `capacity()` is exactly `n` and `size()` and the elements at
`[0, size())` are as before. -/
theorem C8_reserve_sets_capacity (T : Type) (m : Machine) (v : vector T) (n : Nat) :
    (n ≤ v.capacity → v.reserve m n = ⟨.ok (), m, v⟩) ∧
    (∀ (s : List T), v.wf → v.contents = s.map some → v.capacity < n →
      ((v.reserve m n).ret = .ok () ↔ ∀ b ∈ m.script.take v.size_, b = false) ∧
      ((v.reserve m n).ret = .ok () →
        (v.reserve m n).self.capacity = n ∧ (v.reserve m n).self.size = v.size ∧
        (v.reserve m n).self.contents = v.contents)) := by
  constructor
  · intro h
    exact reserve_noop m v n h
  · intro s hwf hc hn
    refine ⟨reserve_ok_iff m v s n hwf hc hn, ?_⟩
    intro hret
    have hs := (reserve_ok_iff m v s n hwf hc hn).mp hret
    have hl := ((contents_iff v s (by have := hwf.1; have := hwf.2; omega)).mp hc).1
    rw [reserve_grow m v s n hwf hc hn hs]
    refine ⟨rfl, rfl, ?_⟩
    rw [hc, ← hl]
    exact contents_filled s _ n (by have := hwf.1; unfold vector.capacity at hn; omega)

theorem C8_reserve_sets_capacity_witness :
    ((vector.mk 7 2 2 [⟨some 10, true⟩, ⟨some 30, true⟩] : vector Nat).reserve ⟨[], 9, []⟩
        5).self.capacity = 5 :=
  (((C8_reserve_sets_capacity Nat ⟨[], 9, []⟩ ⟨7, 2, 2, [⟨some 10, true⟩, ⟨some 30, true⟩]⟩ 5).2
    [10, 30] (by decide) (by decide) (by decide)).2 (by decide)).1

/-- C9: when `reserve(n)` has to grow (`n > capacity()`) and the constructor throws on its `k`-th
call of the relocation, `1 ≤ k ≤ size()`, the exception leaves `reserve` and the object is
exactly as before the call (`data_`, `size_`, `capacity_` and every cell of its block); the
`k - 1` elements already placed in the new block are destroyed and the new block is released. -/
theorem C9_reserve_strong_guarantee (T : Type) (m : Machine) (v : vector T) (s : List T)
    (n k : Nat) (hwf : v.wf) (hc : v.contents = s.map some) (hn : v.capacity < n)
    (hk1 : 1 ≤ k) (hk : k ≤ v.size)
    (hs : m.script.take k = List.replicate (k - 1) false ++ [true]) :
    (v.reserve m n).ret = .error .element_failure ∧ (v.reserve m n).self = v ∧
    (v.reserve m n).mach.trace =
      m.trace ++ [Event.allocate ((m.brk : Int) + 1) n] ++
        (List.range (k - 1)).map (fun j => Event.construct ((m.brk : Int) + 1 + (j : Int))) ++
        (List.range (k - 1)).map (fun j => Event.destroy ((m.brk : Int) + 1 + (j : Int))) ++
        [Event.deallocate ((m.brk : Int) + 1) n] := by
  obtain ⟨k, rfl⟩ : ∃ j, k = j + 1 := ⟨k - 1, by omega⟩
  simp only [Nat.add_sub_cancel] at hs ⊢
  rw [reserve_throw m v s n k hwf hc hn (by unfold vector.size at hk; omega) hs]
  refine ⟨rfl, rfl, ?_⟩
  simp [deallocate, destroyed, constructed, allocated, List.range_eq_range']

theorem C9_reserve_strong_guarantee_witness :
    ((vector.mk 7 2 2 [⟨some 10, true⟩, ⟨some 30, true⟩] : vector Nat).reserve
        ⟨[false, true], 9, []⟩ 5).self = ⟨7, 2, 2, [⟨some 10, true⟩, ⟨some 30, true⟩]⟩ :=
  (C9_reserve_strong_guarantee Nat ⟨[false, true], 9, []⟩
    ⟨7, 2, 2, [⟨some 10, true⟩, ⟨some 30, true⟩]⟩ [10, 30] 5 2
    (by decide) (by decide) (by decide) (by decide) (by decide) (by decide)).2.1

/-- C10: `shrink_to_fit()` with `size() == capacity()` changes neither the object nor the
machine; otherwise it succeeds exactly when none of the `size()` relocating constructor calls
throws, and when it succeeds `capacity()` is exactly `size()` and `size()` and the elements are
as before. -/
theorem C10_shrink_to_fit_trims (T : Type) (m : Machine) (v : vector T) :
    (v.size = v.capacity → v.shrink_to_fit m = ⟨.ok (), m, v⟩) ∧
    (∀ (s : List T), v.wf → v.contents = s.map some → v.size ≠ v.capacity →
      ((v.shrink_to_fit m).ret = .ok () ↔ ∀ b ∈ m.script.take v.size_, b = false) ∧
      ((v.shrink_to_fit m).ret = .ok () →
        (v.shrink_to_fit m).self.capacity = v.size ∧ (v.shrink_to_fit m).self.size = v.size ∧
        (v.shrink_to_fit m).self.contents = v.contents)) := by
  constructor
  · intro h
    exact shrink_to_fit_noop m v h
  · intro s hwf hc hn
    refine ⟨shrink_to_fit_ok_iff m v s hwf hc hn, ?_⟩
    intro hret
    have hs := (shrink_to_fit_ok_iff m v s hwf hc hn).mp hret
    have hl := ((contents_iff v s (by have := hwf.1; have := hwf.2; omega)).mp hc).1
    rw [shrink_to_fit_ok m v s hwf hc hn hs]
    refine ⟨rfl, rfl, ?_⟩
    rw [hc, ← hl]
    exact contents_filled s _ s.length (le_refl _)

theorem C10_shrink_to_fit_trims_witness :
    ((vector.mk 7 2 4 [⟨some 10, true⟩, ⟨some 30, true⟩, ⟨none, false⟩, ⟨none, false⟩] :
        vector Nat).shrink_to_fit ⟨[], 9, []⟩).self.capacity = 2 :=
  (((C10_shrink_to_fit_trims Nat ⟨[], 9, []⟩
    ⟨7, 2, 4, [⟨some 10, true⟩, ⟨some 30, true⟩, ⟨none, false⟩, ⟨none, false⟩]⟩).2
    [10, 30] (by decide) (by decide) (by decide)).2 (by decide)).1

/-- C20: the operations of both iterator classes act on the wrapped position alone: `it + n`
is at position `p + n`, `(it + n) - n == it`, `(it + n) - it == n`,
`(it + n) + m == it + (n + m)`, `+=` and `-=` agree with `+` and `-`, `++` and `--` move by
one, their postfix forms returning the iterator as it was, `it[n]` is the reference `*(it + n)`,
the six comparisons are the comparisons of the positions, the conversion of a mutable iterator
to a read-only one keeps the position, and `end() - begin()` is `size()` for every vector. -/
theorem C20_iterator_position_algebra :
    (∀ (it rhs : vector_iterator) (n k : Int),
      (it.add n).base = it.base + n ∧ (it.sub n).base = it.base - n ∧
      (it.add n).sub n = it ∧ (it.add n).diff it = n ∧
      (it.add n).add k = it.add (n + k) ∧
      it.add_assign n = it.add n ∧ it.sub_assign n = it.sub n ∧
      it.inc.base = it.base + 1 ∧ it.dec.base = it.base - 1 ∧
      it.post_inc = (it, it.inc) ∧ it.post_dec = (it, it.dec) ∧
      it.index n = (it.add n).deref ∧ it.deref = it.base ∧ it.arrow = it.base ∧
      (it.eq rhs = true ↔ it.base = rhs.base) ∧ (it.ne rhs = true ↔ it.base ≠ rhs.base) ∧
      (it.lt rhs = true ↔ it.base < rhs.base) ∧ (it.gt rhs = true ↔ it.base > rhs.base) ∧
      (it.le rhs = true ↔ it.base ≤ rhs.base) ∧ (it.ge rhs = true ↔ it.base ≥ rhs.base) ∧
      it.diff rhs = it.base - rhs.base ∧
      (vector_const_iterator.of_iterator it).base = it.base) ∧
    (∀ (it rhs : vector_const_iterator) (n k : Int),
      (it.add n).base = it.base + n ∧ (it.sub n).base = it.base - n ∧
      (it.add n).sub n = it ∧ (it.add n).diff it = n ∧
      (it.add n).add k = it.add (n + k) ∧
      it.add_assign n = it.add n ∧ it.sub_assign n = it.sub n ∧
      it.inc.base = it.base + 1 ∧ it.dec.base = it.base - 1 ∧
      it.post_inc = (it, it.inc) ∧ it.post_dec = (it, it.dec) ∧
      it.index n = (it.add n).deref ∧ it.deref = it.base ∧ it.arrow = it.base ∧
      (it.eq rhs = true ↔ it.base = rhs.base) ∧ (it.ne rhs = true ↔ it.base ≠ rhs.base) ∧
      (it.lt rhs = true ↔ it.base < rhs.base) ∧ (it.gt rhs = true ↔ it.base > rhs.base) ∧
      (it.le rhs = true ↔ it.base ≤ rhs.base) ∧ (it.ge rhs = true ↔ it.base ≥ rhs.base) ∧
      it.diff rhs = it.base - rhs.base) ∧
    (∀ (T : Type) (v : vector T),
      v.end.diff v.begin = (v.size : Int) ∧ v.cend.diff v.cbegin = (v.size : Int) ∧
      vector_const_iterator.of_iterator v.begin = v.cbegin ∧
      vector_const_iterator.of_iterator v.end = v.cend) := by
  refine ⟨?_, ?_, ?_⟩
  · intro it rhs n k
    obtain ⟨p⟩ := it
    obtain ⟨q⟩ := rhs
    simp only [vector_iterator.add, vector_iterator.sub, vector_iterator.base,
      vector_iterator.diff, vector_iterator.add_assign, vector_iterator.sub_assign,
      vector_iterator.inc, vector_iterator.dec, vector_iterator.post_inc,
      vector_iterator.post_dec, vector_iterator.index, vector_iterator.deref,
      vector_iterator.arrow, vector_iterator.eq, vector_iterator.ne, vector_iterator.lt,
      vector_iterator.gt, vector_iterator.le, vector_iterator.ge,
      vector_const_iterator.of_iterator, vector_const_iterator.base,
      vector_iterator.mk.injEq, beq_iff_eq, bne_iff_ne, decide_eq_true_eq]
    and_intros <;> first | rfl | omega | exact Iff.rfl | trivial
  · intro it rhs n k
    obtain ⟨p⟩ := it
    obtain ⟨q⟩ := rhs
    simp only [vector_const_iterator.add, vector_const_iterator.sub, vector_const_iterator.base,
      vector_const_iterator.diff, vector_const_iterator.add_assign,
      vector_const_iterator.sub_assign, vector_const_iterator.inc, vector_const_iterator.dec,
      vector_const_iterator.post_inc, vector_const_iterator.post_dec,
      vector_const_iterator.index, vector_const_iterator.deref, vector_const_iterator.arrow,
      vector_const_iterator.eq, vector_const_iterator.ne, vector_const_iterator.lt,
      vector_const_iterator.gt, vector_const_iterator.le, vector_const_iterator.ge,
      vector_const_iterator.mk.injEq, beq_iff_eq, bne_iff_ne, decide_eq_true_eq]
    and_intros <;> first | rfl | omega | exact Iff.rfl | trivial
  · intro T v
    refine ⟨?_, ?_, rfl, rfl⟩
    · simp only [vector.end, vector.begin, vector.size, vector_iterator.diff]
      omega
    · simp only [vector.cend, vector.cbegin, vector.size, vector_const_iterator.diff]
      omega

/-! ## The construction loops -/

theorem lay_length {T : Type} (xs : List T) :
    ∀ (slots : List (Slot T)) (i : Nat), (lay slots i xs).length = slots.length := by
  induction xs with
  | nil => intro slots i; rfl
  | cons x xs ih =>
    intro slots i
    rw [lay, ih]
    simp

theorem lay_getElem? {T : Type} (xs : List T) :
    ∀ (slots : List (Slot T)) (i j : Nat), i + xs.length ≤ slots.length →
      (lay slots i xs)[j]? =
        if i ≤ j ∧ j < i + xs.length then (xs[j - i]?).map (fun x => (⟨some x, true⟩ : Slot T))
        else slots[j]? := by
  induction xs with
  | nil =>
    intro slots i j _
    have : ¬ (i ≤ j ∧ j < i + ([] : List T).length) := by simp
    rw [if_neg this]
    rfl
  | cons x xs ih =>
    intro slots i j h
    simp only [List.length_cons] at h
    rw [lay, ih _ _ _ (by simp; omega), List.getElem?_set]
    by_cases hj : i + 1 ≤ j ∧ j < i + 1 + xs.length
    · have h2 : i ≤ j ∧ j < i + (x :: xs).length := by simp only [List.length_cons]; omega
      rw [if_pos hj, if_pos h2]
      have e : j - i = (j - (i + 1)) + 1 := by omega
      rw [e, List.getElem?_cons_succ]
    · rw [if_neg hj]
      by_cases hij : i = j
      · subst hij
        have h2 : i ≤ i ∧ i < i + (x :: xs).length := by simp only [List.length_cons]; omega
        rw [if_pos h2, if_pos rfl]
        simp
        omega
      · have h2 : ¬ (i ≤ j ∧ j < i + (x :: xs).length) := by
          simp only [List.length_cons]; omega
        rw [if_neg h2, if_neg hij]

theorem cell_lay {T : Type} (xs : List T) (slots : List (Slot T)) (i j : Nat)
    (h : i + xs.length ≤ slots.length) :
    cell (lay slots i xs) j = if i ≤ j ∧ j < i + xs.length then xs[j - i]? else cell slots j := by
  unfold cell
  rw [lay_getElem? xs slots i j h]
  by_cases hj : i ≤ j ∧ j < i + xs.length
  · rw [if_pos hj, if_pos hj]
    have : j - i < xs.length := by omega
    simp [List.getElem?_eq_getElem this]
  · rw [if_neg hj, if_neg hj]

theorem construct_list_steps {T : Type} (base : Int) (pre : List T) :
    ∀ (rest : List T) (i : Nat) (m : Machine) (slots : List (Slot T)),
      i + pre.length ≤ slots.length → (∀ b ∈ m.script.take pre.length, b = false) →
      construct_list base (pre ++ rest) i m slots =
        construct_list base rest (i + pre.length) (constructed m base i pre.length)
          (lay slots i pre) := by
  induction pre with
  | nil =>
    intro rest i m slots _ _
    simp [constructed_zero, lay]
  | cons x pre ih =>
    intro rest i m slots hlen hs
    simp only [List.length_cons] at hlen hs
    have hi : i < slots.length := by omega
    have hhead : m.script.headD false = false := by
      have := headD_false_of_take m.script 0 (take_prefix_ok m.script 1 _ (by omega) hs)
      simpa using this
    have htail : ∀ b ∈ m.script.tail.take pre.length, b = false := by
      intro b hb
      apply hs b
      cases hsc : m.script with
      | nil => simp [hsc] at hb
      | cons c t =>
        simp [hsc] at hb
        simp [List.take_succ_cons, hb]
    rw [List.cons_append, construct_list]
    simp only [construct_at_at _ _ _ _ _ hi, hhead, Bool.false_eq_true, if_false]
    have := ih rest (i + 1)
      (Machine.mk m.script.tail m.brk (m.trace ++ [Event.construct (base + (i : Int))]))
      (slots.set i ⟨some x, true⟩) (by simp; omega) htail
    rw [this, constructed_succ, lay]
    simp only [List.length_cons]
    have e : i + 1 + pre.length = i + (pre.length + 1) := by omega
    rw [e]

theorem construct_list_all {T : Type} (base : Int) (xs : List T) (i : Nat) (m : Machine)
    (slots : List (Slot T)) (hlen : i + xs.length ≤ slots.length)
    (hs : ∀ b ∈ m.script.take xs.length, b = false) :
    construct_list base xs i m slots =
      (⟨.ok (), constructed m base i xs.length, lay slots i xs⟩, i + xs.length) := by
  have := construct_list_steps base xs [] i m slots hlen hs
  rw [List.append_nil] at this
  rw [this, construct_list]

theorem construct_list_throw {T : Type} (base : Int) (xs : List T) (i k : Nat) (m : Machine)
    (slots : List (Slot T)) (hlen : i + xs.length ≤ slots.length) (hk : k < xs.length)
    (hs : m.script.take (k + 1) = List.replicate k false ++ [true]) :
    construct_list base xs i m slots =
      (⟨.error .element_failure,
        ⟨m.script.drop (k + 1), m.brk, (constructed m base i k).trace⟩,
        lay slots i (xs.take k)⟩, i + k) := by
  have hsplit : xs = xs.take k ++ xs.drop k := (List.take_append_drop k xs).symm
  have htl : (xs.take k).length = k := by simp [List.length_take]; omega
  obtain ⟨x, rest, hdrop⟩ : ∃ x rest, xs.drop k = x :: rest := by
    cases hd : xs.drop k with
    | nil =>
      have := congrArg List.length hd
      simp at this
      omega
    | cons x rest => exact ⟨x, rest, rfl⟩
  have hsteps := construct_list_steps base (xs.take k) (xs.drop k) i m slots
    (by rw [htl]; omega) (by rw [htl]; exact script_prefix_ok m.script k hs)
  rw [← hsplit, htl, hdrop] at hsteps
  have hik : i + k < (lay slots i (xs.take k)).length := by rw [lay_length]; omega
  have hthrow : (constructed m base i k).script.headD false = true := script_throws m.script k hs
  rw [hsteps, construct_list]
  simp only [construct_at_at _ _ _ _ _ hik, hthrow, if_true]
  simp [constructed]

theorem construct_fill_eq_list {T : Type} (base : Int) (x : T) (k : Nat) :
    ∀ (i : Nat) (m : Machine) (slots : List (Slot T)),
      construct_fill base x k i m slots = construct_list base (List.replicate k x) i m slots := by
  induction k with
  | zero => intro i m slots; rfl
  | succ k ih =>
    intro i m slots
    rw [construct_fill, List.replicate_succ, construct_list]
    simp only [ih]

theorem emplace_back_eq {T : Type} (m : Machine) (v : vector T) (value : Ref T) :
    v.emplace_back m value = v.push_back m value := rfl

theorem push_back_move_eq {T : Type} (m : Machine) (v : vector T) (value : Ref T) :
    v.push_back_move m value = v.push_back m value := rfl

/-! ## resize -/

/-- The loop of `resize(size_t, const T &)` on a reference to an object outside the block is
the loop that constructs copies of the value the object holds. -/
theorem construct_from_object {T : Type} (base : Int) (x : T) (k : Nat) :
    ∀ (i : Nat) (m : Machine) (slots : List (Slot T)),
      construct_from base (.object x) k i m slots = construct_fill base x k i m slots := by
  induction k with
  | zero => intro i m slots; rfl
  | succ k ih =>
    intro i m slots
    rw [construct_from, construct_fill]
    simp only [Ref.read, ih]

theorem resize_eq {T : Type} [Inhabited T] (m : Machine) (v : vector T) (n : Nat) :
    v.resize m n = v.resize_fill m n (.object default) := by
  unfold vector.resize vector.resize_fill
  simp only [construct_from_object]

theorem drop_throw (script : List Bool) (a k : Nat) (hak : a ≤ k)
    (hs : script.take (k + 1) = List.replicate k false ++ [true]) :
    (script.drop a).take (k - a + 1) = List.replicate (k - a) false ++ [true] := by
  have e : k - a + 1 = (k + 1) - a := by omega
  rw [e, ← List.drop_take, hs, List.drop_append_of_le_length (by simp; omega)]
  simp

theorem contents_lay_old {T : Type} (w : vector T) (s ys : List T) (d : Int) (c : Nat)
    (hc : w.contents = s.map some) (hlen : w.size_ + ys.length ≤ w.store.length) :
    (vector.mk d w.size_ c (lay w.store w.size_ ys)).contents = s.map some := by
  obtain ⟨hl, hcell⟩ := (contents_iff_getElem? w s (by omega)).mp hc
  rw [contents_iff_getElem?]
  · refine ⟨hl, ?_⟩
    intro j hj
    simp only at hj ⊢
    rw [cell_lay ys w.store w.size_ j hlen, if_neg (by omega)]
    exact hcell j hj
  · simp only [lay_length]
    omega

theorem resize_reserve_ok {T : Type} (m : Machine) (v : vector T) (s : List T) (n : Nat)
    (hwf : v.wf) (hc : v.contents = s.map some)
    (hs : ∀ b ∈ m.script.take (if v.capacity_ < n then v.size_ else 0), b = false) :
    ∃ m1 w, v.reserve m n = ⟨.ok (), m1, w⟩ ∧ w.size_ = v.size_ ∧ w.contents = s.map some ∧
      w.store.length = w.capacity_ ∧ w.capacity_ = (if v.capacity_ < n then n else v.capacity_) ∧
      m1.script = m.script.drop (if v.capacity_ < n then v.size_ else 0) := by
  by_cases hcap : v.capacity_ < n
  · rw [if_pos hcap] at hs
    have hl := ((contents_iff v s (by have := hwf.1; have := hwf.2; omega)).mp hc).1
    refine ⟨_, _, reserve_grow m v s n hwf hc hcap hs, rfl, ?_, ?_, ?_, ?_⟩
    · have := contents_filled s ((m.brk : Int) + 1) n (by have := hwf.1; omega)
      rw [hl] at this
      exact this
    · exact filled_length _ _ _ (by omega) (by have := hwf.1; omega)
    · simp only [if_pos hcap]
    · rw [reallocated_script, if_pos hcap]
  · refine ⟨m, v, reserve_noop m v n (by omega), rfl, hc, hwf.2, ?_, ?_⟩
    · rw [if_neg hcap]
    · rw [if_neg hcap]; rfl

theorem resize_fill_grow_of {T : Type} (m : Machine) (v : vector T) (n : Nat) (x : T)
    (m1 : Machine) (w : vector T) (hn : v.size_ < n) (hres : v.reserve m n = ⟨.ok (), m1, w⟩) :
    v.resize_fill m n (.object x) =
      match (construct_fill w.data_ x (n - w.size_) w.size_ m1 w.store).1.ret with
      | .error e => ⟨.error e, (construct_fill w.data_ x (n - w.size_) w.size_ m1 w.store).1.mach,
          { w with store := (construct_fill w.data_ x (n - w.size_) w.size_ m1 w.store).1.slots }⟩
      | .ok _ => ⟨.ok (), (construct_fill w.data_ x (n - w.size_) w.size_ m1 w.store).1.mach,
          { w with store := (construct_fill w.data_ x (n - w.size_) w.size_ m1 w.store).1.slots,
                   size_ := n }⟩ := by
  unfold vector.resize_fill
  rw [if_neg (by omega), if_pos (by omega)]
  simp only [hres, construct_from_object]

theorem resize_fill_throw {T : Type} (m : Machine) (v : vector T) (s : List T) (n k : Nat)
    (x : T) (hwf : v.wf) (hc : v.contents = s.map some) (hn : v.size_ < n)
    (hk : k < resize_calls v.size_ v.capacity_ n)
    (hs : m.script.take (k + 1) = List.replicate k false ++ [true]) :
    (v.resize_fill m n (.object x)).ret = .error .element_failure ∧ (v.resize_fill m n (.object x)).self.wf ∧
    (v.resize_fill m n (.object x)).self.size_ = v.size_ ∧
    (v.resize_fill m n (.object x)).self.contents = v.contents := by
  unfold resize_calls at hk
  rw [if_pos hn] at hk
  by_cases hrel : v.capacity_ < n ∧ k < v.size_
  · have hres := reserve_throw m v s n k hwf hc hrel.1 hrel.2 hs
    unfold vector.resize_fill
    rw [if_neg (by omega), if_pos (by omega)]
    simp only [hres]
    exact ⟨trivial, hwf, trivial, trivial⟩
  · have hge : (if v.capacity_ < n then v.size_ else 0) ≤ k := by
      split
      · omega
      · omega
    obtain ⟨m1, w, hres, hw1, hw2, hw3, hw4, hw5⟩ := resize_reserve_ok m v s n hwf hc
      (take_prefix_ok m.script _ _ hge (script_prefix_ok m.script k hs))
    have hwn : n ≤ w.store.length := by
      rw [hw3, hw4]; split <;> omega
    have hs1 := drop_throw m.script _ k hge hs
    rw [← hw5] at hs1
    have hfill := construct_list_throw w.data_ (List.replicate (n - w.size_) x) w.size_
      (k - (if v.capacity_ < n then v.size_ else 0)) m1 w.store (by simp; omega)
      (by simp; omega) hs1
    rw [resize_fill_grow_of m v n x m1 w hn hres, construct_fill_eq_list, hfill]
    simp only
    refine ⟨trivial, ⟨by simp only; rw [hw1, hw4]; have := hwf.1; split <;> omega,
      by simp only [lay_length]; exact hw3⟩, hw1, ?_⟩
    rw [hc]
    exact contents_lay_old w s _ _ _ hw2 (by simp [List.length_take]; omega)

/-- C19: on a vector that holds `s`, when a constructor call of `push_back` (either overload),
of `emplace_back` or of a growing `resize` (either overload) throws, whether while relocating
or while constructing the new element or a newly exposed cell, the exception leaves the
function with `size()` and the elements at `[0, size())` as before the call. -/
theorem C19_failed_append_keeps_length (T : Type) [Inhabited T] :
    (∀ (m : Machine) (v : vector T) (s : List T) (x : T) (k : Nat), v.wf →
      v.contents = s.map some → k < (if v.size_ = v.capacity_ then v.size_ + 1 else 1) →
      m.script.take (k + 1) = List.replicate k false ++ [true] →
      ((v.push_back m (.object x)).ret = .error .element_failure ∧
        (v.push_back m (.object x)).self.size = v.size ∧
        (v.push_back m (.object x)).self.contents = v.contents) ∧
      ((v.push_back_move m (.object x)).ret = .error .element_failure ∧
        (v.push_back_move m (.object x)).self.size = v.size ∧
        (v.push_back_move m (.object x)).self.contents = v.contents) ∧
      ((v.emplace_back m (.object x)).ret = .error .element_failure ∧
        (v.emplace_back m (.object x)).self.size = v.size ∧
        (v.emplace_back m (.object x)).self.contents = v.contents)) ∧
    (∀ (m : Machine) (v : vector T) (s : List T) (n : Nat) (x : T) (k : Nat), v.wf →
      v.contents = s.map some → v.size < n → k < resize_calls v.size_ v.capacity_ n →
      m.script.take (k + 1) = List.replicate k false ++ [true] →
      ((v.resize_fill m n (.object x)).ret = .error .element_failure ∧
        (v.resize_fill m n (.object x)).self.size = v.size ∧
        (v.resize_fill m n (.object x)).self.contents = v.contents) ∧
      ((v.resize m n).ret = .error .element_failure ∧
        (v.resize m n).self.size = v.size ∧
        (v.resize m n).self.contents = v.contents)) := by
  constructor
  · intro m v s x k hwf hc hk hs
    obtain ⟨h1, -, h3, h4⟩ := push_back_throw m v s x k hwf hc hk hs
    rw [push_back_move_eq, emplace_back_eq]
    exact ⟨⟨h1, h3, h4⟩, ⟨h1, h3, h4⟩, ⟨h1, h3, h4⟩⟩
  · intro m v s n x k hwf hc hn hk hs
    rw [resize_eq]
    obtain ⟨h1, -, h3, h4⟩ := resize_fill_throw m v s n k x hwf hc hn hk hs
    obtain ⟨g1, -, g3, g4⟩ := resize_fill_throw m v s n k default hwf hc hn hk hs
    exact ⟨⟨h1, h3, h4⟩, ⟨g1, g3, g4⟩⟩

theorem C19_failed_append_keeps_length_witness :
    ((vector.mk 7 2 2 [⟨some 10, true⟩, ⟨some 40, true⟩] : vector Nat).push_back
        ⟨[false, false, true], 9, []⟩ (.object 5)).self.contents
      = (vector.mk 7 2 2 [⟨some 10, true⟩, ⟨some 40, true⟩] : vector Nat).contents ∧
    ((vector.mk 7 2 2 [⟨some 10, true⟩, ⟨some 40, true⟩] : vector Nat).resize_fill
        ⟨[false, false, false, true], 9, []⟩ 5 (.object 1)).self.size
      = (vector.mk 7 2 2 [⟨some 10, true⟩, ⟨some 40, true⟩] : vector Nat).size :=
  ⟨((C19_failed_append_keeps_length Nat).1 ⟨[false, false, true], 9, []⟩
      ⟨7, 2, 2, [⟨some 10, true⟩, ⟨some 40, true⟩]⟩ [10, 40] 5 2 (by decide) (by decide)
      (by decide) (by decide)).1.2.2,
   ((C19_failed_append_keeps_length Nat).2 ⟨[false, false, false, true], 9, []⟩
      ⟨7, 2, 2, [⟨some 10, true⟩, ⟨some 40, true⟩]⟩ [10, 40] 5 1 3 (by decide) (by decide)
      (by decide) (by decide) (by decide)).1.2.1⟩

/-! ## The constructors -/

theorem ctor_fill_eq_range {T : Type} (m : Machine) (count : Nat) (x : T) :
    vector.ctor_fill m count x = vector.ctor_range m (List.replicate count x) := by
  unfold vector.ctor_fill vector.ctor_range
  simp only [construct_fill_eq_list, List.length_replicate]

theorem ctor_sized_eq_fill {T : Type} [Inhabited T] (m : Machine) (count : Nat) :
    (vector.ctor_sized m count : Built T) = vector.ctor_fill m count default := rfl

theorem raw_length {T : Type} (n : Nat) :
    (List.replicate n (⟨none, false⟩ : Slot T)).length = n := by simp

theorem ctor_range_ok {T : Type} (m : Machine) (xs : List T)
    (hs : ∀ b ∈ m.script.take xs.length, b = false) :
    vector.ctor_range m xs =
      ⟨.ok ⟨(m.brk : Int) + 1, xs.length, xs.length,
          lay (List.replicate xs.length ⟨none, false⟩) 0 xs⟩,
        constructed (allocated m xs.length) ((m.brk : Int) + 1) 0 xs.length⟩ := by
  have hfill := construct_list_all ((m.brk : Int) + 1) xs 0 (allocated m xs.length)
    (List.replicate xs.length (⟨none, false⟩ : Slot T)) (by simp) hs
  unfold vector.ctor_range
  simp only [allocate]
  have e : (Machine.mk m.script (m.brk + 1 + xs.length)
      (m.trace ++ [Event.allocate ((m.brk : Int) + 1) xs.length])) = allocated m xs.length := rfl
  simp only [e, hfill]

theorem ctor_range_throw {T : Type} (m : Machine) (xs : List T) (k : Nat) (hk : k < xs.length)
    (hs : m.script.take (k + 1) = List.replicate k false ++ [true]) :
    vector.ctor_range m xs =
      ⟨.error .element_failure,
        deallocate (destroyed
          ⟨m.script.drop (k + 1), m.brk + 1 + xs.length,
            (constructed (allocated m xs.length) ((m.brk : Int) + 1) 0 k).trace⟩
          ((m.brk : Int) + 1) 0 k) ((m.brk : Int) + 1) xs.length⟩ := by
  have hfill := construct_list_throw ((m.brk : Int) + 1) xs 0 k (allocated m xs.length)
    (List.replicate xs.length (⟨none, false⟩ : Slot T)) (by simp) hk hs
  obtain ⟨h1, h2, -, -⟩ := destroy_range_spec ((m.brk : Int) + 1) k 0
    (⟨m.script.drop (k + 1), m.brk + 1 + xs.length,
      (constructed (allocated m xs.length) ((m.brk : Int) + 1) 0 k).trace⟩ : Machine)
    (lay (List.replicate xs.length (⟨none, false⟩ : Slot T)) 0 (xs.take k))
    (by rw [lay_length]; simp; omega)
  unfold vector.ctor_range
  simp only [allocate]
  have e : (Machine.mk m.script (m.brk + 1 + xs.length)
      (m.trace ++ [Event.allocate ((m.brk : Int) + 1) xs.length])) = allocated m xs.length := rfl
  simp only [e, hfill, Nat.zero_add]
  have e2 : (allocated m xs.length).script = m.script := rfl
  have e3 : (allocated m xs.length).brk = m.brk + 1 + xs.length := rfl
  simp only [e2, e3, h1, h2]

theorem contents_lay_raw {T : Type} (xs : List T) (p : Int) :
    (vector.mk p xs.length xs.length
      (lay (List.replicate xs.length (⟨none, false⟩ : Slot T)) 0 xs)).contents
      = xs.map some := by
  rw [contents_iff_getElem?]
  · refine ⟨rfl, ?_⟩
    intro j hj
    simp only at hj ⊢
    rw [cell_lay xs _ 0 j (by simp), if_pos ⟨by omega, by omega⟩]
    simp
  · simp [lay_length]

theorem lay_raw_wf {T : Type} (xs : List T) (p : Int) :
    (vector.mk p xs.length xs.length
      (lay (List.replicate xs.length (⟨none, false⟩ : Slot T)) 0 xs)).wf :=
  ⟨le_refl _, by simp [lay_length]⟩

theorem ctor_copy_ok {T : Type} (m : Machine) (other : vector T) (s : List T)
    (hwf : other.wf) (hc : other.contents = s.map some)
    (hs : ∀ b ∈ m.script.take other.size_, b = false) :
    vector.ctor_copy m other =
      ⟨.ok ⟨(m.brk : Int) + 1, other.size_, other.capacity_,
          filled s other.capacity_ other.size_⟩,
        constructed (allocated m other.capacity_) ((m.brk : Int) + 1) 0 other.size_⟩ := by
  have hrel := relocate_all (allocated m other.capacity_) other s other.capacity_
    ((m.brk : Int) + 1) hwf hc hwf.1 hs
  unfold vector.ctor_copy
  simp only [allocate]
  have e : (Machine.mk m.script (m.brk + 1 + other.capacity_)
      (m.trace ++ [Event.allocate ((m.brk : Int) + 1) other.capacity_]))
      = allocated m other.capacity_ := rfl
  simp only [e, hrel]

theorem ctor_copy_throw {T : Type} (m : Machine) (other : vector T) (s : List T) (k : Nat)
    (hwf : other.wf) (hc : other.contents = s.map some) (hk : k < other.size_)
    (hs : m.script.take (k + 1) = List.replicate k false ++ [true]) :
    vector.ctor_copy m other =
      ⟨.error .element_failure,
        deallocate (destroyed
          ⟨m.script.drop (k + 1), m.brk + 1 + other.capacity_,
            (constructed (allocated m other.capacity_) ((m.brk : Int) + 1) 0 k).trace⟩
          ((m.brk : Int) + 1) 0 k) ((m.brk : Int) + 1) other.capacity_⟩ := by
  have hrel := relocate_throw (allocated m other.capacity_) other s other.capacity_ k
    ((m.brk : Int) + 1) hwf hc hwf.1 hk hs
  obtain ⟨h1, h2, -, -⟩ := destroy_range_spec ((m.brk : Int) + 1) k 0
    (⟨m.script.drop (k + 1), m.brk + 1 + other.capacity_,
      (constructed (allocated m other.capacity_) ((m.brk : Int) + 1) 0 k).trace⟩ : Machine)
    (filled s other.capacity_ k)
    (by
      have hl := ((contents_iff other s (by have := hwf.1; have := hwf.2; omega)).mp hc).1
      rw [filled_length s other.capacity_ k (by omega) (by have := hwf.1; omega)]
      have := hwf.1
      omega)
  unfold vector.ctor_copy
  simp only [allocate]
  have e : (Machine.mk m.script (m.brk + 1 + other.capacity_)
      (m.trace ++ [Event.allocate ((m.brk : Int) + 1) other.capacity_]))
      = allocated m other.capacity_ := rfl
  simp only [e, hrel]
  have e2 : (allocated m other.capacity_).script = m.script := rfl
  have e3 : (allocated m other.capacity_).brk = m.brk + 1 + other.capacity_ := rfl
  simp only [e2, e3, h1, h2]

theorem copy_contents {T : Type} (other : vector T) (s : List T) (p : Int)
    (hwf : other.wf) (hc : other.contents = s.map some) :
    (vector.mk p other.size_ other.capacity_ (filled s other.capacity_ other.size_)).contents
      = s.map some ∧
    (vector.mk p other.size_ other.capacity_ (filled s other.capacity_ other.size_)).wf := by
  have hl := ((contents_iff other s (by have := hwf.1; have := hwf.2; omega)).mp hc).1
  constructor
  · have := contents_filled s p other.capacity_ (by have := hwf.1; omega)
    rw [hl] at this
    exact this
  · exact ⟨hwf.1, filled_length _ _ _ (by omega) hwf.1⟩

/-- The trace a bulk constructor leaves when the constructor call for index `k` throws:
allocation, `k` constructions, `k` destructions in index order, release. -/
theorem failed_build_trace (m : Machine) (n k : Nat) (rest : List Bool) :
    (deallocate (destroyed
        ⟨rest, m.brk + 1 + n, (constructed (allocated m n) ((m.brk : Int) + 1) 0 k).trace⟩
        ((m.brk : Int) + 1) 0 k) ((m.brk : Int) + 1) n).trace =
      m.trace ++ [Event.allocate ((m.brk : Int) + 1) n] ++
        (List.range k).map (fun j => Event.construct ((m.brk : Int) + 1 + (j : Int))) ++
        (List.range k).map (fun j => Event.destroy ((m.brk : Int) + 1 + (j : Int))) ++
        [Event.deallocate ((m.brk : Int) + 1) n] := by
  simp [deallocate, destroyed, constructed, allocated, List.range_eq_range']

/-- C18, as stated, fails: the fill constructor for three elements whose third construction
throws destroys the two constructed elements at index 0 and then at index 1 (addresses 1
and 2), not in reverse order. -/
theorem C18_reverse_order_counterexample :
    (vector.ctor_fill ⟨[false, false, true], 0, []⟩ 3 (7 : Nat)).ret
      = .error .element_failure ∧
    destroy_order (vector.ctor_fill ⟨[false, false, true], 0, []⟩ 3 (7 : Nat)).mach.trace
      = [1, 2] ∧
    destroy_order (vector.ctor_fill ⟨[false, false, true], 0, []⟩ 3 (7 : Nat)).mach.trace
      ≠ ((List.range 2).reverse).map (fun j => (1 : Int) + (j : Int)) := by
  decide

/-- C18, amended: in each bulk constructor (fill, sized, range, copy), when the constructor
call for the element at index `i` throws, the exception leaves the constructor after the `i`
elements constructed so far were destroyed in index order, `0` up to `i - 1`, exactly those,
and the block that was allocated was released: the trace is the allocation, `i` constructions,
`i` destructions in that order, the deallocation. -/
theorem C18_bulk_constructor_rollback (T : Type) [Inhabited T] :
    (∀ (m : Machine) (count i : Nat) (x : T), i < count →
      m.script.take (i + 1) = List.replicate i false ++ [true] →
      (vector.ctor_fill m count x).ret = .error .element_failure ∧
      (vector.ctor_fill m count x).mach.trace =
        m.trace ++ [Event.allocate ((m.brk : Int) + 1) count] ++
          (List.range i).map (fun j => Event.construct ((m.brk : Int) + 1 + (j : Int))) ++
          (List.range i).map (fun j => Event.destroy ((m.brk : Int) + 1 + (j : Int))) ++
          [Event.deallocate ((m.brk : Int) + 1) count]) ∧
    (∀ (m : Machine) (count i : Nat), i < count →
      m.script.take (i + 1) = List.replicate i false ++ [true] →
      (vector.ctor_sized m count : Built T).ret = .error .element_failure ∧
      (vector.ctor_sized m count : Built T).mach.trace =
        m.trace ++ [Event.allocate ((m.brk : Int) + 1) count] ++
          (List.range i).map (fun j => Event.construct ((m.brk : Int) + 1 + (j : Int))) ++
          (List.range i).map (fun j => Event.destroy ((m.brk : Int) + 1 + (j : Int))) ++
          [Event.deallocate ((m.brk : Int) + 1) count]) ∧
    (∀ (m : Machine) (xs : List T) (i : Nat), i < xs.length →
      m.script.take (i + 1) = List.replicate i false ++ [true] →
      (vector.ctor_range m xs).ret = .error .element_failure ∧
      (vector.ctor_range m xs).mach.trace =
        m.trace ++ [Event.allocate ((m.brk : Int) + 1) xs.length] ++
          (List.range i).map (fun j => Event.construct ((m.brk : Int) + 1 + (j : Int))) ++
          (List.range i).map (fun j => Event.destroy ((m.brk : Int) + 1 + (j : Int))) ++
          [Event.deallocate ((m.brk : Int) + 1) xs.length]) ∧
    (∀ (m : Machine) (other : vector T) (s : List T) (i : Nat), other.wf →
      other.contents = s.map some → i < other.size →
      m.script.take (i + 1) = List.replicate i false ++ [true] →
      (vector.ctor_copy m other).ret = .error .element_failure ∧
      (vector.ctor_copy m other).mach.trace =
        m.trace ++ [Event.allocate ((m.brk : Int) + 1) other.capacity] ++
          (List.range i).map (fun j => Event.construct ((m.brk : Int) + 1 + (j : Int))) ++
          (List.range i).map (fun j => Event.destroy ((m.brk : Int) + 1 + (j : Int))) ++
          [Event.deallocate ((m.brk : Int) + 1) other.capacity]) := by
  refine ⟨?_, ?_, ?_, ?_⟩
  · intro m count i x hi hs
    rw [ctor_fill_eq_range, ctor_range_throw m _ i (by simpa using hi) hs]
    simp only [List.length_replicate]
    exact ⟨trivial, failed_build_trace m count i _⟩
  · intro m count i hi hs
    rw [ctor_sized_eq_fill, ctor_fill_eq_range, ctor_range_throw m _ i (by simpa using hi) hs]
    simp only [List.length_replicate]
    exact ⟨trivial, failed_build_trace m count i _⟩
  · intro m xs i hi hs
    rw [ctor_range_throw m xs i hi hs]
    exact ⟨rfl, failed_build_trace m xs.length i _⟩
  · intro m other s i hwf hc hi hs
    rw [ctor_copy_throw m other s i hwf hc hi hs]
    exact ⟨rfl, failed_build_trace m other.capacity_ i _⟩

theorem C18_bulk_constructor_rollback_witness :
    (vector.ctor_fill ⟨[false, false, true], 0, []⟩ 3 (7 : Nat)).mach.trace =
      [] ++ [Event.allocate ((0 : Nat) + 1) 3] ++
        (List.range 2).map (fun j => Event.construct (((0 : Nat) : Int) + 1 + (j : Int))) ++
        (List.range 2).map (fun j => Event.destroy (((0 : Nat) : Int) + 1 + (j : Int))) ++
        [Event.deallocate ((0 : Nat) + 1) 3] :=
  ((C18_bulk_constructor_rollback Nat).1 ⟨[false, false, true], 0, []⟩ 3 2 7 (by decide)
    (by decide)).2

/-! ## clear, the destructor and the assignment operators -/

theorem clear_ok {T : Type} (m : Machine) (v : vector T) (h : v.size_ ≤ v.store.length) :
    (v.clear m).ret = .ok () ∧ (v.clear m).self.size_ = 0 ∧
    (v.clear m).self.capacity_ = v.capacity_ ∧ (v.clear m).self.data_ = v.data_ ∧
    (v.clear m).self.store.length = v.store.length ∧
    (v.clear m).mach = destroyed m v.data_ 0 v.size_ := by
  obtain ⟨h1, h2, h3, -⟩ := destroy_range_spec v.data_ v.size_ 0 m v.store (by omega)
  unfold vector.clear
  simp only [h1]
  exact ⟨trivial, trivial, trivial, trivial, h3, h2⟩

theorem clear_contents {T : Type} (m : Machine) (v : vector T) (h : v.size_ ≤ v.store.length) :
    (v.clear m).self.contents = [] := by
  unfold vector.contents
  rw [(clear_ok m v h).2.1]
  simp

theorem dtor_empty {T : Type} (m : Machine) :
    vector.dtor m (⟨0, 0, 0, []⟩ : vector T) = ⟨.ok (), m⟩ := by
  unfold vector.dtor vector.clear
  simp [destroy_range]

theorem assign_move_same {T : Type} (m : Machine) (self other : vector T) :
    vector.assign_move m self other true = ⟨.ok (), m, self, other⟩ := by
  simp [vector.assign_move]

theorem assign_move_ok {T : Type} (m : Machine) (self other : vector T)
    (h : self.size_ ≤ self.store.length) :
    vector.assign_move m self other false =
      ⟨.ok (),
        if self.data_ ≠ 0 then deallocate (destroyed m self.data_ 0 self.size_) self.data_
          self.capacity_
        else destroyed m self.data_ 0 self.size_,
        other, ⟨0, 0, 0, []⟩⟩ := by
  obtain ⟨h1, -, h3, h4, -, h6⟩ := clear_ok m self h
  unfold vector.assign_move
  simp only [Bool.false_eq_true, if_false, h1, h3, h4, h6]

theorem assign_copy_same {T : Type} (m : Machine) (self other : vector T) :
    vector.assign_copy m self other true = ⟨.ok (), m, self⟩ := by
  simp [vector.assign_copy]

theorem assign_copy_ok {T : Type} (m : Machine) (self other : vector T) (s : List T)
    (hself : self.size_ ≤ self.store.length) (hwf : other.wf)
    (hc : other.contents = s.map some) (hs : ∀ b ∈ m.script.take other.size_, b = false) :
    (vector.assign_copy m self other false).ret = .ok () ∧
    (vector.assign_copy m self other false).self =
      ⟨(m.brk : Int) + 1, other.size_, other.capacity_,
        filled s other.capacity_ other.size_⟩ := by
  unfold vector.assign_copy
  simp only [Bool.false_eq_true, if_false, ctor_copy_ok m other s hwf hc hs,
    assign_move_ok _ self _ hself, dtor_empty]
  exact ⟨trivial, trivial⟩

theorem assign_copy_throw {T : Type} (m : Machine) (self other : vector T) (s : List T)
    (k : Nat) (hwf : other.wf) (hc : other.contents = s.map some) (hk : k < other.size_)
    (hs : m.script.take (k + 1) = List.replicate k false ++ [true]) :
    (vector.assign_copy m self other false).ret = .error .element_failure ∧
    (vector.assign_copy m self other false).self = self := by
  unfold vector.assign_copy
  simp only [Bool.false_eq_true, if_false, ctor_copy_throw m other s k hwf hc hk hs]
  exact ⟨trivial, trivial⟩

theorem assign_copy_ok_iff {T : Type} (m : Machine) (self other : vector T) (s : List T)
    (hself : self.size_ ≤ self.store.length) (hwf : other.wf)
    (hc : other.contents = s.map some) :
    (vector.assign_copy m self other false).ret = .ok () ↔
      ∀ b ∈ m.script.take other.size_, b = false := by
  constructor
  · intro hret
    rcases script_dichotomy m.script other.size_ with h | ⟨k, hk, hk2⟩
    · exact h
    · rw [(assign_copy_throw m self other s k hwf hc hk hk2).1] at hret
      cases hret
  · intro hs
    exact (assign_copy_ok m self other s hself hwf hc hs).1

theorem contents_lay_zero {T : Type} (slots : List (Slot T)) (xs : List T) (p : Int) (c : Nat)
    (h : xs.length ≤ slots.length) :
    (vector.mk p xs.length c (lay slots 0 xs)).contents = xs.map some := by
  rw [contents_iff_getElem?]
  · refine ⟨rfl, ?_⟩
    intro j hj
    simp only at hj ⊢
    rw [cell_lay xs _ 0 j (by omega), if_pos ⟨by omega, by omega⟩]
    simp
  · simp only [lay_length]
    exact h

theorem release_script (c : Prop) [Decidable c] (mm : Machine) (p : Int) (n : Nat) :
    (if c then deallocate mm p n else mm).script = mm.script := by
  split <;> rfl

theorem assign_list_ok {T : Type} (m : Machine) (v : vector T) (l : List T) (hwf : v.wf)
    (hs : ∀ b ∈ m.script.take l.length, b = false) :
    (v.assign_list m l).ret = .ok () ∧ (v.assign_list m l).self.wf ∧
    (v.assign_list m l).self.contents = l.map some ∧
    (v.assign_list m l).self.size_ = l.length ∧
    (v.assign_list m l).self.capacity_ = (if l.length > v.capacity_ then l.length
      else v.capacity_) := by
  obtain ⟨h1, h2, h3, h4, h5, h6⟩ := clear_ok m v (by have := hwf.1; have := hwf.2; omega)
  by_cases hgrow : l.length > v.capacity_
  · unfold vector.assign_list
    simp only [h1, h3, hgrow, if_true, allocate]
    have hscr : (if (v.clear m).self.data_ ≠ 0 then
        deallocate (v.clear m).mach (v.clear m).self.data_ v.capacity_
        else (v.clear m).mach).script = m.script := by
      rw [release_script, h6]
      rfl
    rw [construct_list_all _ l 0 _ _ (by simp) (by simp only [hscr]; exact hs)]
    simp only [if_pos hgrow]
    refine ⟨trivial, ⟨by simp only; omega, by simp [lay_length]⟩, ?_, trivial, trivial⟩
    exact contents_lay_raw l _
  · have hlen : l.length ≤ (v.clear m).self.store.length := by
      rw [h5]; have := hwf.2; omega
    unfold vector.assign_list
    simp only [h1, h3, hgrow, if_false]
    rw [construct_list_all _ l 0 _ _ (by simpa using hlen) (by rw [h6]; exact hs)]
    simp only [if_neg hgrow]
    refine ⟨trivial, ⟨by simp only; omega, ?_⟩, ?_, trivial, trivial⟩
    · simp only [lay_length, h5]
      exact hwf.2
    · exact contents_lay_zero _ l _ _ hlen

theorem assign_list_throw {T : Type} (m : Machine) (v : vector T) (l : List T) (k : Nat)
    (hwf : v.wf) (hk : k < l.length)
    (hs : m.script.take (k + 1) = List.replicate k false ++ [true]) :
    (v.assign_list m l).ret = .error .element_failure ∧ (v.assign_list m l).self.wf ∧
    (v.assign_list m l).self.size_ = 0 := by
  obtain ⟨h1, h2, h3, h4, h5, h6⟩ := clear_ok m v (by have := hwf.1; have := hwf.2; omega)
  by_cases hgrow : l.length > v.capacity_
  · unfold vector.assign_list
    simp only [h1, h3, hgrow, if_true, allocate]
    have hscr : (if (v.clear m).self.data_ ≠ 0 then
        deallocate (v.clear m).mach (v.clear m).self.data_ v.capacity_
        else (v.clear m).mach).script = m.script := by
      rw [release_script, h6]
      rfl
    rw [construct_list_throw _ l 0 k _ _ (by simp) hk (by simp only [hscr]; exact hs)]
    simp only
    exact ⟨trivial, ⟨by rw [h2]; omega, by simp [lay_length]⟩, h2⟩
  · have hlen : l.length ≤ (v.clear m).self.store.length := by
      rw [h5]; have := hwf.2; omega
    unfold vector.assign_list
    simp only [h1, h3, hgrow, if_false]
    rw [construct_list_throw _ l 0 k _ _ (by simpa using hlen) hk (by rw [h6]; exact hs)]
    simp only
    refine ⟨trivial, ⟨by rw [h2]; omega, ?_⟩, h2⟩
    simp only [lay_length, h5]
    exact hwf.2

theorem assign_list_ok_iff {T : Type} (m : Machine) (v : vector T) (l : List T) (hwf : v.wf) :
    (v.assign_list m l).ret = .ok () ↔ ∀ b ∈ m.script.take l.length, b = false := by
  constructor
  · intro hret
    rcases script_dichotomy m.script l.length with h | ⟨k, hk, hk2⟩
    · exact h
    · rw [(assign_list_throw m v l k hwf hk hk2).1] at hret
      cases hret
  · intro hs
    exact (assign_list_ok m v l hwf hs).1

/-- C13: the move constructor gives the new object the buffer, contents, `size()` and
`capacity()` of `src` and leaves `src` with `size() == 0`, `capacity() == 0` and a null
buffer; the move assignment of `src` into a distinct target (whose elements it destroys and
whose buffer it releases) does the same. -/
theorem C13_move_leaves_source_empty (T : Type) :
    (∀ (src : vector T),
      (vector.ctor_move src).1.contents = src.contents ∧
      (vector.ctor_move src).1.size = src.size ∧
      (vector.ctor_move src).1.capacity = src.capacity ∧
      (vector.ctor_move src).1.data_ = src.data_ ∧
      (vector.ctor_move src).2.size = 0 ∧ (vector.ctor_move src).2.capacity = 0 ∧
      (vector.ctor_move src).2.data_ = 0) ∧
    (∀ (m : Machine) (target src : vector T), target.wf →
      (vector.assign_move m target src false).ret = .ok () ∧
      (vector.assign_move m target src false).self.contents = src.contents ∧
      (vector.assign_move m target src false).self.size = src.size ∧
      (vector.assign_move m target src false).self.capacity = src.capacity ∧
      (vector.assign_move m target src false).self.data_ = src.data_ ∧
      (vector.assign_move m target src false).other.size = 0 ∧
      (vector.assign_move m target src false).other.capacity = 0 ∧
      (vector.assign_move m target src false).other.data_ = 0 ∧
      (vector.assign_move m target src false).mach.trace =
        m.trace ++ (List.range target.size_).map
            (fun j => Event.destroy (target.data_ + (j : Int))) ++
          (if target.data_ ≠ 0 then [Event.deallocate target.data_ target.capacity_] else [])) := by
  constructor
  · intro src
    exact ⟨rfl, rfl, rfl, rfl, rfl, rfl, rfl⟩
  · intro m target src hwf
    rw [assign_move_ok m target src (by have := hwf.1; have := hwf.2; omega)]
    refine ⟨rfl, rfl, rfl, rfl, rfl, rfl, rfl, rfl, ?_⟩
    by_cases hd : target.data_ = 0
    · simp [hd, destroyed, List.range_eq_range']
    · simp [hd, destroyed, deallocate, List.range_eq_range']

theorem C13_move_leaves_source_empty_witness :
    (vector.assign_move ⟨[], 9, []⟩ (vector.mk 3 1 1 [⟨some 9, true⟩] : vector Nat)
        (vector.mk 7 2 2 [⟨some 10, true⟩, ⟨some 40, true⟩]) false).self.contents
      = (vector.mk 7 2 2 [⟨some 10, true⟩, ⟨some 40, true⟩] : vector Nat).contents ∧
    (vector.assign_move ⟨[], 9, []⟩ (vector.mk 3 1 1 [⟨some 9, true⟩] : vector Nat)
        (vector.mk 7 2 2 [⟨some 10, true⟩, ⟨some 40, true⟩]) false).other.data_ = 0 :=
  ⟨((C13_move_leaves_source_empty Nat).2 ⟨[], 9, []⟩ ⟨3, 1, 1, [⟨some 9, true⟩]⟩
      ⟨7, 2, 2, [⟨some 10, true⟩, ⟨some 40, true⟩]⟩ (by decide)).2.1,
   ((C13_move_leaves_source_empty Nat).2 ⟨[], 9, []⟩ ⟨3, 1, 1, [⟨some 9, true⟩]⟩
      ⟨7, 2, 2, [⟨some 10, true⟩, ⟨some 40, true⟩]⟩ (by decide)).2.2.2.2.2.2.2.1⟩

/-- C14: the copy assignment `a = b` of distinct objects returns normally exactly when the
`b.size()` copy constructions succeed, and then `a` has the contents and `size()` of `b`
(`b`, a reference to const, is only read); the self-assignment changes neither the object nor
the machine; when a copy construction throws, the exception leaves the operator and `a` is
exactly the object it was (`data_`, `size_`, `capacity_` and every cell). -/
theorem C14_copy_assignment_strong (T : Type) :
    (∀ (m : Machine) (a b : vector T) (s : List T), a.wf → b.wf → b.contents = s.map some →
      ((vector.assign_copy m a b false).ret = .ok () ↔
        ∀ c ∈ m.script.take b.size_, c = false) ∧
      ((vector.assign_copy m a b false).ret = .ok () →
        (vector.assign_copy m a b false).self.contents = b.contents ∧
        (vector.assign_copy m a b false).self.size = b.size)) ∧
    (∀ (m : Machine) (a : vector T), vector.assign_copy m a a true = ⟨.ok (), m, a⟩) ∧
    (∀ (m : Machine) (a b : vector T) (s : List T) (k : Nat), b.wf →
      b.contents = s.map some → k < b.size →
      m.script.take (k + 1) = List.replicate k false ++ [true] →
      (vector.assign_copy m a b false).ret = .error .element_failure ∧
      (vector.assign_copy m a b false).self = a) := by
  refine ⟨?_, ?_, ?_⟩
  · intro m a b s ha hb hc
    have hself : a.size_ ≤ a.store.length := by have := ha.1; have := ha.2; omega
    refine ⟨assign_copy_ok_iff m a b s hself hb hc, ?_⟩
    intro hret
    have hs := (assign_copy_ok_iff m a b s hself hb hc).mp hret
    obtain ⟨-, h2⟩ := assign_copy_ok m a b s hself hb hc hs
    rw [h2]
    exact ⟨by rw [hc]; exact (copy_contents b s _ hb hc).1, rfl⟩
  · intro m a
    exact assign_copy_same m a a
  · intro m a b s k hb hc hk hs
    exact assign_copy_throw m a b s k hb hc hk hs

theorem C14_copy_assignment_strong_witness :
    (vector.assign_copy ⟨[false, true], 9, []⟩ (vector.mk 3 1 1 [⟨some 9, true⟩] : vector Nat)
        (vector.mk 7 2 2 [⟨some 10, true⟩, ⟨some 40, true⟩]) false).self
      = ⟨3, 1, 1, [⟨some 9, true⟩]⟩ ∧
    (vector.assign_copy ⟨[], 9, []⟩ (vector.mk 3 1 1 [⟨some 9, true⟩] : vector Nat)
        (vector.mk 7 2 2 [⟨some 10, true⟩, ⟨some 40, true⟩]) false).self.contents
      = (vector.mk 7 2 2 [⟨some 10, true⟩, ⟨some 40, true⟩] : vector Nat).contents :=
  ⟨((C14_copy_assignment_strong Nat).2.2 ⟨[false, true], 9, []⟩ ⟨3, 1, 1, [⟨some 9, true⟩]⟩
      ⟨7, 2, 2, [⟨some 10, true⟩, ⟨some 40, true⟩]⟩ [10, 40] 1 (by decide) (by decide)
      (by decide) (by decide)).2,
   (((C14_copy_assignment_strong Nat).1 ⟨[], 9, []⟩ ⟨3, 1, 1, [⟨some 9, true⟩]⟩
      ⟨7, 2, 2, [⟨some 10, true⟩, ⟨some 40, true⟩]⟩ [10, 40] (by decide) (by decide)
      (by decide)).2 (by decide)).1⟩

/-- C15: on a vector of capacity `c`, whatever it holds, the list assignment `v = L` returns
normally exactly when the `|L|` constructions succeed, and then the contents are `L` in order,
`size()` is `|L|`, and `capacity()` is `|L|` when `|L| > c` and still `c` otherwise. -/
theorem C15_list_assignment (T : Type) (m : Machine) (v : vector T) (l : List T)
    (hwf : v.wf) :
    ((v.assign_list m l).ret = .ok () ↔ ∀ b ∈ m.script.take l.length, b = false) ∧
    ((v.assign_list m l).ret = .ok () →
      (v.assign_list m l).self.contents = l.map some ∧
      (v.assign_list m l).self.size = l.length ∧
      (v.assign_list m l).self.capacity
        = (if l.length > v.capacity then l.length else v.capacity)) := by
  refine ⟨assign_list_ok_iff m v l hwf, ?_⟩
  intro hret
  have hs := (assign_list_ok_iff m v l hwf).mp hret
  obtain ⟨-, -, h3, h4, h5⟩ := assign_list_ok m v l hwf hs
  exact ⟨h3, h4, h5⟩

theorem C15_list_assignment_witness :
    ((vector.mk 7 2 2 [⟨some 10, true⟩, ⟨some 40, true⟩] : vector Nat).assign_list ⟨[], 9, []⟩
        [1, 2, 3]).self.contents = [1, 2, 3].map some ∧
    ((vector.mk 7 2 2 [⟨some 10, true⟩, ⟨some 40, true⟩] : vector Nat).assign_list ⟨[], 9, []⟩
        [5]).self.capacity = 2 :=
  ⟨((C15_list_assignment Nat ⟨[], 9, []⟩ ⟨7, 2, 2, [⟨some 10, true⟩, ⟨some 40, true⟩]⟩ [1, 2, 3]
      (by decide)).2 (by decide)).1,
   ((C15_list_assignment Nat ⟨[], 9, []⟩ ⟨7, 2, 2, [⟨some 10, true⟩, ⟨some 40, true⟩]⟩ [5]
      (by decide)).2 (by decide)).2.2⟩

/-! ## Footprints and invariants of the members -/

theorem above_refl (lo : Int) (m : Machine) : above lo m m := by
  unfold above
  simp

theorem above_of_append (lo : Int) (m m1 : Machine) (es : List Event) (hb : m.brk ≤ m1.brk)
    (ht : m1.trace = m.trace ++ es) (he : ∀ e ∈ es, lo ≤ e.addr) : above lo m m1 := by
  unfold above
  rw [ht]
  simp
  exact ⟨hb, he⟩

theorem above_append (lo : Int) (m m1 : Machine) (h : above lo m m1) :
    ∃ es, m1.trace = m.trace ++ es ∧ ∀ e ∈ es, lo ≤ e.addr := by
  obtain ⟨-, h2, h3⟩ := h
  refine ⟨m1.trace.drop m.trace.length, ?_, h3⟩
  conv_lhs => rw [← List.take_append_drop m.trace.length m1.trace]
  rw [h2]

theorem above_trans (lo : Int) (a b c : Machine) (h1 : above lo a b) (h2 : above lo b c) :
    above lo a c := by
  obtain ⟨e1, t1, a1⟩ := above_append lo a b h1
  obtain ⟨e2, t2, a2⟩ := above_append lo b c h2
  refine above_of_append lo a c (e1 ++ e2) (le_trans h1.1 h2.1) (by rw [t2, t1, List.append_assoc]) ?_
  intro e he
  rcases List.mem_append.mp he with h | h
  · exact a1 e h
  · exact a2 e h

theorem above_mono (lo lo1 : Int) (m m1 : Machine) (hl : lo1 ≤ lo) (h : above lo m m1) :
    above lo1 m m1 :=
  ⟨h.1, h.2.1, fun e he => le_trans hl (h.2.2 e he)⟩

theorem assign_above {T : Type} (lo : Int) (m : Machine) (base : Int) (slots : List (Slot T))
    (p : Int) (x : T) (h : lo ≤ base) : above lo m (assign m base slots p x).mach := by
  unfold assign
  split
  · exact above_refl lo m
  · split
    · exact above_refl lo m
    · refine above_of_append lo m _ [Event.assign p _] (le_refl _) rfl ?_
      intro e he
      simp at he
      subst he
      simp only [Event.addr]
      omega

theorem construct_at_above {T : Type} (lo : Int) (m : Machine) (base : Int)
    (slots : List (Slot T)) (p : Int) (x : T) (h : lo ≤ base) :
    above lo m (construct_at m base slots p x).mach := by
  unfold construct_at
  split
  · exact above_refl lo m
  · split
    · exact above_refl lo m
    · split
      · exact above_of_append lo m _ [] (le_refl _) (by simp) (by simp)
      · refine above_of_append lo m _ [Event.construct p] (le_refl _) rfl ?_
        intro e he
        simp at he
        subst he
        simp only [Event.addr]
        omega

theorem destroy_at_above {T : Type} (lo : Int) (m : Machine) (base : Int)
    (slots : List (Slot T)) (p : Int) (h : lo ≤ base) :
    above lo m (destroy_at m base slots p).mach := by
  unfold destroy_at
  split
  · exact above_refl lo m
  · split
    · exact above_refl lo m
    · refine above_of_append lo m _ [Event.destroy p] (le_refl _) rfl ?_
      intro e he
      simp at he
      subst he
      simp only [Event.addr]
      omega

theorem move_assign_above {T : Type} (lo : Int) (m : Machine) (base : Int)
    (slots : List (Slot T)) (dst src : Int) (h : lo ≤ base) :
    above lo m (move_assign m base slots dst src).mach := by
  unfold move_assign
  split
  · exact above_refl lo m
  · exact assign_above lo m base slots dst _ h

theorem allocate_above {T : Type} (lo : Int) (m : Machine) (n : Nat) (h : lo ≤ (m.brk : Int) + 1) :
    above lo m (allocate m n : Machine × Int × List (Slot T)).1 := by
  refine above_of_append lo m _ [Event.allocate ((m.brk : Int) + 1) n] ?_ rfl ?_
  · simp only [allocate]; omega
  · intro e he
    simp at he
    subst he
    exact h

theorem deallocate_above (lo : Int) (m : Machine) (p : Int) (n : Nat) (h : lo ≤ p) :
    above lo m (deallocate m p n) := by
  refine above_of_append lo m _ [Event.deallocate p n] (le_refl _) rfl ?_
  intro e he
  simp at he
  subst he
  exact h

theorem relocate_above {T : Type} (lo : Int) (data_ : Int) (store : List (Slot T))
    (new_data : Int) (h : lo ≤ new_data) (todo : Nat) :
    ∀ (i : Nat) (m : Machine) (fresh : List (Slot T)),
      above lo m (relocate data_ store new_data todo i m fresh).1.mach := by
  induction todo with
  | zero => intro i m fresh; exact above_refl lo m
  | succ todo ih =>
    intro i m fresh
    unfold relocate
    split
    · exact above_refl lo m
    · simp only
      split
      · exact construct_at_above lo m new_data fresh _ _ h
      · exact above_trans lo _ _ _ (construct_at_above lo m new_data fresh _ _ h) (ih _ _ _)

theorem destroy_range_above {T : Type} (lo : Int) (base : Int) (h : lo ≤ base) (todo : Nat) :
    ∀ (j : Nat) (m : Machine) (slots : List (Slot T)),
      above lo m (destroy_range base todo j m slots).mach := by
  induction todo with
  | zero => intro j m slots; exact above_refl lo m
  | succ todo ih =>
    intro j m slots
    unfold destroy_range
    simp only
    split
    · exact destroy_at_above lo m base slots _ h
    · exact above_trans lo _ _ _ (destroy_at_above lo m base slots _ h) (ih _ _ _)

theorem construct_list_above {T : Type} (lo : Int) (base : Int) (h : lo ≤ base) (xs : List T) :
    ∀ (i : Nat) (m : Machine) (slots : List (Slot T)),
      above lo m (construct_list base xs i m slots).1.mach := by
  induction xs with
  | nil => intro i m slots; exact above_refl lo m
  | cons x xs ih =>
    intro i m slots
    unfold construct_list
    simp only
    split
    · exact construct_at_above lo m base slots _ _ h
    · exact above_trans lo _ _ _ (construct_at_above lo m base slots _ _ h) (ih _ _ _)

theorem construct_fill_above {T : Type} (lo : Int) (base : Int) (h : lo ≤ base) (x : T)
    (todo i : Nat) (m : Machine) (slots : List (Slot T)) :
    above lo m (construct_fill base x todo i m slots).1.mach := by
  rw [construct_fill_eq_list]
  exact construct_list_above lo base h _ i m slots

theorem construct_from_above {T : Type} (lo : Int) (base : Int) (h : lo ≤ base)
    (value : Ref T) (todo : Nat) :
    ∀ (i : Nat) (m : Machine) (slots : List (Slot T)),
      above lo m (construct_from base value todo i m slots).1.mach := by
  induction todo with
  | zero => intro i m slots; exact above_refl lo m
  | succ todo ih =>
    intro i m slots
    unfold construct_from
    split
    · exact above_refl lo m
    · simp only
      split
      · exact construct_at_above lo m base slots _ _ h
      · exact above_trans lo _ _ _ (construct_at_above lo m base slots _ _ h) (ih _ _ _)

theorem insert_shift_above {T : Type} (lo : Int) (base : Int) (h : lo ≤ base)
    (pos : vector_iterator) (fuel : Nat) :
    ∀ (it : vector_iterator) (m : Machine) (slots : List (Slot T)),
      above lo m (insert_shift base pos fuel it m slots).mach := by
  induction fuel with
  | zero =>
    intro it m slots
    unfold insert_shift
    split
    · simp only
      split
      · exact move_assign_above lo m base slots _ _ h
      · exact move_assign_above lo m base slots _ _ h
    · exact above_refl lo m
  | succ fuel ih =>
    intro it m slots
    unfold insert_shift
    split
    · simp only
      split
      · exact move_assign_above lo m base slots _ _ h
      · exact above_trans lo _ _ _ (move_assign_above lo m base slots _ _ h) (ih _ _ _)
    · exact above_refl lo m

theorem erase_shift_above {T : Type} (lo : Int) (base : Int) (h : lo ≤ base)
    (stop : vector_iterator) (fuel : Nat) :
    ∀ (it : vector_iterator) (m : Machine) (slots : List (Slot T)),
      above lo m (erase_shift base stop fuel it m slots).mach := by
  induction fuel with
  | zero =>
    intro it m slots
    unfold erase_shift
    split
    · simp only
      split
      · exact move_assign_above lo m base slots _ _ h
      · exact move_assign_above lo m base slots _ _ h
    · exact above_refl lo m
  | succ fuel ih =>
    intro it m slots
    unfold erase_shift
    split
    · simp only
      split
      · exact move_assign_above lo m base slots _ _ h
      · exact above_trans lo _ _ _ (move_assign_above lo m base slots _ _ h) (ih _ _ _)
    · exact above_refl lo m

theorem erase_destroy_above {T : Type} (lo : Int) (base : Int) (h : lo ≤ base)
    (stop : vector_iterator) (fuel : Nat) :
    ∀ (it : vector_iterator) (m : Machine) (slots : List (Slot T)),
      above lo m (erase_destroy base stop fuel it m slots).mach := by
  induction fuel with
  | zero =>
    intro it m slots
    unfold erase_destroy
    split
    · simp only
      split
      · exact destroy_at_above lo m base slots _ h
      · exact destroy_at_above lo m base slots _ h
    · exact above_refl lo m
  | succ fuel ih =>
    intro it m slots
    unfold erase_destroy
    split
    · simp only
      split
      · exact destroy_at_above lo m base slots _ h
      · exact above_trans lo _ _ _ (destroy_at_above lo m base slots _ h) (ih _ _ _)
    · exact above_refl lo m

theorem std_move_above {T : Type} (lo : Int) (base : Int) (h : lo ≤ base) (count : Nat) :
    ∀ (first d_first : vector_iterator) (m : Machine) (slots : List (Slot T)),
      above lo m (std_move base count first d_first m slots).1.mach := by
  induction count with
  | zero => intro first d_first m slots; exact above_refl lo m
  | succ count ih =>
    intro first d_first m slots
    unfold std_move
    simp only
    split
    · exact move_assign_above lo m base slots _ _ h
    · exact above_trans lo _ _ _ (move_assign_above lo m base slots _ _ h) (ih _ _ _ _)

theorem reserve_shape {T : Type} (m : Machine) (v : vector T) (n : Nat) :
    (v.reserve m n).self.size_ = v.size_ ∧
    ((v.reserve m n).ret = .ok () → n ≤ (v.reserve m n).self.capacity_) ∧
    (((v.reserve m n).self.data_ = v.data_ ∧ (v.reserve m n).self.capacity_ = v.capacity_) ∨
      ((v.reserve m n).self.data_ = (m.brk : Int) + 1 ∧ (v.reserve m n).self.capacity_ = n ∧
        v.capacity_ < n)) := by
  unfold vector.reserve
  split
  · exact ⟨rfl, fun _ => by assumption, Or.inl ⟨rfl, rfl⟩⟩
  · simp only
    split
    · exact ⟨rfl, fun h => by simp at h, Or.inl ⟨rfl, rfl⟩⟩
    · split
      · exact ⟨rfl, fun h => by simp at h, Or.inl ⟨rfl, rfl⟩⟩
      · exact ⟨rfl, fun h => by simp at h, Or.inl ⟨rfl, rfl⟩⟩
    · split
      · exact ⟨rfl, fun h => by simp at h, Or.inl ⟨rfl, rfl⟩⟩
      · exact ⟨rfl, fun _ => le_refl _, Or.inr ⟨rfl, rfl, by omega⟩⟩

theorem reserve_above {T : Type} (lo : Int) (m : Machine) (v : vector T) (n : Nat)
    (hlo : lo ≤ (m.brk : Int) + 1) (hv : lo ≤ v.data_) : above lo m (v.reserve m n).mach := by
  have ha := allocate_above (T := T) lo m n hlo
  have hr := relocate_above lo v.data_ v.store ((m.brk : Int) + 1) hlo v.size_ 0
    (allocate m n : Machine × Int × List (Slot T)).1 (allocate m n).2.2
  have h1 := above_trans lo _ _ _ ha hr
  unfold vector.reserve
  split
  · exact above_refl lo m
  · simp only
    split
    · exact h1
    · split
      · exact above_trans lo _ _ _ h1 (destroy_range_above lo _ hlo _ _ _ _)
      · exact above_trans lo _ _ _ (above_trans lo _ _ _ h1 (destroy_range_above lo _ hlo _ _ _ _))
          (deallocate_above lo _ _ _ hlo)
    · have h2 := above_trans lo _ _ _ h1 (destroy_range_above lo v.data_ hv v.size_ 0
          (relocate v.data_ v.store ((m.brk : Int) + 1) v.size_ 0
            (allocate m n : Machine × Int × List (Slot T)).1 (allocate m n).2.2).1.mach v.store)
      split
      · exact h2
      · simp only
        split
        · exact above_trans lo _ _ _ h2 (deallocate_above lo _ _ _ hv)
        · exact h2

theorem shrink_to_fit_shape {T : Type} (m : Machine) (v : vector T) :
    (v.shrink_to_fit m).self.size_ = v.size_ ∧
    (((v.shrink_to_fit m).self.data_ = v.data_ ∧
        (v.shrink_to_fit m).self.capacity_ = v.capacity_) ∨
      ((v.shrink_to_fit m).self.data_ = (m.brk : Int) + 1 ∧
        (v.shrink_to_fit m).self.capacity_ = v.size_)) := by
  unfold vector.shrink_to_fit
  split
  · exact ⟨rfl, Or.inl ⟨rfl, rfl⟩⟩
  · simp only
    split
    · exact ⟨rfl, Or.inl ⟨rfl, rfl⟩⟩
    · split
      · exact ⟨rfl, Or.inl ⟨rfl, rfl⟩⟩
      · exact ⟨rfl, Or.inl ⟨rfl, rfl⟩⟩
    · split
      · exact ⟨rfl, Or.inl ⟨rfl, rfl⟩⟩
      · exact ⟨rfl, Or.inr ⟨rfl, rfl⟩⟩

/-- What `if (size_ == capacity_) __maybe_resize()` leaves: the length, and room for one more
element when it returns. -/
theorem grow_shape {T : Type} (m : Machine) (v : vector T) (h : v.size_ ≤ v.capacity_) :
    ((if v.size_ = v.capacity_ then vector.__maybe_resize m v
        else (⟨.ok (), m, v⟩ : Result T Unit))).self.size_ = v.size_ ∧
    (((if v.size_ = v.capacity_ then vector.__maybe_resize m v
        else (⟨.ok (), m, v⟩ : Result T Unit))).ret = .ok () →
      v.size_ < ((if v.size_ = v.capacity_ then vector.__maybe_resize m v
        else (⟨.ok (), m, v⟩ : Result T Unit))).self.capacity_) ∧
    v.size_ ≤ ((if v.size_ = v.capacity_ then vector.__maybe_resize m v
        else (⟨.ok (), m, v⟩ : Result T Unit))).self.capacity_ := by
  by_cases hfull : v.size_ = v.capacity_
  · rw [if_pos hfull]
    unfold vector.__maybe_resize
    have hn : v.capacity_ < (if v.capacity_ = 0 then 1 else v.capacity_ * 2) := by
      split <;> omega
    generalize (if v.capacity_ = 0 then 1 else v.capacity_ * 2) = n at hn
    obtain ⟨h1, h2, h3⟩ := reserve_shape m v n
    refine ⟨h1, ?_, ?_⟩
    · intro hok
      have := h2 hok
      omega
    · rcases h3 with ⟨-, h3⟩ | ⟨-, h3, h4⟩ <;> omega
  · rw [if_neg hfull]
    exact ⟨rfl, fun _ => by simp only; omega, h⟩

theorem grow_place {T : Type} (m : Machine) (v : vector T) :
    (((if v.size_ = v.capacity_ then vector.__maybe_resize m v
        else (⟨.ok (), m, v⟩ : Result T Unit))).self.data_ = v.data_ ∧
      ((if v.size_ = v.capacity_ then vector.__maybe_resize m v
        else (⟨.ok (), m, v⟩ : Result T Unit))).self.capacity_ = v.capacity_) ∨
    ((if v.size_ = v.capacity_ then vector.__maybe_resize m v
        else (⟨.ok (), m, v⟩ : Result T Unit))).self.data_ = (m.brk : Int) + 1 := by
  by_cases hfull : v.size_ = v.capacity_
  · rw [if_pos hfull]
    unfold vector.__maybe_resize
    rcases (reserve_shape m v (if v.capacity_ = 0 then 1 else v.capacity_ * 2)).2.2 with h | h
    · exact Or.inl h
    · exact Or.inr h.1
  · rw [if_neg hfull]
    exact Or.inl ⟨rfl, rfl⟩

theorem grow_above {T : Type} (lo : Int) (m : Machine) (v : vector T)
    (hlo : lo ≤ (m.brk : Int) + 1) (hv : lo ≤ v.data_) :
    above lo m ((if v.size_ = v.capacity_ then vector.__maybe_resize m v
        else (⟨.ok (), m, v⟩ : Result T Unit))).mach := by
  by_cases hfull : v.size_ = v.capacity_
  · rw [if_pos hfull]
    exact reserve_above lo m v _ hlo hv
  · rw [if_neg hfull]
    exact above_refl lo m

theorem push_back_keeps {T : Type} (m : Machine) (v : vector T) (value : Ref T) (lo : Int) :
    (v.size_ ≤ v.capacity_ →
      (v.push_back m value).self.size_ ≤ (v.push_back m value).self.capacity_) ∧
    (((v.push_back m value).self.data_ = v.data_ ∧
        (v.push_back m value).self.capacity_ = v.capacity_) ∨
      (v.push_back m value).self.data_ = (m.brk : Int) + 1) ∧
    (lo ≤ (m.brk : Int) + 1 → lo ≤ v.data_ → above lo m (v.push_back m value).mach) := by
  have hs := grow_shape m v
  have hp := grow_place m v
  have ha := grow_above lo m v
  unfold vector.push_back
  simp only
  generalize (if v.size_ = v.capacity_ then vector.__maybe_resize m v
        else (⟨.ok (), m, v⟩ : Result T Unit)) = g at hs hp ha
  have hbase : lo ≤ (m.brk : Int) + 1 → lo ≤ v.data_ → lo ≤ g.self.data_ := by
    intro h1 h2
    rcases hp with ⟨h, -⟩ | h <;> omega
  split
  · exact ⟨fun h => by have := hs h; simp only; omega, hp, ha⟩
  · rename_i hok
    split
    · exact ⟨fun h => by have := hs h; simp only; omega, hp, ha⟩
    · split
      · refine ⟨fun h => by have := hs h; simp only; omega, hp, ?_⟩
        intro h1 h2
        exact above_trans lo _ _ _ (ha h1 h2) (construct_at_above lo _ _ _ _ _ (hbase h1 h2))
      · refine ⟨fun h => by have := (hs h).2.1 hok; have := (hs h).1; simp only; omega, hp, ?_⟩
        intro h1 h2
        exact above_trans lo _ _ _ (ha h1 h2) (construct_at_above lo _ _ _ _ _ (hbase h1 h2))

theorem insert_keeps {T : Type} (m : Machine) (v : vector T) (pos : vector_iterator)
    (value : Ref T) (lo : Int) :
    (v.size_ ≤ v.capacity_ →
      (v.insert m pos value).self.size_ ≤ (v.insert m pos value).self.capacity_) ∧
    (((v.insert m pos value).self.data_ = v.data_ ∧
        (v.insert m pos value).self.capacity_ = v.capacity_) ∨
      (v.insert m pos value).self.data_ = (m.brk : Int) + 1) ∧
    (lo ≤ (m.brk : Int) + 1 → lo ≤ v.data_ → above lo m (v.insert m pos value).mach) := by
  have hs := grow_shape m v
  have hp := grow_place m v
  have ha := grow_above lo m v
  unfold vector.insert
  simp only
  generalize (if v.size_ = v.capacity_ then vector.__maybe_resize m v
        else (⟨.ok (), m, v⟩ : Result T Unit)) = g at hs hp ha
  have hbase : lo ≤ (m.brk : Int) + 1 → lo ≤ v.data_ → lo ≤ g.self.data_ := by
    intro h1 h2
    rcases hp with ⟨h, -⟩ | h <;> omega
  split
  · exact ⟨fun h => by have := hs h; simp only; omega, hp, ha⟩
  · rename_i hok
    split
    · refine ⟨fun h => by have := hs h; simp only; omega, hp, ?_⟩
      intro h1 h2
      exact above_trans lo _ _ _ (ha h1 h2)
        (insert_shift_above lo _ (hbase h1 h2) _ _ _ _ _)
    · split
      · refine ⟨fun h => by have := hs h; simp only; omega, hp, ?_⟩
        intro h1 h2
        exact above_trans lo _ _ _ (ha h1 h2)
          (insert_shift_above lo _ (hbase h1 h2) _ _ _ _ _)
      · split
        · refine ⟨fun h => by have := hs h; simp only; omega, hp, ?_⟩
          intro h1 h2
          exact above_trans lo _ _ _ (above_trans lo _ _ _ (ha h1 h2)
            (insert_shift_above lo _ (hbase h1 h2) _ _ _ _ _))
            (assign_above lo _ _ _ _ _ (hbase h1 h2))
        · refine ⟨fun h => by have := (hs h).2.1 hok; have := (hs h).1; simp only; omega,
            hp, ?_⟩
          intro h1 h2
          exact above_trans lo _ _ _ (above_trans lo _ _ _ (ha h1 h2)
            (insert_shift_above lo _ (hbase h1 h2) _ _ _ _ _))
            (assign_above lo _ _ _ _ _ (hbase h1 h2))

theorem size_t_sub_le (a : Nat) (d : Int) (h0 : 0 ≤ d) (h1 : d ≤ a) (ha : a < 2 ^ 64) :
    size_t_sub a d ≤ a := by
  have hd : d = ((d.toNat : Nat) : Int) := by omega
  rw [hd, size_t_sub_small a d.toNat (by omega) ha]
  omega

theorem erase_keeps {T : Type} (m : Machine) (v : vector T) (pos : vector_iterator) (lo : Int) :
    (v.size_ ≤ v.capacity_ → 0 < v.size_ → v.size_ < 2 ^ 64 →
      (v.erase m pos).self.size_ ≤ (v.erase m pos).self.capacity_) ∧
    ((v.erase m pos).self.data_ = v.data_ ∧ (v.erase m pos).self.capacity_ = v.capacity_) ∧
    (lo ≤ v.data_ → above lo m (v.erase m pos).mach) := by
  have hsub : v.size_ ≤ v.capacity_ → 0 < v.size_ → v.size_ < 2 ^ 64 →
      size_t_sub v.size_ 1 ≤ v.capacity_ := by
    intro h1 h2 h3
    have := size_t_sub_le v.size_ 1 (by omega) (by omega) h3
    omega
  unfold vector.erase
  simp only
  split
  · exact ⟨fun h _ _ => h, ⟨rfl, rfl⟩, fun h => erase_shift_above lo _ h _ _ _ _ _⟩
  · split
    · refine ⟨hsub, ⟨rfl, rfl⟩, fun h => ?_⟩
      exact above_trans lo _ _ _ (erase_shift_above lo _ h _ _ _ _ _)
        (destroy_at_above lo _ _ _ _ h)
    · refine ⟨hsub, ⟨rfl, rfl⟩, fun h => ?_⟩
      exact above_trans lo _ _ _ (erase_shift_above lo _ h _ _ _ _ _)
        (destroy_at_above lo _ _ _ _ h)

theorem erase_range_keeps {T : Type} (m : Machine) (v : vector T)
    (first last : vector_iterator) (lo : Int) :
    (v.size_ ≤ v.capacity_ → first.ptr_ ≤ last.ptr_ →
      last.ptr_ - first.ptr_ ≤ (v.size_ : Int) → v.size_ < 2 ^ 64 →
      (v.erase_range m first last).self.size_ ≤ (v.erase_range m first last).self.capacity_) ∧
    ((v.erase_range m first last).self.data_ = v.data_ ∧
      (v.erase_range m first last).self.capacity_ = v.capacity_) ∧
    (lo ≤ v.data_ → above lo m (v.erase_range m first last).mach) := by
  have hsub : v.size_ ≤ v.capacity_ → first.ptr_ ≤ last.ptr_ →
      last.ptr_ - first.ptr_ ≤ (v.size_ : Int) → v.size_ < 2 ^ 64 →
      size_t_sub v.size_ (last.diff first) ≤ v.capacity_ := by
    intro h1 h2 h3 h4
    have := size_t_sub_le v.size_ (last.diff first) (by unfold vector_iterator.diff; omega)
      (by unfold vector_iterator.diff; omega) h4
    omega
  unfold vector.erase_range
  split
  · exact ⟨fun h _ _ _ => h, ⟨rfl, rfl⟩, fun _ => above_refl lo m⟩
  · split
    · exact ⟨fun h _ _ _ => h, ⟨rfl, rfl⟩, fun _ => above_refl lo m⟩
    · simp only
      split
      · exact ⟨fun h _ _ _ => h, ⟨rfl, rfl⟩, fun h => std_move_above lo _ h _ _ _ _ _⟩
      · split
        · refine ⟨fun h _ _ _ => h, ⟨rfl, rfl⟩, fun h => ?_⟩
          exact above_trans lo _ _ _ (std_move_above lo _ h _ _ _ _ _)
            (erase_destroy_above lo _ h _ _ _ _ _)
        · refine ⟨hsub, ⟨rfl, rfl⟩, fun h => ?_⟩
          exact above_trans lo _ _ _ (std_move_above lo _ h _ _ _ _ _)
            (erase_destroy_above lo _ h _ _ _ _ _)

theorem clear_keeps {T : Type} (m : Machine) (v : vector T) (lo : Int) :
    (v.size_ ≤ v.capacity_ → (v.clear m).self.size_ ≤ (v.clear m).self.capacity_) ∧
    ((v.clear m).self.data_ = v.data_ ∧ (v.clear m).self.capacity_ = v.capacity_) ∧
    (lo ≤ v.data_ → above lo m (v.clear m).mach) ∧
    (v.clear m).mach.brk = m.brk ∧
    ((v.clear m).ret = .ok () → (v.clear m).self.size_ = 0) := by
  have hb : ∀ (todo j : Nat) (m : Machine) (slots : List (Slot T)),
      (destroy_range v.data_ todo j m slots).mach.brk = m.brk := by
    intro todo
    induction todo with
    | zero => intro j m slots; rfl
    | succ todo ih =>
      intro j m slots
      have hd : (destroy_at m v.data_ slots (v.data_ + (j : Int))).mach.brk = m.brk := by
        unfold destroy_at
        split
        · rfl
        · split <;> rfl
      unfold destroy_range
      simp only
      split
      · exact hd
      · rw [ih, hd]
  unfold vector.clear
  simp only
  split
  · rename_i e he
    exact ⟨fun h => h, ⟨rfl, rfl⟩, fun h => destroy_range_above lo _ h _ _ _ _, hb _ _ _ _,
      fun h => by simp at h⟩
  · exact ⟨fun _ => Nat.zero_le _, ⟨rfl, rfl⟩, fun h => destroy_range_above lo _ h _ _ _ _,
      hb _ _ _ _, fun _ => rfl⟩

theorem write_keeps {T : Type} (m : Machine) (v : vector T) (index : Nat) (x : T) (lo : Int) :
    ((v.write m index x).self.size_ = v.size_) ∧
    ((v.write m index x).self.data_ = v.data_ ∧
      (v.write m index x).self.capacity_ = v.capacity_) ∧
    (lo ≤ v.data_ → above lo m (v.write m index x).mach) :=
  ⟨rfl, ⟨rfl, rfl⟩, fun h => assign_above lo _ _ _ _ _ h⟩

theorem resize_fill_keeps {T : Type} (m : Machine) (v : vector T) (n : Nat) (value : Ref T)
    (lo : Int) :
    (v.size_ ≤ v.capacity_ →
      (v.resize_fill m n value).self.size_ ≤ (v.resize_fill m n value).self.capacity_) ∧
    (((v.resize_fill m n value).self.data_ = v.data_ ∧
        (v.resize_fill m n value).self.capacity_ = v.capacity_) ∨
      (v.resize_fill m n value).self.data_ = (m.brk : Int) + 1) ∧
    (lo ≤ (m.brk : Int) + 1 → lo ≤ v.data_ → above lo m (v.resize_fill m n value).mach) := by
  obtain ⟨r1, r2, r3⟩ := reserve_shape m v n
  have ra := reserve_above lo m v n
  have hp : ((v.reserve m n).self.data_ = v.data_ ∧
        (v.reserve m n).self.capacity_ = v.capacity_) ∨
      (v.reserve m n).self.data_ = (m.brk : Int) + 1 := by
    rcases r3 with h | h
    · exact Or.inl h
    · exact Or.inr h.1
  have hbase : lo ≤ (m.brk : Int) + 1 → lo ≤ v.data_ → lo ≤ (v.reserve m n).self.data_ := by
    intro h1 h2
    rcases hp with ⟨h, -⟩ | h <;> omega
  have hcap : v.size_ ≤ v.capacity_ →
      (v.reserve m n).self.size_ ≤ (v.reserve m n).self.capacity_ := by
    intro h
    rcases r3 with ⟨-, h3⟩ | ⟨-, h3, h4⟩ <;> omega
  unfold vector.resize_fill
  split
  · simp only
    split
    · exact ⟨fun h => h, Or.inl ⟨rfl, rfl⟩, fun _ h => destroy_range_above lo _ h _ _ _ _⟩
    · exact ⟨fun h => by simp only; omega, Or.inl ⟨rfl, rfl⟩,
        fun _ h => destroy_range_above lo _ h _ _ _ _⟩
  · split
    · simp only
      split
      · exact ⟨hcap, hp, ra⟩
      · rename_i hok
        split
        · refine ⟨hcap, hp, fun h1 h2 => ?_⟩
          exact above_trans lo _ _ _ (ra h1 h2)
            (construct_from_above lo _ (hbase h1 h2) _ _ _ _ _)
        · refine ⟨fun _ => r2 hok, hp, fun h1 h2 => ?_⟩
          exact above_trans lo _ _ _ (ra h1 h2)
            (construct_from_above lo _ (hbase h1 h2) _ _ _ _ _)
    · exact ⟨fun h => by simp only; omega, Or.inl ⟨rfl, rfl⟩, fun _ _ => above_refl lo m⟩

theorem ctor_range_shape {T : Type} (m : Machine) (xs : List T) (w : vector T)
    (h : (vector.ctor_range m xs).ret = .ok w) :
    w.data_ = (m.brk : Int) + 1 ∧ w.size_ = xs.length ∧ w.capacity_ = xs.length := by
  unfold vector.ctor_range at h
  simp only at h
  split at h
  · simp at h
  · split at h <;> simp at h
  · simp only [Except.ok.injEq] at h
    subst h
    exact ⟨rfl, rfl, rfl⟩

theorem ctor_fill_shape {T : Type} (m : Machine) (count : Nat) (x : T) (w : vector T)
    (h : (vector.ctor_fill m count x).ret = .ok w) :
    w.data_ = (m.brk : Int) + 1 ∧ w.size_ = count ∧ w.capacity_ = count := by
  rw [ctor_fill_eq_range] at h
  have := ctor_range_shape m _ w h
  simpa using this

theorem ctor_copy_shape {T : Type} (m : Machine) (other w : vector T)
    (h : (vector.ctor_copy m other).ret = .ok w) :
    w.data_ = (m.brk : Int) + 1 ∧ w.size_ = other.size_ ∧ w.capacity_ = other.capacity_ := by
  unfold vector.ctor_copy at h
  simp only at h
  split at h
  · simp at h
  · split at h <;> simp at h
  · simp only [Except.ok.injEq] at h
    subst h
    exact ⟨rfl, rfl, rfl⟩

theorem assign_move_keeps {T : Type} (m : Machine) (self other : vector T) (same : Bool) :
    (self.size_ ≤ self.capacity_ → other.size_ ≤ other.capacity_ →
      (vector.assign_move m self other same).self.size_
          ≤ (vector.assign_move m self other same).self.capacity_ ∧
      (vector.assign_move m self other same).other.size_
          ≤ (vector.assign_move m self other same).other.capacity_) ∧
    ((self.data_ = 0 → self.capacity_ = 0) → (other.data_ = 0 → other.capacity_ = 0) →
      ((vector.assign_move m self other same).self.data_ = 0 →
        (vector.assign_move m self other same).self.capacity_ = 0) ∧
      ((vector.assign_move m self other same).other.data_ = 0 →
        (vector.assign_move m self other same).other.capacity_ = 0)) := by
  obtain ⟨c1, ⟨c2, c3⟩, -, -, -⟩ := clear_keeps m self 0
  unfold vector.assign_move
  split
  · exact ⟨fun h1 h2 => ⟨h1, h2⟩, fun h1 h2 => ⟨h1, h2⟩⟩
  · simp only
    split
    · refine ⟨fun h1 h2 => ⟨c1 h1, h2⟩, fun h1 h2 => ⟨?_, h2⟩⟩
      rw [c2, c3]
      exact h1
    · exact ⟨fun _ h2 => ⟨h2, le_refl _⟩, fun _ h2 => ⟨h2, fun _ => rfl⟩⟩

theorem assign_copy_keeps {T : Type} (m : Machine) (self other : vector T) (same : Bool) :
    (self.size_ ≤ self.capacity_ → other.size_ ≤ other.capacity_ →
      (vector.assign_copy m self other same).self.size_
          ≤ (vector.assign_copy m self other same).self.capacity_) ∧
    ((self.data_ = 0 → self.capacity_ = 0) →
      (vector.assign_copy m self other same).self.data_ = 0 →
        (vector.assign_copy m self other same).self.capacity_ = 0) := by
  unfold vector.assign_copy
  split
  · exact ⟨fun h _ => h, fun h => h⟩
  · simp only
    split
    · exact ⟨fun h _ => h, fun h => h⟩
    · rename_i tmp htmp
      obtain ⟨t1, t2, t3⟩ := ctor_copy_shape m other tmp htmp
      obtain ⟨k1, k2⟩ := assign_move_keeps (vector.ctor_copy m other).mach self tmp false
      have hn : tmp.data_ = 0 → tmp.capacity_ = 0 := by
        intro h
        omega
      split
      · exact ⟨fun h1 h2 => (k1 h1 (by omega)).1, fun h => (k2 h hn).1⟩
      · split
        · exact ⟨fun h1 h2 => (k1 h1 (by omega)).1, fun h => (k2 h hn).1⟩
        · exact ⟨fun h1 h2 => (k1 h1 (by omega)).1, fun h => (k2 h hn).1⟩

theorem assign_list_keeps {T : Type} (m : Machine) (v : vector T) (ilist : List T) :
    (v.size_ ≤ v.capacity_ →
      (v.assign_list m ilist).self.size_ ≤ (v.assign_list m ilist).self.capacity_) ∧
    ((v.data_ = 0 → v.capacity_ = 0) →
      (v.assign_list m ilist).self.data_ = 0 → (v.assign_list m ilist).self.capacity_ = 0) := by
  obtain ⟨c1, ⟨c2, c3⟩, -, -, c5⟩ := clear_keeps m v 0
  unfold vector.assign_list
  simp only
  split
  · refine ⟨c1, fun h => ?_⟩
    rw [c2, c3]
    exact h
  · rename_i hok
    have hz := c5 hok
    by_cases hbig : ilist.length > (v.clear m).self.capacity_
    · simp only [if_pos hbig]
      split
      · refine ⟨fun _ => by simp only; omega, fun _ h => ?_⟩
        simp only [allocate] at h
        split at h <;> omega
      · refine ⟨fun _ => le_refl _, fun _ h => ?_⟩
        simp only [allocate] at h
        split at h <;> omega
    · simp only [if_neg hbig]
      split
      · refine ⟨fun _ => by simp only; omega, fun h => ?_⟩
        simp only
        rw [c2, c3]
        exact h
      · refine ⟨fun _ => by simp only; omega, fun h => ?_⟩
        simp only
        rw [c2, c3]
        exact h


theorem insert_move_eq {T : Type} (m : Machine) (v : vector T) (pos : vector_iterator) (x : T) :
    v.insert_move m pos (.object x) = v.insert m pos (.object x) := rfl

/-! ## Isolation of a copy, and the two invariants of the object -/

theorem apply_keeps {T : Type} [Inhabited T] (lo : Int) (m : Machine) (c : vector T)
    (op : Mutation T) (hlo : lo ≤ (m.brk : Int) + 1) (hc : lo ≤ c.data_) :
    above lo m (op.apply m c).mach ∧ lo ≤ (op.apply m c).self.data_ := by
  cases op with
  | write index value =>
    obtain ⟨-, ⟨h2, -⟩, h3⟩ := write_keeps m c index value lo
    exact ⟨h3 hc, by simp only [Mutation.apply]; omega⟩
  | push_back value =>
    obtain ⟨-, h2, h3⟩ := push_back_keeps m c value lo
    refine ⟨h3 hlo hc, ?_⟩
    simp only [Mutation.apply]
    rcases h2 with ⟨h, -⟩ | h <;> omega
  | insert pos value =>
    obtain ⟨-, h2, h3⟩ := insert_keeps m c pos value lo
    refine ⟨h3 hlo hc, ?_⟩
    simp only [Mutation.apply]
    rcases h2 with ⟨h, -⟩ | h <;> omega
  | erase pos =>
    obtain ⟨-, ⟨h2, -⟩, h3⟩ := erase_keeps m c pos lo
    exact ⟨h3 hc, by simp only [Mutation.apply]; omega⟩
  | erase_range first last =>
    obtain ⟨-, ⟨h2, -⟩, h3⟩ := erase_range_keeps m c first last lo
    exact ⟨h3 hc, by simp only [Mutation.apply]; omega⟩
  | resize new_size =>
    obtain ⟨-, h2, h3⟩ := resize_fill_keeps m c new_size (.object default) lo
    simp only [Mutation.apply, resize_eq]
    refine ⟨h3 hlo hc, ?_⟩
    rcases h2 with ⟨h, -⟩ | h <;> omega
  | resize_fill new_size value =>
    obtain ⟨-, h2, h3⟩ := resize_fill_keeps m c new_size value lo
    refine ⟨h3 hlo hc, ?_⟩
    simp only [Mutation.apply]
    rcases h2 with ⟨h, -⟩ | h <;> omega
  | clear =>
    obtain ⟨-, ⟨h2, -⟩, h3, -, -⟩ := clear_keeps m c lo
    exact ⟨h3 hc, by simp only [Mutation.apply]; omega⟩

theorem mutate_above {T : Type} [Inhabited T] (lo : Int) (ops : List (Mutation T)) :
    ∀ (m : Machine) (c : vector T), lo ≤ (m.brk : Int) + 1 → lo ≤ c.data_ →
      above lo m (mutate m c ops).1 ∧ lo ≤ (mutate m c ops).2.data_ := by
  induction ops with
  | nil => intro m c _ hc; exact ⟨above_refl lo m, hc⟩
  | cons op ops ih =>
    intro m c hlo hc
    obtain ⟨h1, h2⟩ := apply_keeps lo m c op hlo hc
    have hb : lo ≤ ((op.apply m c).mach.brk : Int) + 1 := by
      have := h1.1
      omega
    obtain ⟨h3, h4⟩ := ih (op.apply m c).mach (op.apply m c).self hb h2
    unfold mutate
    simp only
    split
    · exact ⟨h1, h2⟩
    · exact ⟨above_trans lo _ _ _ h1 h3, h4⟩

theorem ctor_copy_above {T : Type} (lo : Int) (m : Machine) (other : vector T)
    (hlo : lo ≤ (m.brk : Int) + 1) : above lo m (vector.ctor_copy m other).mach := by
  have ha := allocate_above (T := T) lo m other.capacity_ hlo
  have hr := relocate_above lo other.data_ other.store ((m.brk : Int) + 1) hlo other.size_ 0
    (allocate m other.capacity_ : Machine × Int × List (Slot T)).1
    (allocate m other.capacity_).2.2
  have h1 := above_trans lo _ _ _ ha hr
  unfold vector.ctor_copy
  simp only
  split
  · exact h1
  · split
    · exact above_trans lo _ _ _ h1 (destroy_range_above lo _ hlo _ _ _ _)
    · exact above_trans lo _ _ _ (above_trans lo _ _ _ h1 (destroy_range_above lo _ hlo _ _ _ _))
        (deallocate_above lo _ _ _ hlo)
  · exact h1

/-- C12: when the copy constructor is given a vector `v` whose block lies in storage already
handed out, it returns a vector `c` with the `size()` and the elements of `v` in order, in a
block of its own; and whatever sequence of writes through `operator[]`, `push_back`, `insert`,
`erase`, `resize` and `clear` the program then makes on `c`, every storage event from the copy
on (allocation, release, construction, destruction, assignment) concerns an address past the
end of the block of `v`, and the block `c` ends up with lies past it too.  The calls take and
return only `c`: the members and the cells of `v` are not touched. -/
theorem C12_copy_is_isolated (T : Type) [Inhabited T] (m : Machine) (v : vector T)
    (s : List T) (ops : List (Mutation T)) (hwf : v.wf) (hc : v.contents = s.map some)
    (hs : ∀ b ∈ m.script.take v.size_, b = false)
    (hblock : v.data_ + (v.capacity_ : Int) ≤ (m.brk : Int) + 1) :
    ∃ c, (vector.ctor_copy m v).ret = .ok c ∧
      c.size = v.size ∧ c.contents = v.contents ∧
      above (v.data_ + (v.capacity_ : Int)) m (mutate (vector.ctor_copy m v).mach c ops).1 ∧
      v.data_ + (v.capacity_ : Int) ≤ (mutate (vector.ctor_copy m v).mach c ops).2.data_ := by
  have hcopy := ctor_copy_ok m v s hwf hc hs
  have ha := ctor_copy_above (v.data_ + (v.capacity_ : Int)) m v hblock
  refine ⟨⟨(m.brk : Int) + 1, v.size_, v.capacity_, filled s v.capacity_ v.size_⟩,
    by rw [hcopy], rfl, ?_, ?_⟩
  · rw [hc]
    exact (copy_contents v s _ hwf hc).1
  · have hb : v.data_ + (v.capacity_ : Int) ≤ ((vector.ctor_copy m v).mach.brk : Int) + 1 := by
      have := ha.1
      omega
    obtain ⟨h1, h2⟩ := mutate_above (v.data_ + (v.capacity_ : Int)) ops
      (vector.ctor_copy m v).mach
      ⟨(m.brk : Int) + 1, v.size_, v.capacity_, filled s v.capacity_ v.size_⟩ hb hblock
    exact ⟨above_trans _ _ _ _ ha h1, h2⟩

theorem C12_copy_is_isolated_witness :
    ∃ c, (vector.ctor_copy ⟨[], 9, []⟩
        (vector.mk 3 2 2 [⟨some 10, true⟩, ⟨some 40, true⟩] : vector Nat)).ret = .ok c ∧
      c.size = 2 ∧ c.contents = [some 10, some 40] ∧
      above ((3 : Int) + ((2 : Nat) : Int)) ⟨[], 9, []⟩
        (mutate (vector.ctor_copy ⟨[], 9, []⟩
          (vector.mk 3 2 2 [⟨some 10, true⟩, ⟨some 40, true⟩] : vector Nat)).mach c
          [Mutation.write 0 7, Mutation.push_back (.object 5), Mutation.insert ⟨14⟩ (.object 6),
            Mutation.erase ⟨14⟩, Mutation.resize 6, Mutation.clear]).1 ∧
      (3 : Int) + ((2 : Nat) : Int) ≤ (mutate (vector.ctor_copy ⟨[], 9, []⟩
          (vector.mk 3 2 2 [⟨some 10, true⟩, ⟨some 40, true⟩] : vector Nat)).mach c
          [Mutation.write 0 7, Mutation.push_back (.object 5), Mutation.insert ⟨14⟩ (.object 6),
            Mutation.erase ⟨14⟩, Mutation.resize 6, Mutation.clear]).2.data_ :=
  C12_copy_is_isolated Nat ⟨[], 9, []⟩ ⟨3, 2, 2, [⟨some 10, true⟩, ⟨some 40, true⟩]⟩ [10, 40]
    [Mutation.write 0 7, Mutation.push_back (.object 5), Mutation.insert ⟨14⟩ (.object 6),
      Mutation.erase ⟨14⟩, Mutation.resize 6, Mutation.clear]
    (by decide) (by decide) (by decide) (by decide)

/-- C16: the default constructor gives length 0 and capacity 0; the vector a sized, fill or
range constructor returns has `size() <= capacity()`, and so has the one the copy or move
constructor makes from a vector with `size() <= capacity()`; and from a vector with
`size() <= capacity()` each of `push_back` (both overloads), `emplace_back`, `insert` (both
overloads), `erase` at a position of the vector, `erase` of a range of the vector, `resize`
(both overloads), `reserve`, `shrink_to_fit`, `clear` and the three assignments leaves a vector
with `size() <= capacity()`, whether the call returns or throws and whatever its reference
argument refers to. -/
theorem C16_length_le_capacity (T : Type) [Inhabited T] :
    (vector.mk_default T).size ≤ (vector.mk_default T).capacity ∧
    (∀ (m : Machine) (n : Nat) (w : vector T),
      (vector.ctor_sized m n : Built T).ret = .ok w → w.size ≤ w.capacity) ∧
    (∀ (m : Machine) (n : Nat) (x : T) (w : vector T),
      (vector.ctor_fill m n x).ret = .ok w → w.size ≤ w.capacity) ∧
    (∀ (m : Machine) (xs : List T) (w : vector T),
      (vector.ctor_range m xs).ret = .ok w → w.size ≤ w.capacity) ∧
    (∀ (m : Machine) (other w : vector T), other.size ≤ other.capacity →
      (vector.ctor_copy m other).ret = .ok w → w.size ≤ w.capacity) ∧
    (∀ (other : vector T), other.size ≤ other.capacity →
      (vector.ctor_move other).1.size ≤ (vector.ctor_move other).1.capacity ∧
      (vector.ctor_move other).2.size ≤ (vector.ctor_move other).2.capacity) ∧
    (∀ (m : Machine) (v : vector T), v.size ≤ v.capacity →
      (∀ x, (v.push_back m x).self.size ≤ (v.push_back m x).self.capacity) ∧
      (∀ x, (v.push_back_move m x).self.size ≤ (v.push_back_move m x).self.capacity) ∧
      (∀ x, (v.emplace_back m x).self.size ≤ (v.emplace_back m x).self.capacity) ∧
      (∀ pos x, (v.insert m pos x).self.size ≤ (v.insert m pos x).self.capacity) ∧
      (∀ pos x, (v.insert_move m pos x).self.size ≤ (v.insert_move m pos x).self.capacity) ∧
      (∀ pos, v.begin.ptr_ ≤ pos.ptr_ → pos.ptr_ < v.end.ptr_ → v.size < 2 ^ 64 →
        (v.erase m pos).self.size ≤ (v.erase m pos).self.capacity) ∧
      (∀ first last, v.begin.ptr_ ≤ first.ptr_ → first.ptr_ ≤ last.ptr_ →
        last.ptr_ ≤ v.end.ptr_ → v.size < 2 ^ 64 →
        (v.erase_range m first last).self.size ≤ (v.erase_range m first last).self.capacity) ∧
      (∀ n, (v.resize m n).self.size ≤ (v.resize m n).self.capacity) ∧
      (∀ n x, (v.resize_fill m n x).self.size ≤ (v.resize_fill m n x).self.capacity) ∧
      (∀ n, (v.reserve m n).self.size ≤ (v.reserve m n).self.capacity) ∧
      (v.shrink_to_fit m).self.size ≤ (v.shrink_to_fit m).self.capacity ∧
      (v.clear m).self.size ≤ (v.clear m).self.capacity ∧
      (∀ other same, other.size ≤ other.capacity →
        (vector.assign_copy m v other same).self.size
          ≤ (vector.assign_copy m v other same).self.capacity) ∧
      (∀ other same, other.size ≤ other.capacity →
        (vector.assign_move m v other same).self.size
          ≤ (vector.assign_move m v other same).self.capacity ∧
        (vector.assign_move m v other same).other.size
          ≤ (vector.assign_move m v other same).other.capacity) ∧
      (∀ l, (v.assign_list m l).self.size ≤ (v.assign_list m l).self.capacity)) := by
  refine ⟨le_refl _, ?_, ?_, ?_, ?_, ?_, ?_⟩
  · intro m n w h
    rw [ctor_sized_eq_fill] at h
    obtain ⟨-, h2, h3⟩ := ctor_fill_shape m n default w h
    simp only [vector.size, vector.capacity]
    omega
  · intro m n x w h
    obtain ⟨-, h2, h3⟩ := ctor_fill_shape m n x w h
    simp only [vector.size, vector.capacity]
    omega
  · intro m xs w h
    obtain ⟨-, h2, h3⟩ := ctor_range_shape m xs w h
    simp only [vector.size, vector.capacity]
    omega
  · intro m other w ho h
    obtain ⟨-, h2, h3⟩ := ctor_copy_shape m other w h
    simp only [vector.size, vector.capacity] at ho ⊢
    omega
  · intro other ho
    exact ⟨ho, le_refl _⟩
  · intro m v hv
    simp only [vector.size, vector.capacity, vector.begin, vector.end] at hv ⊢
    refine ⟨?_, ?_, ?_, ?_, ?_, ?_, ?_, ?_, ?_, ?_, ?_, ?_, ?_, ?_, ?_⟩
    · intro x
      exact (push_back_keeps m v x 0).1 hv
    · intro x
      exact (push_back_keeps m v x 0).1 hv
    · intro x
      exact (push_back_keeps m v x 0).1 hv
    · intro pos x
      exact (insert_keeps m v pos x 0).1 hv
    · intro pos x
      exact (insert_keeps m v pos x 0).1 hv
    · intro pos h1 h2 h3
      exact (erase_keeps m v pos 0).1 hv (by omega) h3
    · intro first last h1 h2 h3 h4
      exact (erase_range_keeps m v first last 0).1 hv h2 (by omega) h4
    · intro n
      rw [resize_eq]
      exact (resize_fill_keeps m v n (.object default) 0).1 hv
    · intro n x
      exact (resize_fill_keeps m v n x 0).1 hv
    · intro n
      obtain ⟨h1, -, h3⟩ := reserve_shape m v n
      rcases h3 with ⟨-, h3⟩ | ⟨-, h3, h4⟩ <;> omega
    · obtain ⟨h1, h3⟩ := shrink_to_fit_shape m v
      rcases h3 with ⟨-, h3⟩ | ⟨-, h3⟩ <;> omega
    · exact (clear_keeps m v 0).1 hv
    · intro other same ho
      exact (assign_copy_keeps m v other same).1 hv ho
    · intro other same ho
      exact (assign_move_keeps m v other same).1 hv ho
    · intro l
      exact (assign_list_keeps m v l).1 hv

theorem C16_length_le_capacity_witness :
    (vector.mk 1 3 3 [⟨some 0, true⟩, ⟨some 0, true⟩, ⟨some 0, true⟩] : vector Nat).size
      ≤ (vector.mk 1 3 3 [⟨some 0, true⟩, ⟨some 0, true⟩, ⟨some 0, true⟩] : vector Nat).capacity ∧
    ((vector.mk 7 2 2 [⟨some 10, true⟩, ⟨some 40, true⟩] : vector Nat).push_back
        ⟨[false, true], 9, []⟩ (.cell 7)).self.size
      ≤ ((vector.mk 7 2 2 [⟨some 10, true⟩, ⟨some 40, true⟩] : vector Nat).push_back
        ⟨[false, true], 9, []⟩ (.cell 7)).self.capacity ∧
    ((vector.mk 7 2 2 [⟨some 10, true⟩, ⟨some 40, true⟩] : vector Nat).erase
        ⟨[], 9, []⟩ ⟨7⟩).self.size
      ≤ ((vector.mk 7 2 2 [⟨some 10, true⟩, ⟨some 40, true⟩] : vector Nat).erase
        ⟨[], 9, []⟩ ⟨7⟩).self.capacity :=
  ⟨(C16_length_le_capacity Nat).2.1 ⟨[], 0, []⟩ 3
      ⟨1, 3, 3, [⟨some 0, true⟩, ⟨some 0, true⟩, ⟨some 0, true⟩]⟩ (by decide),
   ((C16_length_le_capacity Nat).2.2.2.2.2.2 ⟨[false, true], 9, []⟩
      ⟨7, 2, 2, [⟨some 10, true⟩, ⟨some 40, true⟩]⟩ (by decide)).1 (.cell 7),
   ((C16_length_le_capacity Nat).2.2.2.2.2.2 ⟨[], 9, []⟩
      ⟨7, 2, 2, [⟨some 10, true⟩, ⟨some 40, true⟩]⟩ (by decide)).2.2.2.2.2.1 ⟨7⟩
      (by decide) (by decide) (by decide)⟩

/-- C17, as stated, fails: the sized constructor with zero elements, the copy constructor on a
default-constructed vector, and `shrink_to_fit` on a vector of length 0 with capacity 2 each
leave a vector with `capacity() == 0` whose buffer pointer is not null. -/
theorem C17_null_iff_capacity_zero_counterexample :
    (vector.ctor_sized ⟨[], 0, []⟩ 0 : Built Nat).ret = .ok ⟨1, 0, 0, []⟩ ∧
    (vector.ctor_copy ⟨[], 0, []⟩ (vector.mk_default Nat)).ret = .ok ⟨1, 0, 0, []⟩ ∧
    ((vector.mk 5 0 2 [⟨none, false⟩, ⟨none, false⟩] : vector Nat).shrink_to_fit
        ⟨[], 20, []⟩).ret = .ok () ∧
    ((vector.mk 5 0 2 [⟨none, false⟩, ⟨none, false⟩] : vector Nat).shrink_to_fit
        ⟨[], 20, []⟩).self = ⟨21, 0, 0, []⟩ ∧
    ¬ ((vector.mk 1 0 0 [] : vector Nat).data_ = 0 ↔ (vector.mk 1 0 0 [] : vector Nat).capacity = 0) ∧
    ¬ ((vector.mk 21 0 0 [] : vector Nat).data_ = 0 ↔
        (vector.mk 21 0 0 [] : vector Nat).capacity = 0) := by
  decide

/-- C17, amended: a null buffer pointer implies `capacity() == 0` at every observable point.
The default constructor gives a null buffer with capacity 0; the sized, fill, range and copy
constructors return a vector whose buffer is not null, whatever the number of elements; the
move constructor and every member function (`push_back`, `emplace_back`, `insert`, `erase`,
`resize`, `reserve`, `shrink_to_fit`, `clear`, a write through `operator[]`, the three
assignments) take vectors in which a null buffer implies capacity 0 to vectors in which it
does, whether the call returns or throws and whatever its reference argument refers to. -/
theorem C17_null_buffer_has_no_capacity (T : Type) [Inhabited T] :
    ((vector.mk_default T).data_ = 0 ∧ (vector.mk_default T).capacity = 0) ∧
    (∀ (m : Machine) (n : Nat) (w : vector T),
      (vector.ctor_sized m n : Built T).ret = .ok w → w.data_ ≠ 0) ∧
    (∀ (m : Machine) (n : Nat) (x : T) (w : vector T),
      (vector.ctor_fill m n x).ret = .ok w → w.data_ ≠ 0) ∧
    (∀ (m : Machine) (xs : List T) (w : vector T),
      (vector.ctor_range m xs).ret = .ok w → w.data_ ≠ 0) ∧
    (∀ (m : Machine) (other w : vector T),
      (vector.ctor_copy m other).ret = .ok w → w.data_ ≠ 0) ∧
    (∀ (other : vector T), (other.data_ = 0 → other.capacity = 0) →
      ((vector.ctor_move other).1.data_ = 0 → (vector.ctor_move other).1.capacity = 0) ∧
      ((vector.ctor_move other).2.data_ = 0 → (vector.ctor_move other).2.capacity = 0)) ∧
    (∀ (m : Machine) (v : vector T), (v.data_ = 0 → v.capacity = 0) →
      (∀ x, (v.push_back m x).self.data_ = 0 → (v.push_back m x).self.capacity = 0) ∧
      (∀ x, (v.push_back_move m x).self.data_ = 0 → (v.push_back_move m x).self.capacity = 0) ∧
      (∀ x, (v.emplace_back m x).self.data_ = 0 → (v.emplace_back m x).self.capacity = 0) ∧
      (∀ pos x, (v.insert m pos x).self.data_ = 0 → (v.insert m pos x).self.capacity = 0) ∧
      (∀ pos x, (v.insert_move m pos x).self.data_ = 0 →
        (v.insert_move m pos x).self.capacity = 0) ∧
      (∀ pos, (v.erase m pos).self.data_ = 0 → (v.erase m pos).self.capacity = 0) ∧
      (∀ first last, (v.erase_range m first last).self.data_ = 0 →
        (v.erase_range m first last).self.capacity = 0) ∧
      (∀ n, (v.resize m n).self.data_ = 0 → (v.resize m n).self.capacity = 0) ∧
      (∀ n x, (v.resize_fill m n x).self.data_ = 0 → (v.resize_fill m n x).self.capacity = 0) ∧
      (∀ n, (v.reserve m n).self.data_ = 0 → (v.reserve m n).self.capacity = 0) ∧
      ((v.shrink_to_fit m).self.data_ = 0 → (v.shrink_to_fit m).self.capacity = 0) ∧
      ((v.clear m).self.data_ = 0 → (v.clear m).self.capacity = 0) ∧
      (∀ i x, (v.write m i x).self.data_ = 0 → (v.write m i x).self.capacity = 0) ∧
      (∀ other same, (vector.assign_copy m v other same).self.data_ = 0 →
        (vector.assign_copy m v other same).self.capacity = 0) ∧
      (∀ other same, (other.data_ = 0 → other.capacity = 0) →
        ((vector.assign_move m v other same).self.data_ = 0 →
          (vector.assign_move m v other same).self.capacity = 0) ∧
        ((vector.assign_move m v other same).other.data_ = 0 →
          (vector.assign_move m v other same).other.capacity = 0)) ∧
      (∀ l, (v.assign_list m l).self.data_ = 0 → (v.assign_list m l).self.capacity = 0)) := by
  have moved : ∀ (m : Machine) (v w : vector T), (v.data_ = 0 → v.capacity_ = 0) →
      ((w.data_ = v.data_ ∧ w.capacity_ = v.capacity_) ∨ w.data_ = (m.brk : Int) + 1) →
      w.data_ = 0 → w.capacity_ = 0 := by
    intro m v w hv h hw
    rcases h with ⟨h1, h2⟩ | h
    · rw [h2]
      exact hv (by omega)
    · omega
  have kept : ∀ (v w : vector T), (v.data_ = 0 → v.capacity_ = 0) →
      (w.data_ = v.data_ ∧ w.capacity_ = v.capacity_) → w.data_ = 0 → w.capacity_ = 0 := by
    intro v w hv h hw
    rw [h.2]
    exact hv (by omega)
  refine ⟨⟨rfl, rfl⟩, ?_, ?_, ?_, ?_, ?_, ?_⟩
  · intro m n w h
    rw [ctor_sized_eq_fill] at h
    have := (ctor_fill_shape m n default w h).1
    omega
  · intro m n x w h
    have := (ctor_fill_shape m n x w h).1
    omega
  · intro m xs w h
    have := (ctor_range_shape m xs w h).1
    omega
  · intro m other w h
    have := (ctor_copy_shape m other w h).1
    omega
  · intro other ho
    exact ⟨ho, fun _ => rfl⟩
  · intro m v hv
    simp only [vector.capacity] at hv ⊢
    refine ⟨?_, ?_, ?_, ?_, ?_, ?_, ?_, ?_, ?_, ?_, ?_, ?_, ?_, ?_, ?_, ?_⟩
    · intro x
      exact moved m v _ hv (push_back_keeps m v x 0).2.1
    · intro x
      exact moved m v _ hv (push_back_keeps m v x 0).2.1
    · intro x
      exact moved m v _ hv (push_back_keeps m v x 0).2.1
    · intro pos x
      exact moved m v _ hv (insert_keeps m v pos x 0).2.1
    · intro pos x
      exact moved m v _ hv (insert_keeps m v pos x 0).2.1
    · intro pos
      exact kept v _ hv (erase_keeps m v pos 0).2.1
    · intro first last
      exact kept v _ hv (erase_range_keeps m v first last 0).2.1
    · intro n
      rw [resize_eq]
      exact moved m v _ hv (resize_fill_keeps m v n (.object default) 0).2.1
    · intro n x
      exact moved m v _ hv (resize_fill_keeps m v n x 0).2.1
    · intro n
      refine moved m v _ hv ?_
      rcases (reserve_shape m v n).2.2 with h | h
      · exact Or.inl h
      · exact Or.inr h.1
    · refine moved m v _ hv ?_
      rcases (shrink_to_fit_shape m v).2 with h | h
      · exact Or.inl h
      · exact Or.inr h.1
    · exact kept v _ hv (clear_keeps m v 0).2.1
    · intro i x
      exact kept v _ hv (write_keeps m v i x 0).2.1
    · intro other same
      exact (assign_copy_keeps m v other same).2 hv
    · intro other same ho
      exact (assign_move_keeps m v other same).2 hv ho
    · intro l
      exact (assign_list_keeps m v l).2 hv

theorem C17_null_buffer_has_no_capacity_witness :
    (((vector.mk 5 0 2 [⟨none, false⟩, ⟨none, false⟩] : vector Nat).shrink_to_fit
        ⟨[], 20, []⟩).self.data_ = 0 →
      ((vector.mk 5 0 2 [⟨none, false⟩, ⟨none, false⟩] : vector Nat).shrink_to_fit
        ⟨[], 20, []⟩).self.capacity = 0) ∧
    (((vector.mk_default Nat).push_back ⟨[true], 0, []⟩ (.object 5)).self.data_ = 0 →
      ((vector.mk_default Nat).push_back ⟨[true], 0, []⟩ (.object 5)).self.capacity = 0) ∧
    (vector.mk 1 0 0 [] : vector Nat).data_ ≠ 0 :=
  ⟨((C17_null_buffer_has_no_capacity Nat).2.2.2.2.2.2 ⟨[], 20, []⟩
      ⟨5, 0, 2, [⟨none, false⟩, ⟨none, false⟩]⟩ (by decide)).2.2.2.2.2.2.2.2.2.2.1,
   ((C17_null_buffer_has_no_capacity Nat).2.2.2.2.2.2 ⟨[true], 0, []⟩
      (vector.mk_default Nat) (by decide)).1 (.object 5),
   (C17_null_buffer_has_no_capacity Nat).2.1 ⟨[], 0, []⟩ 0 ⟨1, 0, 0, []⟩ (by decide)⟩

/-! ## Slot states: what the shifts of erase and insert do to them -/

theorem alive_set {T : Type} (slots : List (Slot T)) (k j : Nat) (s : Slot T) :
    alive (slots.set k s) j = if k = j ∧ k < slots.length then s.live else alive slots j := by
  unfold alive
  rw [List.getElem?_set]
  by_cases h : k = j
  · subst h
    by_cases hk : k < slots.length
    · simp [hk]
    · simp only [hk, if_false, and_false]
      rw [List.getElem?_eq_none (by omega)]
      simp
  · simp [h]

theorem alive_of_getElem? {T : Type} (slots : List (Slot T)) (k : Nat) (s : Slot T)
    (h : slots[k]? = some s) : alive slots k = s.live := by
  unfold alive
  rw [h]

theorem assign_alive {T : Type} (m : Machine) (base : Int) (slots : List (Slot T)) (p : Int)
    (x : T) (j : Nat) : alive (assign m base slots p x).slots j = alive slots j := by
  unfold assign
  split
  · rfl
  · split
    · rfl
    · rename_i s hs
      simp only
      rw [alive_set]
      split
      · rename_i h
        rw [← h.1, alive_of_getElem? _ _ _ hs]
      · rfl

theorem move_assign_alive {T : Type} (m : Machine) (base : Int) (slots : List (Slot T))
    (dst src : Int) (j : Nat) :
    alive (move_assign m base slots dst src).slots j = alive slots j := by
  unfold move_assign
  split
  · rfl
  · exact assign_alive _ _ _ _ _ _

theorem erase_shift_alive {T : Type} (base : Int) (stop : vector_iterator) (j : Nat)
    (fuel : Nat) :
    ∀ (it : vector_iterator) (m : Machine) (slots : List (Slot T)),
      alive (erase_shift base stop fuel it m slots).slots j = alive slots j := by
  induction fuel with
  | zero =>
    intro it m slots
    unfold erase_shift
    split
    · simp only
      split
      · exact move_assign_alive _ _ _ _ _ _
      · exact move_assign_alive _ _ _ _ _ _
    · rfl
  | succ fuel ih =>
    intro it m slots
    unfold erase_shift
    split
    · simp only
      split
      · exact move_assign_alive _ _ _ _ _ _
      · rw [ih]
        exact move_assign_alive _ _ _ _ _ _
    · rfl

theorem insert_shift_alive {T : Type} (base : Int) (pos : vector_iterator) (j : Nat)
    (fuel : Nat) :
    ∀ (it : vector_iterator) (m : Machine) (slots : List (Slot T)),
      alive (insert_shift base pos fuel it m slots).slots j = alive slots j := by
  induction fuel with
  | zero =>
    intro it m slots
    unfold insert_shift
    split
    · simp only
      split
      · exact move_assign_alive _ _ _ _ _ _
      · exact move_assign_alive _ _ _ _ _ _
    · rfl
  | succ fuel ih =>
    intro it m slots
    unfold insert_shift
    split
    · simp only
      split
      · exact move_assign_alive _ _ _ _ _ _
      · rw [ih]
        exact move_assign_alive _ _ _ _ _ _
    · rfl

theorem destroy_order_append (t u : List Event) :
    destroy_order (t ++ u) = destroy_order t ++ destroy_order u := by
  simp [destroy_order, List.filterMap_append]

theorem raw_assigns_append (t u : List Event) :
    raw_assigns (t ++ u) = raw_assigns t ++ raw_assigns u := by
  simp [raw_assigns, List.filterMap_append]

/-- The events one assignment adds to the trace: none of them a destruction. -/
theorem assign_trace {T : Type} (m : Machine) (base : Int) (slots : List (Slot T)) (p : Int)
    (x : T) :
    ∃ es, (assign m base slots p x).mach.trace = m.trace ++ es ∧ destroy_order es = [] := by
  unfold assign
  split
  · exact ⟨[], by simp, rfl⟩
  · split
    · exact ⟨[], by simp, rfl⟩
    · exact ⟨[Event.assign p _], rfl, rfl⟩

theorem move_assign_trace {T : Type} (m : Machine) (base : Int) (slots : List (Slot T))
    (dst src : Int) :
    ∃ es, (move_assign m base slots dst src).mach.trace = m.trace ++ es ∧
      destroy_order es = [] := by
  unfold move_assign
  split
  · exact ⟨[], by simp, rfl⟩
  · exact assign_trace _ _ _ _ _

theorem erase_shift_trace {T : Type} (base : Int) (stop : vector_iterator) (fuel : Nat) :
    ∀ (it : vector_iterator) (m : Machine) (slots : List (Slot T)),
      ∃ es, (erase_shift base stop fuel it m slots).mach.trace = m.trace ++ es ∧
        destroy_order es = [] := by
  induction fuel with
  | zero =>
    intro it m slots
    unfold erase_shift
    split
    · simp only
      split
      · exact move_assign_trace _ _ _ _ _
      · exact move_assign_trace _ _ _ _ _
    · exact ⟨[], by simp, rfl⟩
  | succ fuel ih =>
    intro it m slots
    unfold erase_shift
    split
    · simp only
      split
      · exact move_assign_trace _ _ _ _ _
      · obtain ⟨e1, t1, d1⟩ := move_assign_trace m base slots it.ptr_ (it.add 1).ptr_
        obtain ⟨e2, t2, d2⟩ := ih it.inc
          (move_assign m base slots it.ptr_ (it.add 1).ptr_).mach
          (move_assign m base slots it.ptr_ (it.add 1).ptr_).slots
        refine ⟨e1 ++ e2, by rw [t2, t1, List.append_assoc], ?_⟩
        rw [destroy_order_append, d1, d2]
        rfl
    · exact ⟨[], by simp, rfl⟩

theorem insert_shift_trace {T : Type} (base : Int) (pos : vector_iterator) (fuel : Nat) :
    ∀ (it : vector_iterator) (m : Machine) (slots : List (Slot T)),
      ∃ es, (insert_shift base pos fuel it m slots).mach.trace = m.trace ++ es ∧
        destroy_order es = [] := by
  induction fuel with
  | zero =>
    intro it m slots
    unfold insert_shift
    split
    · simp only
      split
      · exact move_assign_trace _ _ _ _ _
      · exact move_assign_trace _ _ _ _ _
    · exact ⟨[], by simp, rfl⟩
  | succ fuel ih =>
    intro it m slots
    unfold insert_shift
    split
    · simp only
      split
      · exact move_assign_trace _ _ _ _ _
      · obtain ⟨e1, t1, d1⟩ := move_assign_trace m base slots it.ptr_ (it.sub 1).ptr_
        obtain ⟨e2, t2, d2⟩ := ih it.dec
          (move_assign m base slots it.ptr_ (it.sub 1).ptr_).mach
          (move_assign m base slots it.ptr_ (it.sub 1).ptr_).slots
        refine ⟨e1 ++ e2, by rw [t2, t1, List.append_assoc], ?_⟩
        rw [destroy_order_append, d1, d2]
        rfl
    · exact ⟨[], by simp, rfl⟩

/-- The call `erase(begin() + i)` on a vector that holds `vals`, `i < |vals|`: the shift, then
the destruction of the cell at index `size_ - 1`. -/
theorem erase_eq {T : Type} (m : Machine) (v : vector T) (vals : List T) (i : Nat)
    (hwf : v.wf) (hc : v.contents = vals.map some) (hi : i < vals.length)
    (hsz : v.size_ < 2 ^ 64) :
    v.size_ - 1 < (erase_shift v.data_ ⟨v.data_ + ((v.size_ - 1 : Nat) : Int)⟩
        v.store.length ⟨v.data_ + (i : Int)⟩ m v.store).slots.length ∧
    v.erase m (v.begin.add (i : Int)) =
      ⟨.ok (v.begin.add (i : Int)),
        ⟨(erase_shift v.data_ ⟨v.data_ + ((v.size_ - 1 : Nat) : Int)⟩
            v.store.length ⟨v.data_ + (i : Int)⟩ m v.store).mach.script,
          (erase_shift v.data_ ⟨v.data_ + ((v.size_ - 1 : Nat) : Int)⟩
            v.store.length ⟨v.data_ + (i : Int)⟩ m v.store).mach.brk,
          (erase_shift v.data_ ⟨v.data_ + ((v.size_ - 1 : Nat) : Int)⟩
            v.store.length ⟨v.data_ + (i : Int)⟩ m v.store).mach.trace
            ++ [Event.destroy (v.data_ + ((v.size_ - 1 : Nat) : Int))]⟩,
        ⟨v.data_, v.size_ - 1, v.capacity_,
          (erase_shift v.data_ ⟨v.data_ + ((v.size_ - 1 : Nat) : Int)⟩
            v.store.length ⟨v.data_ + (i : Int)⟩ m v.store).slots.set (v.size_ - 1)
              ⟨none, false⟩⟩⟩ := by
  obtain ⟨hsize, hlen⟩ := hwf
  obtain ⟨hl, hcell⟩ := (contents_iff_getElem? v vals (by omega)).mp hc
  have hstop : v.end.sub 1 = ⟨v.data_ + ((v.size_ - 1 : Nat) : Int)⟩ := by
    simp [vector.end, vector_iterator.sub]
    omega
  have hpos : v.begin.add (i : Int) = ⟨v.data_ + (i : Int)⟩ := rfl
  obtain ⟨h1, h2, -, -⟩ := erase_shift_spec v.data_ (v.size_ - 1) (v.size_ - 1 - i) i m v.store
    v.store.length (by omega) (by omega) (by omega)
    (by
      intro j hj1 hj2
      have hj : j < vals.length := by omega
      exact ⟨vals[j], by rw [hcell j (by omega), List.getElem?_eq_getElem hj]⟩)
  have hdec : size_t_sub v.size_ 1 = v.size_ - 1 := by
    have := size_t_sub_small v.size_ 1 (by omega) hsz
    simpa using this
  have hlast : v.size_ - 1 < (erase_shift v.data_ ⟨v.data_ + ((v.size_ - 1 : Nat) : Int)⟩
      v.store.length ⟨v.data_ + (i : Int)⟩ m v.store).slots.length := by
    rw [h2]; omega
  refine ⟨hlast, ?_⟩
  unfold vector.erase
  rw [hstop, hpos]
  simp only [h1, hdec, vector.end, vector_iterator.base, destroy_at_at _ _ _ _ hlast]

/-- C21: on a vector that holds `n >= 1` elements, `erase(begin() + idx)` with `idx < n`
returns, makes the length `n - 1`, and of the storage events it adds to the trace exactly one
is a destruction, that of the cell at index `n - 1`; the cell at index `n - 1` is not live
afterwards and the state of every other cell is what it was, so that when exactly the cells
`[0, n)` were live before, exactly the cells `[0, n - 1)` are live afterwards. -/
theorem C21_erase_destroys_vacated_slot (T : Type) (m : Machine) (v : vector T)
    (vals : List T) (idx : Nat) (hwf : v.wf) (hc : v.contents = vals.map some)
    (hi : idx < vals.length) (hsz : v.size_ < 2 ^ 64) :
    (v.erase m (v.begin.add (idx : Int))).ret = .ok (v.begin.add (idx : Int)) ∧
    (v.erase m (v.begin.add (idx : Int))).self.size = v.size - 1 ∧
    (v.erase m (v.begin.add (idx : Int))).mach.trace.take m.trace.length = m.trace ∧
    destroy_order ((v.erase m (v.begin.add (idx : Int))).mach.trace.drop m.trace.length)
      = [v.data_ + ((v.size - 1 : Nat) : Int)] ∧
    (∀ j, alive (v.erase m (v.begin.add (idx : Int))).self.store j
      = if j = v.size - 1 then false else alive v.store j) ∧
    (v.slots_ok → (v.erase m (v.begin.add (idx : Int))).self.slots_ok) := by
  obtain ⟨hlast, heq⟩ := erase_eq m v vals idx hwf hc hi hsz
  obtain ⟨es, ht, hd⟩ := erase_shift_trace v.data_ ⟨v.data_ + ((v.size_ - 1 : Nat) : Int)⟩
    v.store.length ⟨v.data_ + (idx : Int)⟩ m v.store
  have hl := ((contents_iff v vals (by have := hwf.1; have := hwf.2; omega)).mp hc).1
  have halive : ∀ j, alive (v.erase m (v.begin.add (idx : Int))).self.store j
      = if j = v.size - 1 then false else alive v.store j := by
    intro j
    rw [heq]
    simp only [vector.size]
    rw [alive_set, erase_shift_alive]
    by_cases hj : j = v.size_ - 1
    · rw [if_pos hj, if_pos ⟨hj.symm, hlast⟩]
    · rw [if_neg hj, if_neg (fun h => hj h.1.symm)]
  refine ⟨by rw [heq], by rw [heq]; rfl, ?_, ?_, halive, ?_⟩
  · rw [heq]
    simp only [ht, List.append_assoc, List.take_left]
  · rw [heq]
    simp only [ht, List.append_assoc, List.drop_left, destroy_order_append, hd, vector.size]
    rfl
  · intro hok j hj
    rw [halive j]
    have hcap : (v.erase m (v.begin.add (idx : Int))).self.capacity_ = v.capacity_ := by
      rw [heq]
    have hsize : (v.erase m (v.begin.add (idx : Int))).self.size_ = v.size_ - 1 := by
      rw [heq]
    rw [hcap] at hj
    rw [hsize]
    have := hok j hj
    simp only [vector.size]
    by_cases hj1 : j = v.size_ - 1
    · rw [if_pos hj1]
      simp
      omega
    · rw [if_neg hj1, this]
      omega

theorem C21_erase_destroys_vacated_slot_witness :
    destroy_order (((vector.mk 7 3 4
        [⟨some 10, true⟩, ⟨some 40, true⟩, ⟨some 50, true⟩, ⟨none, false⟩] : vector Nat).erase
        ⟨[], 11, [Event.destroy 2]⟩ ⟨8⟩).mach.trace.drop 1) = [9] ∧
    ((vector.mk 7 3 4
        [⟨some 10, true⟩, ⟨some 40, true⟩, ⟨some 50, true⟩, ⟨none, false⟩] : vector Nat).erase
        ⟨[], 11, [Event.destroy 2]⟩ ⟨8⟩).self.slots_ok :=
  ⟨(C21_erase_destroys_vacated_slot Nat ⟨[], 11, [Event.destroy 2]⟩
      ⟨7, 3, 4, [⟨some 10, true⟩, ⟨some 40, true⟩, ⟨some 50, true⟩, ⟨none, false⟩]⟩
      [10, 40, 50] 1 (by decide) (by decide) (by decide) (by decide)).2.2.2.1,
   (C21_erase_destroys_vacated_slot Nat ⟨[], 11, [Event.destroy 2]⟩
      ⟨7, 3, 4, [⟨some 10, true⟩, ⟨some 40, true⟩, ⟨some 50, true⟩, ⟨none, false⟩]⟩
      [10, 40, 50] 1 (by decide) (by decide) (by decide) (by decide)).2.2.2.2.2 (by decide)⟩

theorem insert_shift_done {T : Type} (base : Int) (pos : vector_iterator) (fuel : Nat)
    (m : Machine) (slots : List (Slot T)) :
    insert_shift base pos fuel pos m slots = ⟨.ok (), m, slots⟩ := by
  cases fuel <;> simp [insert_shift, vector_iterator.ne]

/-- The first assignment of the tail shift of `insert` goes to the cell at index `size_`. -/
theorem insert_shift_first {T : Type} (base : Int) (i n fuel : Nat) (m : Machine)
    (slots : List (Slot T)) (x : T) (hi : i < n) (hn : n < slots.length) (hf : 0 < fuel)
    (hx : cell slots (n - 1) = some x) :
    insert_shift base ⟨base + (i : Int)⟩ fuel ⟨base + (n : Int)⟩ m slots =
      insert_shift base ⟨base + (i : Int)⟩ (fuel - 1) (vector_iterator.dec ⟨base + (n : Int)⟩)
        ⟨m.script, m.brk, m.trace ++ [Event.assign (base + (n : Int)) slots[n].live]⟩
        (slots.set n ⟨some x, slots[n].live⟩) := by
  have hne : (vector_iterator.mk (base + (n : Int))).ne ⟨base + (i : Int)⟩ = true := by
    simp [vector_iterator.ne]
    omega
  have hsrc : (vector_iterator.sub ⟨base + (n : Int)⟩ 1).ptr_ = base + ((n - 1 : Nat) : Int) := by
    simp [vector_iterator.sub]
    omega
  cases fuel with
  | zero => omega
  | succ k =>
    rw [insert_shift]
    simp only [hne, if_true, hsrc, move_assign_at m base slots n (n - 1) x hx hn,
      Nat.add_sub_cancel]

theorem alive_false_live {T : Type} (slots : List (Slot T)) (n : Nat) (hn : n < slots.length)
    (h : alive slots n = false) : slots[n].live = false := by
  unfold alive at h
  rw [List.getElem?_eq_getElem hn] at h
  exact h

theorem insert_rest_trace {T : Type} (m : Machine) (w : vector T) (idx : Int)
    (value : Ref T) :
    ∃ es, (insert_rest m w idx value).mach.trace
      = (insert_shift w.data_ (w.begin.add idx) w.size_ w.end m w.store).mach.trace ++ es := by
  unfold insert_rest
  simp only
  split
  · exact ⟨[], by simp⟩
  · split
    · exact ⟨[], by simp⟩
    · rename_i x hx
      obtain ⟨es, h, -⟩ := assign_trace
        (insert_shift w.data_ (w.begin.add idx) w.size_ w.end m w.store).mach w.data_
        (insert_shift w.data_ (w.begin.add idx) w.size_ w.end m w.store).slots
        (w.begin.add idx).ptr_ x
      split
      · exact ⟨es, h⟩
      · exact ⟨es, h⟩

/-- The part of `insert` after the growth check opens and closes no object lifetime. -/
theorem insert_rest_alive {T : Type} (m : Machine) (w : vector T) (idx : Int)
    (value : Ref T) (j : Nat) :
    alive (insert_rest m w idx value).self.store j = alive w.store j := by
  unfold insert_rest
  simp only
  split
  · simp only
    rw [insert_shift_alive]
  · split
    · simp only
      rw [insert_shift_alive]
    · split
      · simp only
        rw [assign_alive, insert_shift_alive]
      · simp only
        rw [assign_alive, insert_shift_alive]

/-- Whatever `insert` does after the growth check, it assigns to the cell at index `size_`,
in which no object was constructed, and it leaves that cell without an object. -/
theorem insert_rest_raw {T : Type} (m : Machine) (w : vector T) (vals : List T) (i : Nat)
    (x : T) (hlt : w.size_ < w.store.length) (hc : w.contents = vals.map some)
    (hi : i ≤ vals.length) (hraw : alive w.store w.size_ = false) :
    (∀ j, alive (insert_rest m w (i : Int) (.object x)).self.store j = alive w.store j) ∧
    ∃ es, (insert_rest m w (i : Int) (.object x)).mach.trace
      = m.trace ++ Event.assign (w.data_ + (w.size_ : Int)) false :: es := by
  constructor
  · intro j
    exact insert_rest_alive m w _ _ j
  · obtain ⟨hl, hcell⟩ := (contents_iff_getElem? w vals (by omega)).mp hc
    have hlive := alive_false_live w.store w.size_ hlt hraw
    have hend : w.end = ⟨w.data_ + (w.size_ : Int)⟩ := rfl
    by_cases hin : i = w.size_
    · subst hin
      have hpos : (w.begin.add (w.size_ : Int)) = ⟨w.data_ + (w.size_ : Int)⟩ := rfl
      unfold insert_rest
      simp only [hpos, hend, insert_shift_done, Ref.read, assign_at _ _ _ _ _ hlt, hlive]
      exact ⟨[], rfl⟩
    · have hpos : (w.begin.add (i : Int)) = ⟨w.data_ + (i : Int)⟩ := rfl
      have hlast : w.size_ - 1 < vals.length := by omega
      have hx : cell w.store (w.size_ - 1) = some vals[w.size_ - 1] := by
        rw [hcell _ (by omega), List.getElem?_eq_getElem hlast]
      have hfirst := insert_shift_first w.data_ i w.size_ w.size_ m w.store _ (by omega) hlt
        (by omega) hx
      rw [hlive] at hfirst
      obtain ⟨es, hes, -⟩ := insert_shift_trace w.data_ ⟨w.data_ + (i : Int)⟩ (w.size_ - 1)
        (vector_iterator.dec ⟨w.data_ + (w.size_ : Int)⟩)
        ⟨m.script, m.brk, m.trace ++ [Event.assign (w.data_ + (w.size_ : Int)) false]⟩
        (w.store.set w.size_ ⟨some vals[w.size_ - 1], false⟩)
      rw [← hfirst] at hes
      obtain ⟨es2, hes2⟩ := insert_rest_trace m w (i : Int) (.object x)
      rw [hpos, hend, hes] at hes2
      exact ⟨es ++ es2, by rw [hes2]; simp⟩

theorem reallocated_trace {T : Type} (m : Machine) (v : vector T) (n : Nat) (guarded : Bool) :
    ∃ es, (reallocated m v n guarded).trace = m.trace ++ es := by
  unfold reallocated destroyed constructed allocated deallocate
  simp only
  split
  · exact ⟨_, by simp only [List.append_assoc]; rfl⟩
  · exact ⟨_, by simp only [List.append_assoc]; rfl⟩

theorem alive_filled_end {T : Type} (vals : List T) (cap n : Nat) (hn : n ≤ vals.length) :
    alive (filled vals cap n : List (Slot T)) n = false := by
  unfold alive
  rw [filled_getElem? vals cap n n hn, if_neg (by omega)]
  by_cases h : n < cap
  · simp [h]
  · simp [h]

theorem raw_assigns_mem (es0 es : List Event) (p : Int) :
    p ∈ raw_assigns (es0 ++ Event.assign p false :: es) := by
  rw [raw_assigns_append]
  apply List.mem_append_right
  simp [raw_assigns]

/-- C22 fails on `insert`: on a vector that holds `vals` and satisfies the slot-state
invariant, `insert(begin() + i, x)` with `i <= |vals|` (both overloads have the same body)
returns with the length increased by one, but among the storage events it adds to the trace
is an assignment to the cell at the old index `size_`, in which no object lifetime is open,
no construction opens one there, and so afterwards the cell at index `size_ - 1` of the
vector is not live: the slot-state invariant no longer holds. -/
theorem C22_insert_assigns_to_raw_slot (T : Type) (m : Machine) (v : vector T)
    (vals : List T) (i : Nat) (x : T) (hwf : v.wf) (hc : v.contents = vals.map some)
    (hi : i ≤ vals.length) (hok : v.slots_ok)
    (hs : v.size_ = v.capacity_ → ∀ b ∈ m.script.take v.size_, b = false) :
    v.insert_move m (v.begin.add (i : Int)) (.object x) = v.insert m (v.begin.add (i : Int)) (.object x) ∧
    (v.insert m (v.begin.add (i : Int)) (.object x)).ret
      = .ok ((v.insert m (v.begin.add (i : Int)) (.object x)).self.begin.add (i : Int)) ∧
    (v.insert m (v.begin.add (i : Int)) (.object x)).self.size = v.size + 1 ∧
    (v.insert m (v.begin.add (i : Int)) (.object x)).mach.trace.take m.trace.length = m.trace ∧
    (v.insert m (v.begin.add (i : Int)) (.object x)).self.data_ + (v.size : Int)
      ∈ raw_assigns ((v.insert m (v.begin.add (i : Int)) (.object x)).mach.trace.drop m.trace.length) ∧
    alive (v.insert m (v.begin.add (i : Int)) (.object x)).self.store v.size = false ∧
    ¬ (v.insert m (v.begin.add (i : Int)) (.object x)).self.slots_ok := by
  obtain ⟨k1, k2, -, k4, -⟩ := insert_ok m v vals i x hwf hc hi hs
  obtain ⟨hl, -⟩ := (contents_iff_getElem? v vals (by have := hwf.1; have := hwf.2; omega)).mp hc
  have key : (∃ es, (v.insert m (v.begin.add (i : Int)) (.object x)).mach.trace
        = m.trace ++ es ∧
        (v.insert m (v.begin.add (i : Int)) (.object x)).self.data_ + (v.size_ : Int) ∈ raw_assigns es) ∧
      alive (v.insert m (v.begin.add (i : Int)) (.object x)).self.store v.size_ = false := by
    by_cases hfull : v.size_ = v.capacity_
    · have hgrow : v.capacity_ < (if v.capacity_ = 0 then 1 else v.capacity_ * 2) := by
        split <;> omega
      have hres := reserve_grow m v vals _ hwf hc hgrow (hs hfull)
      rw [insert_of_grow m v _ (.object x) _ _ hfull hres, begin_add_diff]
      generalize (if v.capacity_ = 0 then 1 else v.capacity_ * 2) = nc at *
      have hflen : (filled vals nc v.size_).length = nc :=
        filled_length _ _ _ (by omega) (by have := hwf.1; omega)
      have hcw : (vector.mk ((m.brk : Int) + 1) v.size_ nc (filled vals nc v.size_)).contents
          = vals.map some := by
        have := contents_filled vals ((m.brk : Int) + 1) nc (by have := hwf.1; omega)
        rw [hl] at this
        exact this
      obtain ⟨h1, es, h2⟩ := insert_rest_raw (reallocated m v nc true)
        (vector.mk ((m.brk : Int) + 1) v.size_ nc (filled vals nc v.size_)) vals i x
        (by simp only [hflen]; have := hwf.1; omega) hcw hi
        (alive_filled_end vals nc v.size_ (by omega))
      obtain ⟨h3, -, -⟩ := insert_rest_ok (reallocated m v nc true)
        (vector.mk ((m.brk : Int) + 1) v.size_ nc (filled vals nc v.size_)) vals i x
        (by simp only [hflen]; have := hwf.1; omega) hcw hi
      have h4 := (insert_rest_ok (reallocated m v nc true)
        (vector.mk ((m.brk : Int) + 1) v.size_ nc (filled vals nc v.size_)) vals i x
        (by simp only [hflen]; have := hwf.1; omega) hcw hi).2.1
      obtain ⟨es0, h0⟩ := reallocated_trace m v nc true
      refine ⟨⟨es0 ++ Event.assign ((m.brk : Int) + 1 + (v.size_ : Int)) false :: es, ?_, ?_⟩, ?_⟩
      · rw [h2, h0, List.append_assoc]
      · rw [h4]
        exact raw_assigns_mem _ _ _
      · rw [h1]
        exact alive_filled_end vals nc v.size_ (by omega)
    · have hlt : v.size_ < v.store.length := by have := hwf.1; have := hwf.2; omega
      have hraw : alive v.store v.size_ = false := by
        have := hok v.size_ (by have := hwf.1; omega)
        cases h : alive v.store v.size_ with
        | false => rfl
        | true => exact absurd (this.mp h) (by omega)
      rw [insert_of_room m v _ (.object x) hfull, begin_add_diff]
      obtain ⟨h1, es, h2⟩ := insert_rest_raw m v vals i x hlt hc hi hraw
      have h4 := (insert_rest_ok m v vals i x hlt hc hi).2.1
      refine ⟨⟨Event.assign (v.data_ + (v.size_ : Int)) false :: es, h2, ?_⟩, ?_⟩
      · rw [h4]
        exact raw_assigns_mem [] _ _
      · rw [h1]
        exact hraw
  obtain ⟨⟨es, ht, hmem⟩, hal⟩ := key
  refine ⟨rfl, k1, k4, ?_, ?_, hal, ?_⟩
  · rw [ht, List.take_left]
  · rw [ht, List.drop_left]
    exact hmem
  · intro hinv
    have hcap : v.size_ < (v.insert m (v.begin.add (i : Int)) (.object x)).self.capacity_ := by
      have := k2.1
      omega
    have := (hinv v.size_ hcap).mpr (by omega)
    simp only [vector.size] at hal
    rw [hal] at this
    exact Bool.noConfusion this

theorem C22_insert_assigns_to_raw_slot_witness :
    (9 : Int) ∈ raw_assigns (((vector.mk 7 2 4
        [⟨some 10, true⟩, ⟨some 40, true⟩, ⟨none, false⟩, ⟨none, false⟩] : vector Nat).insert
        ⟨[], 11, []⟩ ⟨8⟩ (.object 6)).mach.trace.drop 0) ∧
    ¬ ((vector.mk 7 2 4
        [⟨some 10, true⟩, ⟨some 40, true⟩, ⟨none, false⟩, ⟨none, false⟩] : vector Nat).insert
        ⟨[], 11, []⟩ ⟨8⟩ (.object 6)).self.slots_ok :=
  ⟨(C22_insert_assigns_to_raw_slot Nat ⟨[], 11, []⟩
      ⟨7, 2, 4, [⟨some 10, true⟩, ⟨some 40, true⟩, ⟨none, false⟩, ⟨none, false⟩]⟩
      [10, 40] 1 6 (by decide) (by decide) (by decide) (by decide) (by decide)).2.2.2.2.1,
   (C22_insert_assigns_to_raw_slot Nat ⟨[], 11, []⟩
      ⟨7, 2, 4, [⟨some 10, true⟩, ⟨some 40, true⟩, ⟨none, false⟩, ⟨none, false⟩]⟩
      [10, 40] 1 6 (by decide) (by decide) (by decide) (by decide) (by decide)).2.2.2.2.2.2⟩

/-- C22, a failing run: `insert(begin() + 1, 6)` on the vector `[10, 40]` of capacity 4, whose
cells 0 and 1 are live and cells 2 and 3 uninitialised.  The shift first assigns to cell 2
(address 9), which is uninitialised; the call returns with length 3 and cell 2 holding 40
without ever having been constructed.  The same happens when the call has to grow the block
(capacity 2), and when it inserts at `end()`.  A second failing run: `resize(3)` on the vector
`[10]` of capacity 4 when the second construction throws; the exception leaves the length 1 and
cell 1, constructed by the first, live. -/
theorem C22_slot_invariant_counterexample :
    (vector.mk 7 2 4
      [⟨some 10, true⟩, ⟨some 40, true⟩, ⟨none, false⟩, ⟨none, false⟩] : vector Nat).slots_ok ∧
    ((vector.mk 7 2 4
      [⟨some 10, true⟩, ⟨some 40, true⟩, ⟨none, false⟩, ⟨none, false⟩] : vector Nat).insert
        ⟨[], 11, []⟩ ⟨8⟩ (.object 6)).ret = .ok ⟨8⟩ ∧
    ((vector.mk 7 2 4
      [⟨some 10, true⟩, ⟨some 40, true⟩, ⟨none, false⟩, ⟨none, false⟩] : vector Nat).insert
        ⟨[], 11, []⟩ ⟨8⟩ (.object 6)).mach = ⟨[], 11, [Event.assign 9 false, Event.assign 8 true]⟩ ∧
    ((vector.mk 7 2 4
      [⟨some 10, true⟩, ⟨some 40, true⟩, ⟨none, false⟩, ⟨none, false⟩] : vector Nat).insert
        ⟨[], 11, []⟩ ⟨8⟩ (.object 6)).self =
      ⟨7, 3, 4, [⟨some 10, true⟩, ⟨some 6, true⟩, ⟨some 40, false⟩, ⟨none, false⟩]⟩ ∧
    ¬ (vector.mk 7 3 4
      [⟨some 10, true⟩, ⟨some 6, true⟩, ⟨some 40, false⟩, ⟨none, false⟩] : vector Nat).slots_ok ∧
    raw_assigns ((vector.mk 7 2 2 [⟨some 10, true⟩, ⟨some 40, true⟩] : vector Nat).insert
        ⟨[], 11, []⟩ ⟨8⟩ (.object 6)).mach.trace = [14] ∧
    raw_assigns ((vector.mk 7 2 4
      [⟨some 10, true⟩, ⟨some 40, true⟩, ⟨none, false⟩, ⟨none, false⟩] : vector Nat).insert
        ⟨[], 11, []⟩ ⟨9⟩ (.object 6)).mach.trace = [9] ∧
    (vector.mk 7 1 4
      [⟨some 10, true⟩, ⟨none, false⟩, ⟨none, false⟩, ⟨none, false⟩] : vector Nat).slots_ok ∧
    ((vector.mk 7 1 4
      [⟨some 10, true⟩, ⟨none, false⟩, ⟨none, false⟩, ⟨none, false⟩] : vector Nat).resize
        ⟨[false, true], 11, []⟩ 3).ret = .error .element_failure ∧
    ((vector.mk 7 1 4
      [⟨some 10, true⟩, ⟨none, false⟩, ⟨none, false⟩, ⟨none, false⟩] : vector Nat).resize
        ⟨[false, true], 11, []⟩ 3).self =
      ⟨7, 1, 4, [⟨some 10, true⟩, ⟨some 0, true⟩, ⟨none, false⟩, ⟨none, false⟩]⟩ ∧
    ¬ (vector.mk 7 1 4
      [⟨some 10, true⟩, ⟨some 0, true⟩, ⟨none, false⟩, ⟨none, false⟩] : vector Nat).slots_ok := by
  decide

/-! ## Arguments that refer to an element of the vector itself -/

/-- A reference to the element at index `k` reads as that element while the block is the one
the element lives in. -/
theorem read_cell {T : Type} (base : Int) (slots : List (Slot T)) (k : Nat) (x : T)
    (h : cell slots k = some x) :
    Ref.read base slots (Ref.cell (base + (k : Int))) = .ok x := by
  simp only [Ref.read]
  exact load_cell base slots k x h

/-- A reference to an address below the block dangles. -/
theorem read_below {T : Type} (base : Int) (slots : List (Slot T)) (p : Int) (h : p < base) :
    Ref.read base slots (Ref.cell p) = (.error .undefined_behaviour : Except Exn T) := by
  simp only [Ref.read, load, h, if_true]

/-- On a vector that satisfies the slot-state invariant, `insert` of an object of the caller
assigns to the cell at index `size_`, in which no object was constructed, and leaves it
without one. -/
theorem insert_raw_assign {T : Type} (m : Machine) (v : vector T) (vals : List T) (i : Nat)
    (x : T) (hwf : v.wf) (hc : v.contents = vals.map some) (hi : i ≤ vals.length)
    (hok : v.slots_ok)
    (hs : v.size_ = v.capacity_ → ∀ b ∈ m.script.take v.size_, b = false) :
    (v.insert m (v.begin.add (i : Int)) (.object x)).mach.trace.take m.trace.length = m.trace ∧
    (v.insert m (v.begin.add (i : Int)) (.object x)).self.data_ + (v.size_ : Int)
      ∈ raw_assigns ((v.insert m (v.begin.add (i : Int)) (.object x)).mach.trace.drop
          m.trace.length) ∧
    alive (v.insert m (v.begin.add (i : Int)) (.object x)).self.store v.size_ = false := by
  obtain ⟨hl, -⟩ := (contents_iff_getElem? v vals (by have := hwf.1; have := hwf.2; omega)).mp hc
  have key : (∃ es, (v.insert m (v.begin.add (i : Int)) (.object x)).mach.trace
        = m.trace ++ es ∧
        (v.insert m (v.begin.add (i : Int)) (.object x)).self.data_ + (v.size_ : Int)
          ∈ raw_assigns es) ∧
      alive (v.insert m (v.begin.add (i : Int)) (.object x)).self.store v.size_ = false := by
    by_cases hfull : v.size_ = v.capacity_
    · have hgrow : v.capacity_ < (if v.capacity_ = 0 then 1 else v.capacity_ * 2) := by
        split <;> omega
      have hres := reserve_grow m v vals _ hwf hc hgrow (hs hfull)
      rw [insert_of_grow m v _ (.object x) _ _ hfull hres, begin_add_diff]
      generalize (if v.capacity_ = 0 then 1 else v.capacity_ * 2) = nc at *
      have hflen : (filled vals nc v.size_).length = nc :=
        filled_length _ _ _ (by omega) (by have := hwf.1; omega)
      have hcw : (vector.mk ((m.brk : Int) + 1) v.size_ nc (filled vals nc v.size_)).contents
          = vals.map some := by
        have := contents_filled vals ((m.brk : Int) + 1) nc (by have := hwf.1; omega)
        rw [hl] at this
        exact this
      obtain ⟨h1, es, h2⟩ := insert_rest_raw (reallocated m v nc true)
        (vector.mk ((m.brk : Int) + 1) v.size_ nc (filled vals nc v.size_)) vals i x
        (by simp only [hflen]; have := hwf.1; omega) hcw hi
        (alive_filled_end vals nc v.size_ (by omega))
      have h4 := (insert_rest_ok (reallocated m v nc true)
        (vector.mk ((m.brk : Int) + 1) v.size_ nc (filled vals nc v.size_)) vals i x
        (by simp only [hflen]; have := hwf.1; omega) hcw hi).2.1
      obtain ⟨es0, h0⟩ := reallocated_trace m v nc true
      refine ⟨⟨es0 ++ Event.assign ((m.brk : Int) + 1 + (v.size_ : Int)) false :: es, ?_, ?_⟩, ?_⟩
      · rw [h2, h0, List.append_assoc]
      · rw [h4]
        exact raw_assigns_mem _ _ _
      · rw [h1]
        exact alive_filled_end vals nc v.size_ (by omega)
    · have hlt : v.size_ < v.store.length := by have := hwf.1; have := hwf.2; omega
      have hraw : alive v.store v.size_ = false := by
        have := hok v.size_ (by have := hwf.1; omega)
        cases h : alive v.store v.size_ with
        | false => rfl
        | true => exact absurd (this.mp h) (by omega)
      rw [insert_of_room m v _ (.object x) hfull, begin_add_diff]
      obtain ⟨h1, es, h2⟩ := insert_rest_raw m v vals i x hlt hc hi hraw
      have h4 := (insert_rest_ok m v vals i x hlt hc hi).2.1
      refine ⟨⟨Event.assign (v.data_ + (v.size_ : Int)) false :: es, h2, ?_⟩, ?_⟩
      · rw [h4]
        exact raw_assigns_mem [] _ _
      · rw [h1]
        exact hraw
  obtain ⟨⟨es, ht, hmem⟩, hal⟩ := key
  refine ⟨?_, ?_, hal⟩
  · rw [ht, List.take_left]
  · rw [ht, List.drop_left]
    exact hmem

/-- The storage events of `erase(begin() + i)`: the trace is extended, and the one
destruction it adds is that of the cell at index `size_ - 1`. -/
theorem erase_destroys {T : Type} (m : Machine) (v : vector T) (vals : List T) (i : Nat)
    (hwf : v.wf) (hc : v.contents = vals.map some) (hi : i < vals.length)
    (hsz : v.size_ < 2 ^ 64) :
    (v.erase m (v.begin.add (i : Int))).mach.trace.take m.trace.length = m.trace ∧
    destroy_order ((v.erase m (v.begin.add (i : Int))).mach.trace.drop m.trace.length)
      = [v.data_ + ((v.size_ - 1 : Nat) : Int)] := by
  obtain ⟨-, heq⟩ := erase_eq m v vals i hwf hc hi hsz
  obtain ⟨es, ht, hd⟩ := erase_shift_trace v.data_ ⟨v.data_ + ((v.size_ - 1 : Nat) : Int)⟩
    v.store.length ⟨v.data_ + (i : Int)⟩ m v.store
  constructor
  · rw [heq]
    simp only [ht, List.append_assoc, List.take_left]
  · rw [heq]
    simp only [ht, List.append_assoc, List.drop_left, destroy_order_append, hd]
    rfl

/-- After the growth check, `insert(begin() + i, v[k])` reads `v[k]` once the shift has moved
the elements at `[i, size_)` up by one: it finds the old `v[k - 1]` there when `i < k`. -/
theorem insert_rest_cell {T : Type} (m : Machine) (w : vector T) (vals : List T) (i k : Nat)
    (hlt : w.size_ < w.store.length) (hc : w.contents = vals.map some) (hi : i ≤ vals.length)
    (hk : k < vals.length) :
    insert_rest m w (i : Int) (.cell (w.data_ + (k : Int)))
      = insert_rest m w (i : Int) (.object (if i < k then vals[k - 1] else vals[k])) := by
  obtain ⟨hl, hcell⟩ := (contents_iff_getElem? w vals (by omega)).mp hc
  have hd : i + (w.size_ - i) = w.size_ := by omega
  obtain ⟨h1, h2, h3, h4⟩ := insert_shift_spec w.data_ i (w.size_ - i) m w.store w.size_
    (by omega) (by omega)
    (by
      intro j hj1 hj2
      have hj : j < vals.length := by omega
      exact ⟨vals[j], by rw [hcell j (by omega), List.getElem?_eq_getElem hj]⟩)
  rw [hd] at h1 h2 h3 h4
  have hpos : (w.begin.add (i : Int)) = ⟨w.data_ + (i : Int)⟩ := rfl
  have hend : w.end = ⟨w.data_ + (w.size_ : Int)⟩ := rfl
  have hread : cell (insert_shift w.data_ ⟨w.data_ + (i : Int)⟩ w.size_
      ⟨w.data_ + (w.size_ : Int)⟩ m w.store).slots k
      = some (if i < k then vals[k - 1] else vals[k]) := by
    rw [h4 k]
    by_cases hik : i < k
    · rw [if_pos ⟨hik, by omega⟩, if_pos hik, hcell _ (by omega),
        List.getElem?_eq_getElem (by omega)]
    · rw [if_neg (fun h => hik h.1), if_neg hik, hcell _ (by omega),
        List.getElem?_eq_getElem hk]
  unfold insert_rest
  simp only [hpos, hend, h1, Ref.read, load_cell _ _ k _ hread]

theorem insert_cell_room {T : Type} (m : Machine) (v : vector T) (vals : List T) (i k : Nat)
    (hwf : v.wf) (hc : v.contents = vals.map some) (hi : i ≤ vals.length)
    (hk : k < vals.length) (hroom : v.size_ ≠ v.capacity_) :
    v.insert m (v.begin.add (i : Int)) (.cell (v.subscript k))
      = v.insert m (v.begin.add (i : Int)) (.object (if i < k then vals[k - 1] else vals[k])) := by
  have hlt : v.size_ < v.store.length := by have := hwf.1; have := hwf.2; omega
  rw [insert_of_room m v _ _ hroom, insert_of_room m v _ _ hroom, begin_add_diff]
  exact insert_rest_cell m v vals i k hlt hc hi hk

/-- After a growth, `insert` reads a reference into the old block once that block is destroyed
and released. -/
theorem insert_cell_grow {T : Type} (m : Machine) (v : vector T) (vals : List T) (i : Nat)
    (p : Int) (hwf : v.wf) (hc : v.contents = vals.map some) (hi : i ≤ vals.length)
    (hfull : v.size_ = v.capacity_) (hs : ∀ b ∈ m.script.take v.size_, b = false)
    (hp : p ≤ (m.brk : Int)) :
    (v.insert m (v.begin.add (i : Int)) (.cell p)).ret = .error .undefined_behaviour := by
  obtain ⟨hl, -⟩ := (contents_iff_getElem? v vals (by have := hwf.1; have := hwf.2; omega)).mp hc
  have hgrow : v.capacity_ < (if v.capacity_ = 0 then 1 else v.capacity_ * 2) := by
    split <;> omega
  have hres := reserve_grow m v vals _ hwf hc hgrow hs
  rw [insert_of_grow m v _ _ _ _ hfull hres, begin_add_diff]
  generalize (if v.capacity_ = 0 then 1 else v.capacity_ * 2) = nc at *
  have hflen : (filled vals nc v.size_).length = nc :=
    filled_length _ _ _ (by omega) (by have := hwf.1; omega)
  have hd : i + (v.size_ - i) = v.size_ := by omega
  obtain ⟨h1, -, -, -⟩ := insert_shift_spec ((m.brk : Int) + 1) i (v.size_ - i)
    (reallocated m v nc true) (filled vals nc v.size_) v.size_
    (by rw [hflen]; have := hwf.1; omega) (by omega)
    (by
      intro j hj1 hj2
      have hj : j < vals.length := by omega
      refine ⟨vals[j], ?_⟩
      rw [← hl]
      exact cell_filled vals nc j hj)
  rw [hd] at h1
  unfold insert_rest
  simp only [vector.begin, vector.end, vector_iterator.add, h1,
    read_below ((m.brk : Int) + 1) _ p (by omega)]

/-! ## The claims about reference arguments and about the cell at `size()` -/

/-- C4, failing runs.  `insert(begin(), v[1])` on the vector `[10, 40]` of capacity 4: the
shift overwrites `v[1]` with `v[0]` before `*pos = value` reads it, and the call leaves
`[10, 10, 40]`, not `[40, 10, 40]`; on the same vector with capacity 2 the argument is read in
the block the growth has released.  `insert(begin() + 1, 99)` on `[10, 40]` of capacity 4, an
argument of the caller: the shift starts with an assignment to cell 2 (address 9), in which
no object was constructed, and no construction follows. -/
theorem C4_insert_counterexample :
    ((vector.mk 7 2 4 [⟨some 10, true⟩, ⟨some 40, true⟩, ⟨none, false⟩, ⟨none, false⟩] :
      vector Nat).insert ⟨[], 11, []⟩ ⟨7⟩ (.cell 8)).ret = .ok ⟨7⟩ ∧
    ((vector.mk 7 2 4 [⟨some 10, true⟩, ⟨some 40, true⟩, ⟨none, false⟩, ⟨none, false⟩] :
      vector Nat).insert ⟨[], 11, []⟩ ⟨7⟩ (.cell 8)).self.contents
      = [some 10, some 10, some 40] ∧
    ((vector.mk 7 2 4 [⟨some 10, true⟩, ⟨some 40, true⟩, ⟨none, false⟩, ⟨none, false⟩] :
      vector Nat).insert ⟨[], 11, []⟩ ⟨7⟩ (.cell 8)).self.contents
      ≠ ([10, 40].take 0 ++ [40] ++ [10, 40].drop 0).map some ∧
    ((vector.mk 7 2 2 [⟨some 10, true⟩, ⟨some 40, true⟩] : vector Nat).insert ⟨[], 11, []⟩ ⟨7⟩
      (.cell 8)).ret = .error .undefined_behaviour ∧
    ((vector.mk 7 2 4 [⟨some 10, true⟩, ⟨some 40, true⟩, ⟨none, false⟩, ⟨none, false⟩] :
      vector Nat).insert ⟨[], 11, []⟩ ⟨8⟩ (.object 99)).mach.trace
      = [Event.assign 9 false, Event.assign 8 true] ∧
    alive ((vector.mk 7 2 4 [⟨some 10, true⟩, ⟨some 40, true⟩, ⟨none, false⟩, ⟨none, false⟩] :
      vector Nat).insert ⟨[], 11, []⟩ ⟨8⟩ (.object 99)).self.store 2 = false := by
  decide

/-- C4 on the code.  With `x` an object of the caller, on a vector that holds `s` and
satisfies the slot-state invariant, `insert(begin() + idx, x)` with `idx <= |s|` returns at
offset `idx` with the contents `s[0 .. idx) ++ [x] ++ s[idx ..)` and `size() = |s| + 1`, grown
or not, in storage where an assignment is a plain write of the cell; it gets there through an
assignment to the cell at index `|s|`, in which no object was constructed, and that cell, now
an element, is left without an object.  With the argument an element of the vector itself,
`insert(begin() + idx, v[k])` without a growth inserts what the shift left in cell `k`, the
old `v[k - 1]` when `idx < k`; with a growth (the relocation succeeding) it reads the argument
in the block it has released: undefined behaviour. -/
theorem C4_insert_through_raw_cell (T : Type) :
    (∀ (m : Machine) (v : vector T) (s : List T) (idx : Nat) (x : T), v.wf →
      v.contents = s.map some → idx ≤ s.length → v.slots_ok →
      (v.size_ = v.capacity_ → ∀ b ∈ m.script.take v.size_, b = false) →
      (∃ it, (v.insert m (v.begin.add (idx : Int)) (.object x)).ret = .ok it ∧
        it.diff (v.insert m (v.begin.add (idx : Int)) (.object x)).self.begin = (idx : Int) ∧
        (v.insert m (v.begin.add (idx : Int)) (.object x)).self.read it.ptr_ = .ok x ∧
        (v.insert m (v.begin.add (idx : Int)) (.object x)).self.contents
          = (s.take idx ++ [x] ++ s.drop idx).map some ∧
        (v.insert m (v.begin.add (idx : Int)) (.object x)).self.size = s.length + 1) ∧
      (v.insert m (v.begin.add (idx : Int)) (.object x)).mach.trace.take m.trace.length
        = m.trace ∧
      (v.insert m (v.begin.add (idx : Int)) (.object x)).self.data_ + (v.size : Int)
        ∈ raw_assigns ((v.insert m (v.begin.add (idx : Int)) (.object x)).mach.trace.drop
            m.trace.length) ∧
      alive (v.insert m (v.begin.add (idx : Int)) (.object x)).self.store v.size = false) ∧
    (∀ (m : Machine) (v : vector T) (s : List T) (idx k : Nat) (hk : k < s.length), v.wf →
      v.contents = s.map some → idx ≤ s.length → v.size_ ≠ v.capacity_ →
      (v.insert m (v.begin.add (idx : Int)) (.cell (v.subscript k))).ret
        = .ok (v.begin.add (idx : Int)) ∧
      (v.insert m (v.begin.add (idx : Int)) (.cell (v.subscript k))).self.contents
        = (s.take idx ++ [if idx < k then s[k - 1] else s[k]] ++ s.drop idx).map some) ∧
    (∀ (m : Machine) (v : vector T) (s : List T) (idx k : Nat), k < s.length → v.wf →
      v.contents = s.map some → idx ≤ s.length → v.size_ = v.capacity_ →
      v.data_ + (v.capacity_ : Int) ≤ (m.brk : Int) + 1 →
      (∀ b ∈ m.script.take v.size_, b = false) →
      (v.insert m (v.begin.add (idx : Int)) (.cell (v.subscript k))).ret
        = .error .undefined_behaviour) := by
  refine ⟨?_, ?_, ?_⟩
  · intro m v s idx x hwf hc hidx hok hs
    obtain ⟨h1, h2, h3, h4, -⟩ := insert_ok m v s idx x hwf hc hidx hs
    obtain ⟨r1, r2, r3⟩ := insert_raw_assign m v s idx x hwf hc hidx hok hs
    have hl := ((contents_iff v s (by have := hwf.1; have := hwf.2; omega)).mp hc).1
    refine ⟨⟨_, h1, begin_add_diff _ _, ?_, h3, by rw [vector.size, h4, hl]⟩, r1, r2, r3⟩
    obtain ⟨-, hcell⟩ := (contents_iff_getElem? _ _ (by have := h2.1; have := h2.2; omega)).mp h3
    have hx := hcell idx (by omega)
    rw [insert_list_getElem? s idx x idx hidx, if_pos rfl] at hx
    exact load_cell _ _ idx x hx
  · intro m v s idx k hk hwf hc hidx hroom
    rw [insert_cell_room m v s idx k hwf hc hidx hk hroom, insert_of_room m v _ _ hroom,
      begin_add_diff]
    have hlt : v.size_ < v.store.length := by have := hwf.1; have := hwf.2; omega
    obtain ⟨h1, -, -, -, -, -, h7⟩ :=
      insert_rest_ok m v s idx (if idx < k then s[k - 1] else s[k]) hlt hc hidx
    exact ⟨h1, h7⟩
  · intro m v s idx k hk hwf hc hidx hfull hblock hs
    exact insert_cell_grow m v s idx (v.subscript k) hwf hc hidx hfull hs
      (by simp only [vector.subscript]; have := hwf.1
          have := ((contents_iff v s (by have := hwf.1; have := hwf.2; omega)).mp hc).1
          omega)

theorem C4_insert_through_raw_cell_witness :
    ((vector.mk 7 2 4 [⟨some 10, true⟩, ⟨some 40, true⟩, ⟨none, false⟩, ⟨none, false⟩] :
        vector Nat).insert ⟨[], 11, []⟩
        ((vector.mk 7 2 4 [⟨some 10, true⟩, ⟨some 40, true⟩, ⟨none, false⟩, ⟨none, false⟩] :
          vector Nat).begin.add ((1 : Nat) : Int)) (.object 99)).self.contents
      = ([10, 40].take 1 ++ [99] ++ [10, 40].drop 1).map some ∧
    alive ((vector.mk 7 2 4 [⟨some 10, true⟩, ⟨some 40, true⟩, ⟨none, false⟩, ⟨none, false⟩] :
        vector Nat).insert ⟨[], 11, []⟩
        ((vector.mk 7 2 4 [⟨some 10, true⟩, ⟨some 40, true⟩, ⟨none, false⟩, ⟨none, false⟩] :
          vector Nat).begin.add ((1 : Nat) : Int)) (.object 99)).self.store
      (vector.mk 7 2 4 [⟨some 10, true⟩, ⟨some 40, true⟩, ⟨none, false⟩, ⟨none, false⟩] :
        vector Nat).size = false ∧
    ((vector.mk 7 2 4 [⟨some 10, true⟩, ⟨some 40, true⟩, ⟨none, false⟩, ⟨none, false⟩] :
        vector Nat).insert ⟨[], 11, []⟩
        ((vector.mk 7 2 4 [⟨some 10, true⟩, ⟨some 40, true⟩, ⟨none, false⟩, ⟨none, false⟩] :
          vector Nat).begin.add ((0 : Nat) : Int))
        (.cell ((vector.mk 7 2 4 [⟨some 10, true⟩, ⟨some 40, true⟩, ⟨none, false⟩,
          ⟨none, false⟩] : vector Nat).subscript 1))).self.contents
      = ([10, 40].take 0 ++ [if 0 < 1 then [10, 40][1 - 1] else [10, 40][1]]
          ++ [10, 40].drop 0).map some ∧
    ((vector.mk 7 2 2 [⟨some 10, true⟩, ⟨some 40, true⟩] : vector Nat).insert ⟨[], 11, []⟩
        ((vector.mk 7 2 2 [⟨some 10, true⟩, ⟨some 40, true⟩] : vector Nat).begin.add
          ((0 : Nat) : Int))
        (.cell ((vector.mk 7 2 2 [⟨some 10, true⟩, ⟨some 40, true⟩] : vector Nat).subscript
          1))).ret = .error .undefined_behaviour :=
  ⟨(Exists.choose_spec ((C4_insert_through_raw_cell Nat).1 ⟨[], 11, []⟩
      ⟨7, 2, 4, [⟨some 10, true⟩, ⟨some 40, true⟩, ⟨none, false⟩, ⟨none, false⟩]⟩
      [10, 40] 1 99 (by decide) (by decide) (by decide) (by decide) (by decide)).1).2.2.2.1,
   ((C4_insert_through_raw_cell Nat).1 ⟨[], 11, []⟩
      ⟨7, 2, 4, [⟨some 10, true⟩, ⟨some 40, true⟩, ⟨none, false⟩, ⟨none, false⟩]⟩
      [10, 40] 1 99 (by decide) (by decide) (by decide) (by decide) (by decide)).2.2.2,
   ((C4_insert_through_raw_cell Nat).2.1 ⟨[], 11, []⟩
      ⟨7, 2, 4, [⟨some 10, true⟩, ⟨some 40, true⟩, ⟨none, false⟩, ⟨none, false⟩]⟩
      [10, 40] 0 1 (by decide) (by decide) (by decide) (by decide) (by decide)).2,
   (C4_insert_through_raw_cell Nat).2.2 ⟨[], 11, []⟩
      ⟨7, 2, 2, [⟨some 10, true⟩, ⟨some 40, true⟩]⟩
      [10, 40] 0 1 (by decide) (by decide) (by decide) (by decide) (by decide) (by decide)
      (by decide)⟩

/-- C7, failing run.  `insert(begin() + 1, 99)` then `erase(begin() + 1)` on the vector
`[10, 40]` of capacity 4 (block at address 7): the whole run is an assignment to cell 2
(address 9), which holds no object, two assignments to cell 1, and the destruction of cell 2.
No object is ever constructed at address 9: the insert assigns to raw storage, leaves an
element without an object, and the erase moves from it and destroys it. -/
theorem C7_insert_then_erase_counterexample :
    (((vector.mk 7 2 4 [⟨some 10, true⟩, ⟨some 40, true⟩, ⟨none, false⟩, ⟨none, false⟩] :
        vector Nat).insert ⟨[], 11, []⟩ ⟨8⟩ (.object 99)).self.erase
      ((vector.mk 7 2 4 [⟨some 10, true⟩, ⟨some 40, true⟩, ⟨none, false⟩, ⟨none, false⟩] :
        vector Nat).insert ⟨[], 11, []⟩ ⟨8⟩ (.object 99)).mach ⟨8⟩).mach.trace
      = [Event.assign 9 false, Event.assign 8 true, Event.assign 8 true, Event.destroy 9] ∧
    alive ((vector.mk 7 2 4 [⟨some 10, true⟩, ⟨some 40, true⟩, ⟨none, false⟩, ⟨none, false⟩] :
        vector Nat).insert ⟨[], 11, []⟩ ⟨8⟩ (.object 99)).self.store 2 = false ∧
    ((vector.mk 7 2 4 [⟨some 10, true⟩, ⟨some 40, true⟩, ⟨none, false⟩, ⟨none, false⟩] :
        vector Nat).insert ⟨[], 11, []⟩ ⟨8⟩ (.object 99)).self.size = 3 ∧
    Event.construct 9 ∉
      (((vector.mk 7 2 4 [⟨some 10, true⟩, ⟨some 40, true⟩, ⟨none, false⟩, ⟨none, false⟩] :
        vector Nat).insert ⟨[], 11, []⟩ ⟨8⟩ (.object 99)).self.erase
      ((vector.mk 7 2 4 [⟨some 10, true⟩, ⟨some 40, true⟩, ⟨none, false⟩, ⟨none, false⟩] :
        vector Nat).insert ⟨[], 11, []⟩ ⟨8⟩ (.object 99)).mach ⟨8⟩).mach.trace := by
  decide

/-- C7 on the code.  On a vector that holds `s` and satisfies the slot-state invariant,
`insert(begin() + idx, x)` with `idx <= |s|` and `x` an object of the caller, followed by
`erase(begin() + idx)` on the result, returns normally both times and leaves the contents `s`
and the `size()` of before in storage where an assignment is a plain write of the cell; the
insert assigns to the cell at index `size()`, in which no object was constructed, and leaves
that element without an object, and the only destructor call of the erase is on that same
cell. -/
theorem C7_insert_then_erase_through_raw_cell (T : Type) (m : Machine) (v : vector T)
    (s : List T) (idx : Nat) (x : T) (hwf : v.wf) (hc : v.contents = s.map some)
    (hidx : idx ≤ s.length) (hok : v.slots_ok)
    (hs : v.size_ = v.capacity_ → ∀ b ∈ m.script.take v.size_, b = false)
    (hsz : v.size_ + 1 < 2 ^ 64) :
    (v.insert m (v.begin.add (idx : Int)) (.object x)).ret
      = .ok ((v.insert m (v.begin.add (idx : Int)) (.object x)).self.begin.add (idx : Int)) ∧
    ((v.insert m (v.begin.add (idx : Int)) (.object x)).self.erase (v.insert m (v.begin.add (idx : Int)) (.object x)).mach
        ((v.insert m (v.begin.add (idx : Int)) (.object x)).self.begin.add (idx : Int))).ret
      = .ok ((v.insert m (v.begin.add (idx : Int)) (.object x)).self.begin.add (idx : Int)) ∧
    ((v.insert m (v.begin.add (idx : Int)) (.object x)).self.erase (v.insert m (v.begin.add (idx : Int)) (.object x)).mach
        ((v.insert m (v.begin.add (idx : Int)) (.object x)).self.begin.add (idx : Int))).self.contents
      = s.map some ∧
    ((v.insert m (v.begin.add (idx : Int)) (.object x)).self.erase (v.insert m (v.begin.add (idx : Int)) (.object x)).mach
        ((v.insert m (v.begin.add (idx : Int)) (.object x)).self.begin.add (idx : Int))).self.size
      = v.size ∧
    (v.insert m (v.begin.add (idx : Int)) (.object x)).self.data_ + (v.size : Int)
      ∈ raw_assigns ((v.insert m (v.begin.add (idx : Int)) (.object x)).mach.trace.drop m.trace.length) ∧
    alive (v.insert m (v.begin.add (idx : Int)) (.object x)).self.store v.size = false ∧
    destroy_order (((v.insert m (v.begin.add (idx : Int)) (.object x)).self.erase (v.insert m (v.begin.add (idx : Int)) (.object x)).mach
        ((v.insert m (v.begin.add (idx : Int)) (.object x)).self.begin.add (idx : Int))).mach.trace.drop
        (v.insert m (v.begin.add (idx : Int)) (.object x)).mach.trace.length)
      = [(v.insert m (v.begin.add (idx : Int)) (.object x)).self.data_ + (v.size : Int)] := by
  obtain ⟨h1, h2, h3, h4, -⟩ := insert_ok m v s idx x hwf hc hidx hs
  obtain ⟨-, r2, r3⟩ := insert_raw_assign m v s idx x hwf hc hidx hok hs
  obtain ⟨g1, -, g3, g4, -⟩ := erase_ok (v.insert m (v.begin.add (idx : Int)) (.object x)).mach
    (v.insert m (v.begin.add (idx : Int)) (.object x)).self (s.take idx ++ [x] ++ s.drop idx) idx h2 h3
    (by rw [insert_length s idx x hidx]; omega) (by rw [h4]; exact hsz)
  obtain ⟨-, d2⟩ := erase_destroys (v.insert m (v.begin.add (idx : Int)) (.object x)).mach
    (v.insert m (v.begin.add (idx : Int)) (.object x)).self (s.take idx ++ [x] ++ s.drop idx) idx h2 h3
    (by rw [insert_length s idx x hidx]; omega) (by rw [h4]; exact hsz)
  rw [eraseIdx_insert s idx x hidx] at g3
  refine ⟨h1, g1, g3, ?_, r2, r3, ?_⟩
  · rw [vector.size, g4, h4]
    simp [vector.size]
  · rw [d2, h4]
    simp [vector.size]

theorem C7_insert_then_erase_through_raw_cell_witness :
    (((vector.mk 7 2 2 [⟨some 10, true⟩, ⟨some 30, true⟩] : vector Nat).insert ⟨[], 9, []⟩
        ((vector.mk 7 2 2 [⟨some 10, true⟩, ⟨some 30, true⟩] : vector Nat).begin.add
          ((1 : Nat) : Int)) (.object 99)).self.erase
      ((vector.mk 7 2 2 [⟨some 10, true⟩, ⟨some 30, true⟩] : vector Nat).insert ⟨[], 9, []⟩
        ((vector.mk 7 2 2 [⟨some 10, true⟩, ⟨some 30, true⟩] : vector Nat).begin.add
          ((1 : Nat) : Int)) (.object 99)).mach
      (((vector.mk 7 2 2 [⟨some 10, true⟩, ⟨some 30, true⟩] : vector Nat).insert ⟨[], 9, []⟩
        ((vector.mk 7 2 2 [⟨some 10, true⟩, ⟨some 30, true⟩] : vector Nat).begin.add
          ((1 : Nat) : Int)) (.object 99)).self.begin.add ((1 : Nat) : Int))).self.contents
      = [10, 30].map some ∧
    alive ((vector.mk 7 2 2 [⟨some 10, true⟩, ⟨some 30, true⟩] : vector Nat).insert ⟨[], 9, []⟩
        ((vector.mk 7 2 2 [⟨some 10, true⟩, ⟨some 30, true⟩] : vector Nat).begin.add
          ((1 : Nat) : Int)) (.object 99)).self.store
      (vector.mk 7 2 2 [⟨some 10, true⟩, ⟨some 30, true⟩] : vector Nat).size = false :=
  ⟨(C7_insert_then_erase_through_raw_cell Nat ⟨[], 9, []⟩
      ⟨7, 2, 2, [⟨some 10, true⟩, ⟨some 30, true⟩]⟩
      [10, 30] 1 99 (by decide) (by decide) (by decide) (by decide) (by decide)
      (by decide)).2.2.1,
   (C7_insert_then_erase_through_raw_cell Nat ⟨[], 9, []⟩
      ⟨7, 2, 2, [⟨some 10, true⟩, ⟨some 30, true⟩]⟩
      [10, 30] 1 99 (by decide) (by decide) (by decide) (by decide) (by decide)
      (by decide)).2.2.2.2.2.1⟩

end mini_stl
